import Mathlib

/-!
Shallow embedding of `src/utils/markdown.ts` (a PDF-text to Markdown
converter) and verification of its specification claims.

Strings are modelled as `List Char`; every character of the source is a
BMP code point, so one `Char` corresponds to one UTF-16 unit of the
JavaScript string and JavaScript's `string.length` is `List.length`.

The JavaScript regular expressions are embedded as executable Lean
functions.  The semantics used throughout:
* `/g` replacement scans left to right, replacing each non-overlapping
  leftmost match and resuming immediately after the replaced text;
* with `/m`, `^` matches at position 0 and directly after a line
  terminator (LF, CR, U+2028, U+2029), and `$` matches at the end and
  directly before a line terminator;
* `\s` is the ECMAScript whitespace set (which contains the line
  terminators), `.` matches everything except line terminators, and
  `\b`/`\w` are ASCII (`[A-Za-z0-9_]`);
* quantifiers are greedy with backtracking, alternatives are tried in
  the order written.
-/

/-- ECMAScript line terminators (the characters `^`/`$`/`.` care about). -/
def isLineTerm (c : Char) : Bool :=
  c == '\n' || c == '\r' || c == '\u2028' || c == '\u2029'

/-- ECMAScript whitespace characters other than the line terminators. -/
def jsSpaceChars : List Char :=
  [' ', '\t', '\x0b', '\x0c', '\u00a0', '\u1680',
   '\u2000', '\u2001', '\u2002', '\u2003', '\u2004', '\u2005',
   '\u2006', '\u2007', '\u2008', '\u2009', '\u200a',
   '\u202f', '\u205f', '\u3000', '\ufeff']

/-- ECMAScript `\s` (also the set removed by `String.prototype.trim`). -/
def isJsWs (c : Char) : Bool :=
  isLineTerm c || jsSpaceChars.contains c

/-- The class `[ \t]`. -/
def isST (c : Char) : Bool :=
  c == ' ' || c == '\t'

/-- JavaScript `String.prototype.trim` on a character list. -/
def jsTrimL (l : List Char) : List Char :=
  ((l.dropWhile isJsWs).reverse.dropWhile isJsWs).reverse

/-! ### cleanText

`cleanText` is a chain of four global replacements:
`[ \t]+ → ' '`, `\n{4,} → '\n\n\n'`, `^\s+|\s+$ → ''` (multiline) and a
final `trim()`.  Each replacement is embedded as a state machine over
the character list. -/

/-- Replacement `/[ \t]+/g → ' '`: every maximal run of spaces/tabs
becomes a single space.  `prevST` records whether the previous character
belonged to the current run. -/
def collapseSTAux : Bool → List Char → List Char
  | _, [] => []
  | prevST, c :: cs =>
    if isST c then
      if prevST then collapseSTAux true cs else ' ' :: collapseSTAux true cs
    else c :: collapseSTAux false cs

def collapseST (l : List Char) : List Char :=
  collapseSTAux false l

/-- Emit a pending run of `k` newline characters for `/\n{4,}/g → '\n\n\n'`:
a greedy match takes a whole maximal run, so a run of four or more
newlines becomes exactly three. -/
def emitNLRun (k : Nat) : List Char :=
  List.replicate (if 4 ≤ k then 3 else k) '\n'

/-- Replacement `/\n{4,}/g → '\n\n\n'`; `k` counts the pending `'\n'` run. -/
def collapseNL4Aux : Nat → List Char → List Char
  | k, [] => emitNLRun k
  | k, c :: cs =>
    if c == '\n' then collapseNL4Aux (k + 1) cs
    else emitNLRun k ++ c :: collapseNL4Aux 0 cs

def collapseNL4 (l : List Char) : List Char :=
  collapseNL4Aux 0 l

/-- Split a list at its last line-terminator character:
`lastLTSplit l = some (b, t, a)` with `l = b ++ t :: a`, `t` a line
terminator and `a` free of line terminators. -/
def lastLTSplit : List Char → Option (List Char × Char × List Char)
  | [] => none
  | c :: cs =>
    match lastLTSplit cs with
    | some (b, t, a) => some (c :: b, t, a)
    | none => if isLineTerm c then some ([], c, cs) else none

/-- What survives of a maximal whitespace run that neither starts at
position 0 nor touches the end of the string, under
`/^\s+|\s+$/gm → ''` (derived from the ECMAScript matching rules):
a run without line terminators is left alone; otherwise only the last
line terminator survives, and only when it is not immediately preceded
by another line terminator inside the run. -/
def survInterior (run : List Char) : List Char :=
  match lastLTSplit run with
  | none => run
  | some (b, t, _) =>
    match b.getLast? with
    | none => [t]
    | some p => if isLineTerm p then [] else [t]

/-- Body of `/^\s+|\s+$/gm → ''` after the leading whitespace run has
been removed: `pend` is the whitespace run being accumulated; a run
still pending at the end of the input is dropped entirely (it matches
`\s+$`). -/
def trimBodyAux : List Char → List Char → List Char
  | _, [] => []
  | pend, c :: cs =>
    if isJsWs c then trimBodyAux (pend ++ [c]) cs
    else survInterior pend ++ c :: trimBodyAux [] cs

/-- Replacement `/^\s+|\s+$/gm → ''`.  A maximal whitespace run can only
start at a `^` position when it starts at position 0 (the character
before any later run is not a line terminator), and `^\s+` then deletes
the whole run. -/
def trimLinesL (l : List Char) : List Char :=
  trimBodyAux [] (l.dropWhile isJsWs)

/-- `cleanText` from the source, on character lists. -/
def cleanTextL (l : List Char) : List Char :=
  jsTrimL (trimLinesL (collapseNL4 (collapseST l)))

/-- `cleanText(text)` from `src/utils/markdown.ts`. -/
def cleanText (s : String) : String :=
  String.mk (cleanTextL s.data)

/-! ### A small backtracking matcher for the remaining regexes

Every remaining regex in the source is a concatenation of character
classes with greedy quantifiers, literals, ordered alternations and
zero-width tests, so it is embedded as a list of such elements.
`elemMatches` lists the candidate splits of one element in the order the
ECMAScript engine tries them (longest first); `seqMatch` composes them
with backtracking, returning the consumed text of each element. -/

inductive RElem where
  | cls (p : Char → Bool) (lo : Nat) (hi : Option Nat)
  | lit (s : List Char)
  | alts (ss : List (List Char))
  | test (f : List Char → Bool)

/-- Candidate `(consumed, rest)` splits for one element, greedy first. -/
def elemMatches : RElem → List Char → List (List Char × List Char)
  | .cls p lo hi, l =>
    let n := (l.takeWhile p).length
    let m := match hi with
      | none => n
      | some h => min n h
    if m < lo then []
    else (List.range (m + 1 - lo)).map (fun i => (l.take (m - i), l.drop (m - i)))
  | .lit s, l =>
    if s.isPrefixOf l then [(s, l.drop s.length)] else []
  | .alts ss, l =>
    ss.filterMap (fun s => if s.isPrefixOf l then some (s, l.drop s.length) else none)
  | .test f, l =>
    if f l then [([], l)] else []

/-- Match a sequence of elements at the head of `l`, returning what each
element consumed and the remainder.  Candidates are tried in the order
produced by `elemMatches`, which realizes greedy backtracking. -/
def seqMatch : List RElem → List Char → Option (List (List Char) × List Char)
  | [], l => some ([], l)
  | e :: es, l =>
    (elemMatches e l).findSome? fun p =>
      match seqMatch es p.2 with
      | some (ms, r) => some (p.1 :: ms, r)
      | none => none

/-- One `.replace(regex, …)` rule: a condition on the character before
the match position (realizing `^` under `/m`, or a leading `\b`), the
element sequence, and the replacement built from the per-element
consumed texts (`ms.flatten` is the whole match). -/
structure RRule where
  prevCond : Option Char → Bool
  pat : List RElem
  emit : List (List Char) → List Char

/-- `^` under `/m`: position 0 or directly after a line terminator. -/
def lineStartP : Option Char → Bool
  | none => true
  | some c => isLineTerm c

/-- `$` under `/m` as a zero-width test on the remainder. -/
def endLineT (l : List Char) : Bool :=
  match l with
  | [] => true
  | c :: _ => isLineTerm c

/-- Try a rule at the current position. Returns the replacement text,
the consumed match and the remainder.  (All embedded patterns consume at
least one character; the emptiness guard only documents that.) -/
def tryRule (r : RRule) (prev : Option Char) (l : List Char) :
    Option (List Char × List Char × List Char) :=
  if r.prevCond prev then
    match seqMatch r.pat l with
    | some (ms, rest) =>
      let m := ms.flatten
      if m.isEmpty then none else some (r.emit ms, m, rest)
    | none => none
  else none

/-- Global replacement: scan left to right, replace each leftmost match
and resume after it.  `prev` is the character before the current
position in the original string; the fuel only bounds the recursion and
is never exhausted when it starts at the length of the input (each step
consumes at least one character). -/
def runRule (r : RRule) : Nat → Option Char → List Char → List Char
  | 0, _, l => l
  | _ + 1, _, [] => []
  | fuel + 1, prev, c :: cs =>
    match tryRule r prev (c :: cs) with
    | some (em, m, rest) => em ++ runRule r fuel (some (m.getLastD c)) rest
    | none => c :: runRule r fuel (some c) cs

def applyRule (r : RRule) (l : List Char) : List Char :=
  runRule r l.length none l

def applyRules (rs : List RRule) (l : List Char) : List Char :=
  rs.foldl (fun acc r => applyRule r acc) l

/-! ### detectHeadings -/

def isUpperAscii (c : Char) : Bool := 'A' <= c && c <= 'Z'
def isDigitAscii (c : Char) : Bool := '0' <= c && c <= '9'
def isAsciiWord (c : Char) : Bool :=
  isUpperAscii c || ('a' <= c && c <= 'z') || isDigitAscii c || c == '_'

/-- The class `[0-9一二三四五六七八九十]`. -/
def isNumKanji (c : Char) : Bool :=
  isDigitAscii c ||
    ['一', '二', '三', '四', '五', '六', '七', '八', '九', '十'].contains c

/-- The class `[章節項目条]`. -/
def isChapMark (c : Char) : Bool :=
  ['章', '節', '項', '目', '条'].contains c

/-- The class `[^.\n]`. -/
def notDotNL (c : Char) : Bool := c != '.' && c != '\n'

/-- Rule `/^([A-Z0-9][^.\n]{2,50})$/gm` with its callback: the matched
line becomes `\n# <heading.trim()>\n` only when the capture is shorter
than 50 characters and contains neither `。` nor `、`; otherwise the
callback returns the match unchanged. -/
def hRule1 : RRule where
  prevCond := lineStartP
  pat := [.cls (fun c => isUpperAscii c || isDigitAscii c) 1 (some 1),
          .cls notDotNL 2 (some 50), .test endLineT]
  emit := fun ms =>
    let heading := ms.flatten
    if heading.length < 50 && !heading.contains '。' && !heading.contains '、' then
      '\n' :: '#' :: ' ' :: jsTrimL heading ++ ['\n']
    else heading

/-- Rule `/^(第?\s*[0-9一二三四五六七八九十]+\s*[章節項目条]?\.?\s*)([^\n]+)/gm`
replaced by `'\n## $1$2\n'` (`$1$2` is the whole match). -/
def hRule2 : RRule where
  prevCond := lineStartP
  pat := [.cls (fun c => c == '第') 0 (some 1), .cls isJsWs 0 none,
          .cls isNumKanji 1 none, .cls isJsWs 0 none,
          .cls isChapMark 0 (some 1), .cls (fun c => c == '.') 0 (some 1),
          .cls isJsWs 0 none, .cls (fun c => c != '\n') 1 none]
  emit := fun ms => '\n' :: '#' :: '#' :: ' ' :: ms.flatten ++ ['\n']

/-- Rule `/^(\d+\.?\s*)([^.\n]{5,80})$/gm` with its callback: the match
becomes `\n### $1<title.trim()>\n` only when the title capture contains
no `。` and is shorter than 80 characters; otherwise the match is
returned unchanged. -/
def hRule3 : RRule where
  prevCond := lineStartP
  pat := [.cls isDigitAscii 1 none, .cls (fun c => c == '.') 0 (some 1),
          .cls isJsWs 0 none, .cls notDotNL 5 (some 80), .test endLineT]
  emit := fun ms =>
    let num := ms.getD 0 [] ++ ms.getD 1 [] ++ ms.getD 2 []
    let title := ms.getD 3 []
    if !title.contains '。' && title.length < 80 then
      '\n' :: '#' :: '#' :: '#' :: ' ' :: (num ++ jsTrimL title ++ ['\n'])
    else ms.flatten

/-- Rule `/^([A-Z]\.?\s*)([^.\n]{5,50})$/gm` replaced by `'\n#### $1$2\n'`. -/
def hRule4 : RRule where
  prevCond := lineStartP
  pat := [.cls isUpperAscii 1 (some 1), .cls (fun c => c == '.') 0 (some 1),
          .cls isJsWs 0 none, .cls notDotNL 5 (some 50), .test endLineT]
  emit := fun ms => '\n' :: '#' :: '#' :: '#' :: '#' :: ' ' :: ms.flatten ++ ['\n']

/-- `detectHeadings(text)` from the source: the four replacements chained. -/
def detectHeadingsL (l : List Char) : List Char :=
  applyRules [hRule1, hRule2, hRule3, hRule4] l

def detectHeadings (s : String) : String :=
  String.mk (detectHeadingsL s.data)

/-! ### detectLists -/

/-- The class `[•·▪▫◦‣⁃]`. -/
def isBulletGlyph (c : Char) : Bool :=
  ['\u2022', '\u00b7', '\u25aa', '\u25ab', '\u25e6', '\u2023', '\u2043'].contains c

/-- The class `[.)]`. -/
def isDotParen (c : Char) : Bool := c == '.' || c == ')'

/-- The circled digits `①②③④⑤⑥⑦⑧⑨⑩` in order, as used by the
lookup `'①②③④⑤⑥⑦⑧⑨⑩'.indexOf(match.trim()) + 1`. -/
def circledDigits : List Char :=
  ['\u2460', '\u2461', '\u2462', '\u2463', '\u2464',
   '\u2465', '\u2466', '\u2467', '\u2468', '\u2469']

def isCircled (c : Char) : Bool := circledDigits.contains c

/-- `indexOf` on the lookup string, 0-based; -1 is impossible because the
class only matches those ten characters. -/
def circledIndex (c : Char) : Nat :=
  (circledDigits.indexOf c) + 1

def lRule1 : RRule where
  prevCond := lineStartP
  pat := [.cls isJsWs 0 none, .cls isBulletGlyph 1 (some 1), .cls isJsWs 0 none]
  emit := fun _ => ['-', ' ']

def lRule2 : RRule where
  prevCond := lineStartP
  pat := [.cls isJsWs 0 none, .cls isDigitAscii 1 none,
          .cls isDotParen 1 (some 1), .cls isJsWs 0 none]
  emit := fun ms => ms.getD 1 [] ++ ['.', ' ']

def lRule3 : RRule where
  prevCond := lineStartP
  pat := [.cls isJsWs 0 none,
          .cls (fun c => isUpperAscii c || ('a' <= c && c <= 'z')) 1 (some 1),
          .cls isDotParen 1 (some 1), .cls isJsWs 0 none]
  emit := fun ms => '-' :: ' ' :: '*' :: '*' :: ms.getD 1 [] ++ [')', '*', '*', ' ']

/-- Rule `/^[\s]*[①②③④⑤⑥⑦⑧⑨⑩]/gm` with the callback mapping the
trimmed match (the circled glyph) to `<n>. `. -/
def lRule4 : RRule where
  prevCond := lineStartP
  pat := [.cls isJsWs 0 none, .cls isCircled 1 (some 1)]
  emit := fun ms =>
    (toString (circledIndex ((ms.getD 1 []).headD ' '))).data ++ ['.', ' ']

/-- The class `[-−–—]`. -/
def isDashGlyph (c : Char) : Bool :=
  ['-', '\u2212', '\u2013', '\u2014'].contains c

def lRule5 : RRule where
  prevCond := lineStartP
  pat := [.cls isJsWs 0 none, .cls isDashGlyph 1 (some 1), .cls isJsWs 0 none]
  emit := fun _ => ['-', ' ']

def detectListsL (l : List Char) : List Char :=
  applyRules [lRule1, lRule2, lRule3, lRule4, lRule5] l

def detectLists (s : String) : String :=
  String.mk (detectListsL s.data)

/-! ### detectTables

`detectTables` is not a regex pass: the source splits the text into
lines, collects each maximal run of consecutive lines containing a
colon (full-width `：` or half-width `:`), builds one `| key | value |`
row per line whose key (text before the first colon, trimmed) is
non-empty, and emits the run as a table only when at least three rows
were built; otherwise the current line is emitted verbatim and scanning
resumes at the next line. -/

def splitNL : List Char → List (List Char)
  | [] => [[]]
  | c :: cs =>
    if c == '\n' then [] :: splitNL cs
    else
      match splitNL cs with
      | t :: ts => (c :: t) :: ts
      | [] => [[c]]

def joinNL (ls : List (List Char)) : List Char :=
  List.intercalate ['\n'] ls

/-- `line.includes('：') || line.includes(':')`. -/
def hasSep (l : List Char) : Bool :=
  l.contains '：' || l.contains ':'

/-- `line.split(/[：:]/)`. -/
def splitSep : List Char → List (List Char)
  | [] => [[]]
  | c :: cs =>
    if c == '：' || c == ':' then [] :: splitSep cs
    else
      match splitSep cs with
      | t :: ts => (c :: t) :: ts
      | [] => [[c]]

/-- One iteration of the row collector:
`const [key, ...valueParts] = line.split(/[：:]/);`
`const value = valueParts.join(':').trim();`
`if (key.trim()) tableRows.push(`| ${key.trim()} | ${value || ''} |`)`.
(`value || ''` is the identity on an already-string value.) -/
def rowOf (l : List Char) : Option (List Char) :=
  match splitSep l with
  | [] => none
  | key :: valueParts =>
    let k := jsTrimL key
    let v := jsTrimL (List.intercalate [':'] valueParts)
    if k.isEmpty then none
    else some ('|' :: ' ' :: k ++ ' ' :: '|' :: ' ' :: v ++ [' ', '|'])

def mkRows (run : List (List Char)) : List (List Char) :=
  run.filterMap rowOf

def tableHeaderLine : List Char := '\n' :: "| 項目 | 内容 |".data
def tableDividerLine : List Char := "|------|------|".data

/-- The while-loop of `detectTables` over the list of lines.  The fuel
starts at the number of lines; every iteration consumes at least one
line, so the fuel never runs out. -/
def detectTablesGo : Nat → List (List Char) → List (List Char)
  | 0, ls => ls
  | _ + 1, [] => []
  | fuel + 1, l :: ls =>
    if hasSep l then
      let run := l :: ls.takeWhile hasSep
      let rows := mkRows run
      if 3 ≤ rows.length then
        tableHeaderLine :: tableDividerLine ::
          (rows ++ [[]] ++ detectTablesGo fuel (ls.dropWhile hasSep))
      else l :: detectTablesGo fuel ls
    else l :: detectTablesGo fuel ls

def detectTablesL (l : List Char) : List Char :=
  joinNL (detectTablesGo (splitNL l).length (splitNL l))

def detectTables (s : String) : String :=
  String.mk (detectTablesL s.data)

/-! ### detectQuotes -/

/-- The class `[※注意注記備考]` (a character class: any single one of
`※ 注 意 記 備 考`). -/
def isNoteMark (c : Char) : Bool :=
  ['※', '注', '意', '記', '備', '考'].contains c

/-- The class `[：:]`. -/
def isColon (c : Char) : Bool := c == '：' || c == ':'

/-- ECMAScript `.` (without the `s` flag). -/
def isDotAny (c : Char) : Bool := !isLineTerm c

def qRule1 : RRule where
  prevCond := lineStartP
  pat := [.cls isJsWs 0 none, .cls isNoteMark 1 (some 1), .cls isJsWs 0 none,
          .cls isColon 0 (some 1), .cls isJsWs 0 none, .cls isDotAny 1 none]
  emit := fun ms => "> **注:** ".data ++ ms.getD 5 []

def qRule2 : RRule where
  prevCond := lineStartP
  pat := [.cls isJsWs 0 none, .cls (fun c => c == '（' || c == '(') 1 (some 1),
          .cls (fun c => c != '）' && c != ')') 1 none,
          .cls (fun c => c == '）' || c == ')') 1 (some 1),
          .cls isJsWs 0 none, .test endLineT]
  emit := fun ms => '>' :: ' ' :: '*' :: '(' :: ms.getD 2 [] ++ [')', '*']

/-- The opening/closing quote classes of the third rule; in the source
file they are `「 『 " \x27` and `」 』 " \x27` respectively. -/
def isOpenQuote (c : Char) : Bool :=
  ['「', '『', '"', '\x27'].contains c

def isCloseQuote (c : Char) : Bool :=
  ['」', '』', '"', '\x27'].contains c

def qRule3 : RRule where
  prevCond := lineStartP
  pat := [.cls isJsWs 0 none, .cls isOpenQuote 1 (some 1),
          .cls (fun c => !isCloseQuote c && c != '\n') 1 none,
          .cls isCloseQuote 1 (some 1), .cls isJsWs 0 none, .test endLineT]
  emit := fun ms => '>' :: ' ' :: '"' :: ms.getD 2 [] ++ ['"']

def detectQuotesL (l : List Char) : List Char :=
  applyRules [qRule1, qRule2, qRule3] l

def detectQuotes (s : String) : String :=
  String.mk (detectQuotesL s.data)

/-! ### detectLinks -/

/-- The class `[^\s\)]`. -/
def isUrlChar (c : Char) : Bool := !isJsWs c && c != ')'

def kRule1 : RRule where
  prevCond := fun _ => true
  pat := [.lit "http".data, .cls (fun c => c == 's') 0 (some 1),
          .lit "://".data, .cls isUrlChar 1 none]
  emit := fun ms =>
    let m := ms.flatten
    '[' :: m ++ ']' :: '(' :: m ++ [')']

/-- The classes `[a-zA-Z0-9._%+-]` and `[a-zA-Z0-9.-]`. -/
def isEmailLocal (c : Char) : Bool :=
  isUpperAscii c || ('a' <= c && c <= 'z') || isDigitAscii c ||
    ['.', '_', '%', '+', '-'].contains c

def isEmailDomain (c : Char) : Bool :=
  isUpperAscii c || ('a' <= c && c <= 'z') || isDigitAscii c || c == '.' || c == '-'

def isAlphaAscii (c : Char) : Bool :=
  isUpperAscii c || ('a' <= c && c <= 'z')

def kRule2 : RRule where
  prevCond := fun _ => true
  pat := [.cls isEmailLocal 1 none, .lit "@".data,
          .cls isEmailDomain 1 none, .lit ".".data, .cls isAlphaAscii 2 none]
  emit := fun ms =>
    let m := ms.flatten
    '[' :: m ++ ']' :: '(' :: "mailto:".data ++ m ++ [')']

def detectLinksL (l : List Char) : List Char :=
  applyRules [kRule1, kRule2] l

def detectLinks (s : String) : String :=
  String.mk (detectLinksL s.data)

/-- `detectAndConvertStructure(text)`: the five detection passes chained. -/
def detectAndConvertStructureL (l : List Char) : List Char :=
  detectLinksL (detectQuotesL (detectTablesL (detectListsL (detectHeadingsL l))))

def detectAndConvertStructure (s : String) : String :=
  String.mk (detectAndConvertStructureL s.data)

/-! ### improveReadability -/

def rRule1 : RRule where
  prevCond := fun _ => true
  pat := [.cls (fun c => c == '\n') 3 none]
  emit := fun _ => ['\n', '\n']

def rRule2 : RRule where
  prevCond := fun _ => true
  pat := [.cls (fun c => c != '\n') 1 (some 1), .lit "\n".data,
          .cls (fun c => c == '#') 1 (some 6), .cls isJsWs 1 (some 1)]
  emit := fun ms => ms.getD 0 [] ++ '\n' :: '\n' :: (ms.getD 2 [] ++ ms.getD 3 [])

def rRule3 : RRule where
  prevCond := fun _ => true
  pat := [.cls (fun c => c == '#') 1 (some 6), .cls (fun c => c != '\n') 1 none,
          .lit "\n".data, .cls (fun c => c != '\n' && c != '#') 1 (some 1)]
  emit := fun ms => ms.getD 0 [] ++ ms.getD 1 [] ++ '\n' :: '\n' :: ms.getD 3 []

def rRule4 : RRule where
  prevCond := fun _ => true
  pat := [.lit "\n- ".data, .cls (fun c => c != '\n') 1 none,
          .lit "\n".data, .cls (fun c => c != '-' && c != '\n') 1 (some 1)]
  emit := fun ms => ms.getD 0 [] ++ ms.getD 1 [] ++ '\n' :: '\n' :: ms.getD 3 []

/-- The salience keywords of `/\b(重要|必須|注意|警告|禁止|推奨)\b/g`. -/
def salienceKeywords : List (List Char) :=
  ["重要".data, "必須".data, "注意".data, "警告".data, "禁止".data, "推奨".data]

/-- Rule `/\b(重要|必須|注意|警告|禁止|推奨)\b/g → '**$1**'`.  Every
keyword begins and ends with a CJK character, which is not an ECMAScript
word character, so the surrounding `\b` hold exactly when the adjacent
character is an ASCII word character (`[A-Za-z0-9_]`); at the start or
end of the string they never hold. -/
def rRule5 : RRule where
  prevCond := fun prev =>
    match prev with
    | none => false
    | some c => isAsciiWord c
  pat := [.alts salienceKeywords,
          .test (fun l =>
            match l with
            | [] => false
            | c :: _ => isAsciiWord c)]
  emit := fun ms => '*' :: '*' :: ms.getD 0 [] ++ ['*', '*']

/-- The alternation `(com|org|net|jp|pdf|doc|docx|xlsx?)` with its
branches in source order; the optional `x` of the last branch is greedy,
so `xlsx` is tried before `xls`. -/
def extAlts : List (List Char) :=
  ["com".data, "org".data, "net".data, "jp".data, "pdf".data,
   "doc".data, "docx".data, "xlsx".data, "xls".data]

def rRule6 : RRule where
  prevCond := fun _ => true
  pat := [.cls (fun c => !isJsWs c) 1 none, .lit ".".data, .alts extAlts]
  emit := fun ms => '`' :: ms.flatten ++ ['`']

def rRule7 : RRule where
  prevCond := fun _ => true
  pat := [.cls (fun c => c == '\n') 4 none]
  emit := fun _ => ['\n', '\n', '\n']

/-- `improveReadability(text)`: seven replacements then `trim()`. -/
def improveReadabilityL (l : List Char) : List Char :=
  jsTrimL (applyRules [rRule1, rRule2, rRule3, rRule4, rRule5, rRule6, rRule7] l)

def improveReadability (s : String) : String :=
  String.mk (improveReadabilityL s.data)

/-! ### convertToMarkdown -/

/-- JavaScript `String.prototype.replace` with a *string* pattern:
replace only the first occurrence (here the pattern is never empty). -/
def jsReplaceFirstL (pat rep : List Char) : List Char → List Char
  | [] => []
  | c :: cs =>
    if pat.isPrefixOf (c :: cs) then rep ++ (c :: cs).drop pat.length
    else c :: jsReplaceFirstL pat rep cs

def jsReplaceFirst (s pat rep : String) : String :=
  if pat.data.isEmpty then rep ++ s
  else String.mk (jsReplaceFirstL pat.data rep.data s.data)

/-- The pipeline body of `convertToMarkdown`. -/
def pipelineBodyL (l : List Char) : List Char :=
  improveReadabilityL (detectAndConvertStructureL (cleanTextL l))

/-- `convertToMarkdown(text, filename)` from the source: header
`# <filename.replace('.pdf','')>` + provenance line + rule, then the
cleaned, structured, readability-improved body. -/
def convertToMarkdown (text filename : String) : String :=
  "# " ++ jsReplaceFirst filename ".pdf" "" ++
    "\n\n*Converted from PDF*\n\n---\n\n" ++ String.mk (pipelineBodyL text.data)

/-! ### Line-level helpers for stating the claims -/

/-- The lines of a string (split at `'\n'`). -/
def linesOf (s : String) : List (List Char) :=
  splitNL s.data

/-- A Markdown heading line: one to six `#` followed by a space. -/
def isHeadingLine (l : List Char) : Bool :=
  let h := (l.takeWhile (fun c => c == '#')).length
  match l.drop h with
  | ' ' :: _ => 1 ≤ h && h ≤ 6
  | _ => false

/-- The blank-line invariant claimed for the Readability Refiner:
every heading line has exactly one blank line immediately before it and
exactly one immediately after it. -/
def headingBlankOK (lines : List (List Char)) : Bool :=
  (List.range lines.length).all fun i =>
    !isHeadingLine (lines.getD i ['x']) ||
      (i != 0 && (lines.getD (i - 1) ['x']).isEmpty &&
       (i == 1 || !(lines.getD (i - 2) ['x']).isEmpty) &&
       i + 1 != lines.length && (lines.getD (i + 1) ['x']).isEmpty &&
       (i + 2 == lines.length || !(lines.getD (i + 2) ['x']).isEmpty))

/-! ### Claim theorems (concrete parts) -/

/-- C2 (code bug): `cleanText` does not preserve a single
paragraph-separating blank line and does not collapse three or more
blank lines to two: the multiline replacement `/^\s+|\s+$/gm → ''`
deletes every newline run of length at least two outright (`\s` matches
`'\n'`, and `$`/`^` match inside the run), joining the adjacent
paragraphs, which contradicts the deliberate `\n{4,} → '\n\n\n'` step
immediately before it. -/
theorem cleanText_blank_line_collapse_bug :
    cleanText "a\n\nb" = "ab" ∧ cleanText "a\n\n\n\nb" = "ab" := by
  decide

/-- C9 (code bug): the salience keywords are never bolded between
body-language (CJK) characters or at the string boundary, because `\b`
only recognizes ASCII word characters; a keyword is bolded only when
both neighbours are ASCII word characters. -/
theorem improveReadability_keyword_bold_bug :
    improveReadability "これは重要です" = "これは重要です" ∧
      improveReadability "重要" = "重要" ∧
      improveReadability "a重要b" = "a**重要**b" := by
  decide

/-- C4 (counterexample): `detectLinks` is not idempotent — re-running it
on its own output wraps the previously generated link again. -/
theorem detectLinks_not_idempotent :
    detectLinks (detectLinks "https://a.io") ≠ detectLinks "https://a.io" := by
  decide

/-- C4 (amended): a URL match stops at whitespace or `')'`, so
`https://example.com/a)` wraps only `https://example.com/a`; a single
run wraps a bare URL correctly, but a second run re-wraps the text up to
the first `')'` of the generated link, so the pass is not idempotent. -/
theorem detectLinks_paren_exclusion :
    detectLinks "see https://example.com/a) end" =
        "see [https://example.com/a](https://example.com/a)) end" ∧
      detectLinks "https://a.io" = "[https://a.io](https://a.io)" ∧
      detectLinks (detectLinks "https://a.io") =
        "[[https://a.io](https://a.io](https://a.io](https://a.io))" := by
  decide

/-- C1 (counterexample): an emitted table's header row is
`| 項目 | 内容 |`, not `| Key | Value |`. -/
theorem detectTables_header_counterexample :
    detectTables "a:1\nb:2\nc:3" =
        "\n| 項目 | 内容 |\n|------|------|\n| a | 1 |\n| b | 2 |\n| c | 3 |\n" ∧
      (linesOf (detectTables "a:1\nb:2\nc:3")).contains "| Key | Value |".data = false := by
  decide

/-- C8 (counterexample): the table pass discards content.  A line whose
key (text before the first colon) trims to the empty string produces no
row; when the surrounding run still reaches three rows, the table is
emitted and the line's remaining text (here `A`) disappears from the
output. -/
theorem detectTables_discards_empty_key_content :
    detectTables "：A\nb:1\nc:2\nd:3" =
        "\n| 項目 | 内容 |\n|------|------|\n| b | 1 |\n| c | 2 |\n| d | 3 |\n" ∧
      'A' ∈ "：A\nb:1\nc:2\nd:3".data ∧
      'A' ∉ (detectTables "：A\nb:1\nc:2\nd:3").data := by
  decide

/-- C3 (counterexample): the chapter-marker rule has no length or
punctuation guard: a line of 87 characters beginning with a digit and
containing the full stop `。` is still rewritten into a `##` heading. -/
theorem detectHeadings_guard_counterexample :
    detectHeadings "1あああああああああああああああああああああああああああああああああああああああああああああああああああああああああああああああああああああああああああああああああああ。説明" = "\n## 1あああああああああああああああああああああああああああああああああああああああああああああああああああああああああああああああああああああああああああああああああああ。説明\n" ∧
      '。' ∈ "1あああああああああああああああああああああああああああああああああああああああああああああああああああああああああああああああああああああああああああああああああああ。説明".data ∧
      80 < "1あああああああああああああああああああああああああああああああああああああああああああああああああああああああああああああああああああああああああああああああああああ。説明".length := by
  decide

/-- C7: `convertToMarkdown` never fails: it is a total function by
construction, and the degenerate empty input yields exactly the title
header block (level-1 title heading, provenance line, horizontal rule)
with an empty body. -/
theorem convertToMarkdown_empty_input (fn : String) :
    convertToMarkdown "" fn =
      "# " ++ jsReplaceFirst fn ".pdf" "" ++ "\n\n*Converted from PDF*\n\n---\n\n" := by
  have h : String.mk (pipelineBodyL "".data) = "" := by decide
  unfold convertToMarkdown
  rw [h]
  exact String.append_empty _

theorem jsReplaceFirstL_cons (pat rep : List Char) (c : Char) (cs : List Char) :
    jsReplaceFirstL pat rep (c :: cs) =
      if pat.isPrefixOf (c :: cs) then rep ++ (c :: cs).drop pat.length
      else c :: jsReplaceFirstL pat rep cs := rfl

theorem jsReplaceFirstL_append (pat rep pre post : List Char) (hne : pat ≠ [])
    (hpre : ∀ i, i < pre.length → pat.isPrefixOf ((pre ++ pat ++ post).drop i) = false) :
    jsReplaceFirstL pat rep (pre ++ pat ++ post) = pre ++ rep ++ post := by
  induction pre with
  | nil =>
    obtain ⟨p, ps, rfl⟩ : ∃ p ps, pat = p :: ps := by
      cases pat with
      | nil => exact absurd rfl hne
      | cons p ps => exact ⟨p, ps, rfl⟩
    have hpref : (p :: ps).isPrefixOf ((p :: ps) ++ post) = true := by
      simp [List.isPrefixOf_iff_prefix]
    have hdrop := List.drop_left (p :: ps) post
    simp only [List.nil_append]
    rw [show (p :: ps) ++ post = p :: (ps ++ post) from rfl, jsReplaceFirstL_cons]
    rw [show ((p :: ps).isPrefixOf (p :: (ps ++ post))) = true from hpref]
    simp only [if_true]
    rw [show (p :: (ps ++ post)) = (p :: ps) ++ post from rfl, hdrop]
  | cons c pre ih =>
    have h0 : pat.isPrefixOf (c :: (pre ++ pat ++ post)) = false := by
      have h1 := hpre 0 (by simp)
      simpa using h1
    rw [show (c :: pre) ++ pat ++ post = c :: (pre ++ pat ++ post) from rfl,
       jsReplaceFirstL_cons, h0]
    simp only [Bool.false_eq_true, if_false]
    rw [show (c :: pre) ++ rep ++ post = c :: (pre ++ rep ++ post) from rfl]
    congr 1
    apply ih
    intro i hi
    have h2 := hpre (i + 1) (by simpa using Nat.succ_lt_succ hi)
    simpa using h2

/-- C10: the title heading of `convertToMarkdown` is `'# '` followed by
the filename with only its first occurrence of `'.pdf'` removed,
wherever in the filename that occurrence lies. -/
theorem convertToMarkdown_title_strips_first_pdf
    (text fn pre post : String)
    (hfn : fn.data = pre.data ++ ".pdf".data ++ post.data)
    (hpre : ∀ i, i < pre.data.length → ".pdf".data.isPrefixOf (fn.data.drop i) = false) :
    convertToMarkdown text fn =
      "# " ++ (pre ++ post) ++ "\n\n*Converted from PDF*\n\n---\n\n" ++
        String.mk (pipelineBodyL text.data) := by
  have hrep : jsReplaceFirst fn ".pdf" "" = pre ++ post := by
    apply String.ext
    show (jsReplaceFirst fn ".pdf" "").data = (pre ++ post).data
    have hne : ".pdf".data ≠ [] := by decide
    unfold jsReplaceFirst
    rw [if_neg (by decide)]
    show jsReplaceFirstL ".pdf".data "".data fn.data = (pre ++ post).data
    rw [String.data_append, hfn]
    have := jsReplaceFirstL_append ".pdf".data "".data pre.data post.data hne
      (by intro i hi; have h3 := hpre i hi; rw [hfn] at h3; exact h3)
    rw [this]
    simp
  unfold convertToMarkdown
  rw [hrep]

/-- Witness for C10 at `filename = "a.pdf.pdf"`: the title is `a.pdf`. -/
theorem convertToMarkdown_title_strips_first_pdf_witness :
    "a.pdf.pdf".data = "a".data ++ ".pdf".data ++ ".pdf".data ∧
    (∀ i, i < "a".data.length → ".pdf".data.isPrefixOf ("a.pdf.pdf".data.drop i) = false) ∧
    convertToMarkdown "" "a.pdf.pdf" = "# a.pdf\n\n*Converted from PDF*\n\n---\n\n" := by
  refine ⟨by decide, by decide, ?_⟩
  have h := convertToMarkdown_title_strips_first_pdf "" "a.pdf.pdf" "a" ".pdf"
    (by decide) (by decide)
  rw [h]
  have hb : String.mk (pipelineBodyL "".data) = "" := by decide
  rw [hb]
  decide

theorem detectTablesGo_fuel_irrel (f1 f2 : Nat) (ls : List (List Char))
    (h1 : ls.length ≤ f1) (h2 : ls.length ≤ f2) :
    detectTablesGo f1 ls = detectTablesGo f2 ls := by
  induction f1 generalizing f2 ls with
  | zero =>
    have : ls = [] := List.length_eq_zero.mp (Nat.le_zero.mp h1)
    subst this
    cases f2 <;> rfl
  | succ f1 ih =>
    cases ls with
    | nil => cases f2 <;> rfl
    | cons l ls =>
      cases f2 with
      | zero => exact absurd h2 (by simp)
      | succ f2 =>
        show detectTablesGo (f1 + 1) (l :: ls) = detectTablesGo (f2 + 1) (l :: ls)
        unfold detectTablesGo
        by_cases hsep : hasSep l
        · simp only [hsep, if_true]
          by_cases hrows : 3 ≤ (mkRows (l :: ls.takeWhile hasSep)).length
          · simp only [hrows, if_true]
            have hd : (ls.dropWhile hasSep).length ≤ ls.length :=
              ((List.dropWhile_suffix hasSep).sublist).length_le
            rw [ih f2 (ls.dropWhile hasSep)
              (Nat.le_trans hd (Nat.le_of_succ_le_succ h1))
              (Nat.le_trans hd (Nat.le_of_succ_le_succ h2))]
          · rw [if_neg hrows, if_neg hrows,
              ih f2 ls (Nat.le_of_succ_le_succ h1) (Nat.le_of_succ_le_succ h2)]
        · simp only [hsep, Bool.false_eq_true, if_false]
          rw [ih f2 ls (Nat.le_of_succ_le_succ h1) (Nat.le_of_succ_le_succ h2)]

theorem takeWhile_append_sat {α : Type} (p : α → Bool) (xs ys : List α)
    (hxs : ∀ l ∈ xs, p l = true) (hys : ∀ r, ys.head? = some r → p r = false) :
    (xs ++ ys).takeWhile p = xs ∧ (xs ++ ys).dropWhile p = ys := by
  induction xs with
  | nil =>
    simp only [List.nil_append]
    cases ys with
    | nil => simp [List.takeWhile, List.dropWhile]
    | cons y ys =>
      have hy : p y = false := hys y rfl
      constructor
      · simp [List.takeWhile_cons, hy]
      · simp [List.dropWhile_cons, hy]
  | cons x xs ih =>
    have hx : p x = true := hxs x (by simp)
    have ih2 := ih (fun l hl => hxs l (by simp [hl]))
    constructor
    · simp [List.takeWhile_cons, hx, ih2.1]
    · simp [List.dropWhile_cons, hx, ih2.2]

theorem mkRows_cons_length_le (l : List Char) (run : List (List Char)) :
    (mkRows run).length ≤ (mkRows (l :: run)).length := by
  unfold mkRows
  rw [List.filterMap_cons]
  cases rowOf l <;> simp

theorem detectTablesGo_cons (fuel : Nat) (l : List Char) (ls : List (List Char)) :
    detectTablesGo (fuel + 1) (l :: ls) =
      if hasSep l then
        (if 3 ≤ (mkRows (l :: ls.takeWhile hasSep)).length then
          tableHeaderLine :: tableDividerLine ::
            (mkRows (l :: ls.takeWhile hasSep) ++ [[]] ++
              detectTablesGo fuel (ls.dropWhile hasSep))
        else l :: detectTablesGo fuel ls)
      else l :: detectTablesGo fuel ls := rfl

/-- C1 (amended): the table pass on a maximal run of consecutive
separator lines followed by a non-separator remainder.  Rows are built
only from run lines whose trimmed key (the text before the first
separator) is non-empty, the value being the remainder with full-width
separators rejoined by `':'` and trimmed; with at least three rows the
run becomes a blank line, the header `| 項目 | 内容 |`, a divider and
the rows in order; with fewer rows every run line is emitted verbatim. -/
theorem detectTablesGo_run (fuel : Nat) (run rest : List (List Char))
    (hrun : ∀ l ∈ run, hasSep l = true) (hne : run ≠ [])
    (hrest : ∀ r, rest.head? = some r → hasSep r = false)
    (hfuel : (run ++ rest).length ≤ fuel) :
    detectTablesGo fuel (run ++ rest) =
      if 3 ≤ (mkRows run).length then
        tableHeaderLine :: tableDividerLine ::
          (mkRows run ++ [[]] ++ detectTablesGo rest.length rest)
      else run ++ detectTablesGo rest.length rest := by
  induction run generalizing fuel with
  | nil => exact absurd rfl hne
  | cons l run ih =>
    cases fuel with
    | zero => exact absurd hfuel (by simp)
    | succ fuel =>
      have hl : hasSep l = true := hrun l (by simp)
      have hsplit := takeWhile_append_sat hasSep run rest
        (fun x hx => hrun x (by simp [hx])) hrest
      have hlen : run.length + rest.length ≤ fuel := by
        simp only [List.length_append, List.length_cons] at hfuel
        omega
      show detectTablesGo (fuel + 1) (l :: (run ++ rest)) = _
      rw [detectTablesGo_cons, if_pos hl, hsplit.1, hsplit.2]
      by_cases hrows : 3 ≤ (mkRows (l :: run)).length
      · rw [if_pos hrows, if_pos hrows,
          detectTablesGo_fuel_irrel fuel rest.length rest (by omega) (Nat.le_refl _)]
      · rw [if_neg hrows, if_neg hrows]
        cases hrunE : run with
        | nil =>
          subst hrunE
          simp only [List.nil_append, List.singleton_append]
          rw [detectTablesGo_fuel_irrel fuel rest.length rest (by simpa using hlen)
            (Nat.le_refl _)]
        | cons r2 run2 =>
          have hne2 : run ≠ [] := by simp [hrunE]
          rw [← hrunE]
          have ihr := ih fuel (fun x hx => hrun x (List.mem_cons_of_mem l hx)) hne2 (by simpa using hlen)
          rw [ihr]
          have hrows2 : ¬ 3 ≤ (mkRows run).length := by
            have := mkRows_cons_length_le l run
            omega
          rw [if_neg hrows2]
          simp

theorem mkRows_forall₂ (run : List (List Char))
    (h : ∀ x ∈ run, rowOf x ≠ none) :
    List.Forall₂ (fun a b => rowOf a = some b) run (mkRows run) := by
  induction run with
  | nil => exact List.Forall₂.nil
  | cons l run ih =>
    show List.Forall₂ _ (l :: run) ((l :: run).filterMap rowOf)
    rw [List.filterMap_cons]
    cases hcase : rowOf l with
    | none => exact absurd hcase (h l (by simp))
    | some b =>
      exact List.Forall₂.cons hcase (ih (fun x hx => h x (by simp [hx])))

/-- C8 (amended): provided every separator line has a non-empty trimmed
key, the table pass never reorders or drops content: the output contains,
as a subsequence and in input order, one entry per input line that is
either the line itself or its `| key | value |` row. -/
theorem detectTables_order_preservation (fuel : Nat) (ls : List (List Char))
    (hfuel : ls.length ≤ fuel)
    (hkeys : ∀ l ∈ ls, hasSep l = true → rowOf l ≠ none) :
    ∃ tagged, List.Forall₂ (fun a b => b = a ∨ rowOf a = some b) ls tagged ∧
      List.Sublist tagged (detectTablesGo fuel ls) := by
  induction fuel generalizing ls with
  | zero =>
    have hnil : ls = [] := List.length_eq_zero.mp (Nat.le_zero.mp hfuel)
    subst hnil
    exact ⟨[], List.Forall₂.nil, List.Sublist.refl _⟩
  | succ fuel ih =>
    cases ls with
    | nil => exact ⟨[], List.Forall₂.nil, List.Sublist.refl _⟩
    | cons l ls =>
      rw [detectTablesGo_cons]
      by_cases hsep : hasSep l = true
      · rw [if_pos hsep]
        by_cases hrows : 3 ≤ (mkRows (l :: ls.takeWhile hasSep)).length
        · rw [if_pos hrows]
          have hmemtw : ∀ x ∈ l :: ls.takeWhile hasSep, x ∈ l :: ls := by
            intro x hx
            rcases hx with _ | hx
            · exact List.mem_cons_self _ _
            · exact List.mem_cons_of_mem l ((List.takeWhile_sublist hasSep).mem ‹_›)
          have hall : ∀ x ∈ l :: ls.takeWhile hasSep, rowOf x ≠ none := by
            intro x hx
            have hsepx : hasSep x = true := by
              rcases hx with _ | hx
              · exact hsep
              · exact List.mem_takeWhile_imp ‹_›
            exact hkeys x (hmemtw x hx) hsepx
          have h₂ := mkRows_forall₂ (l :: ls.takeWhile hasSep) hall
          have hdlen : (ls.dropWhile hasSep).length ≤ fuel :=
            Nat.le_trans ((List.dropWhile_suffix hasSep).sublist).length_le
              (Nat.le_of_succ_le_succ hfuel)
          obtain ⟨tg, htg, hsub⟩ := ih (ls.dropWhile hasSep) hdlen
            (fun x hx hs => hkeys x
              (List.mem_cons_of_mem l ((List.dropWhile_suffix hasSep).sublist.mem hx)) hs)
          refine ⟨mkRows (l :: ls.takeWhile hasSep) ++ tg, ?_, ?_⟩
          · have hdecomp : l :: ls = (l :: ls.takeWhile hasSep) ++ ls.dropWhile hasSep := by
              simp [List.takeWhile_append_dropWhile]
            rw [hdecomp]
            exact List.rel_append (h₂.imp (fun _ _ hab => Or.inr hab)) htg
          · apply List.Sublist.cons
            apply List.Sublist.cons
            rw [List.append_assoc]
            apply List.Sublist.append (List.Sublist.refl _)
            exact hsub.trans (List.sublist_append_right [[]] _)
        · rw [if_neg hrows]
          obtain ⟨tg, htg, hsub⟩ := ih ls (Nat.le_of_succ_le_succ hfuel)
            (fun x hx hs => hkeys x (List.mem_cons_of_mem l hx) hs)
          exact ⟨l :: tg, List.Forall₂.cons (Or.inl rfl) htg, List.Sublist.cons₂ l hsub⟩
      · rw [if_neg hsep]
        obtain ⟨tg, htg, hsub⟩ := ih ls (Nat.le_of_succ_le_succ hfuel)
          (fun x hx hs => hkeys x (List.mem_cons_of_mem l hx) hs)
        exact ⟨l :: tg, List.Forall₂.cons (Or.inl rfl) htg, List.Sublist.cons₂ l hsub⟩

/-- Witness for C1: a three-row run followed by a plain line becomes the
table block; a two-row run is emitted verbatim. -/
theorem detectTablesGo_run_witness :
    detectTablesGo 4
        ["Name：Alice".data, "Age：30".data, "City：Paris".data, "end".data] =
      ["\n| 項目 | 内容 |".data, "|------|------|".data, "| Name | Alice |".data,
       "| Age | 30 |".data, "| City | Paris |".data, [], "end".data] ∧
    detectTablesGo 3 ["a:1".data, "b:2".data, "x".data] =
      ["a:1".data, "b:2".data, "x".data] := by
  constructor
  · have h := detectTablesGo_run 4
      ["Name：Alice".data, "Age：30".data, "City：Paris".data] ["end".data]
      (by decide) (by decide) (by decide) (by decide)
    show detectTablesGo 4
      (["Name：Alice".data, "Age：30".data, "City：Paris".data] ++ ["end".data]) = _
    rw [h]
    decide
  · have h := detectTablesGo_run 3 ["a:1".data, "b:2".data] ["x".data]
      (by decide) (by decide) (by decide) (by decide)
    show detectTablesGo 3 (["a:1".data, "b:2".data] ++ ["x".data]) = _
    rw [h]
    decide

/-- Witness for C8 at a four-line input whose separator lines all have
non-empty keys. -/
theorem detectTables_order_preservation_witness :
    ∃ tagged,
      List.Forall₂ (fun a b => b = a ∨ rowOf a = some b)
        ["x".data, "a:1".data, "b:2".data, "c:3".data] tagged ∧
      List.Sublist tagged
        (detectTablesGo 4 ["x".data, "a:1".data, "b:2".data, "c:3".data]) :=
  detectTables_order_preservation 4
    ["x".data, "a:1".data, "b:2".data, "c:3".data] (by decide)
    (by decide)

theorem isPrefixOf_append_drop (s l : List Char) (h : s.isPrefixOf l = true) :
    s ++ l.drop s.length = l := by
  induction s generalizing l with
  | nil => simp
  | cons a s ih =>
    cases l with
    | nil => simp [List.isPrefixOf] at h
    | cons b l =>
      simp only [List.isPrefixOf, Bool.and_eq_true, beq_iff_eq] at h
      obtain ⟨rfl, h2⟩ := h
      simpa using ih l h2

theorem elemMatches_reconstruct (e : RElem) (l : List Char) (m rest : List Char)
    (h : (m, rest) ∈ elemMatches e l) : m ++ rest = l := by
  cases e with
  | cls p lo hi =>
    simp only [elemMatches] at h
    split at h
    · simp at h
    · obtain ⟨i, _, hi2⟩ := List.mem_map.mp h
      obtain ⟨h3, h4⟩ := Prod.mk.injEq .. ▸ hi2
      rw [← h3, ← h4]
      exact List.take_append_drop _ l
  | lit s =>
    simp only [elemMatches] at h
    split at h
    · rename_i hp
      simp only [List.mem_singleton, Prod.mk.injEq] at h
      obtain ⟨h1, h2⟩ := h
      rw [h1, h2]
      exact isPrefixOf_append_drop s l hp
    · simp at h
  | alts ss =>
    simp only [elemMatches] at h
    obtain ⟨s, _, hs⟩ := List.mem_filterMap.mp h
    split at hs
    · rename_i hp
      simp only [Option.some.injEq, Prod.mk.injEq] at hs
      obtain ⟨h1, h2⟩ := hs
      rw [← h1, ← h2]
      exact isPrefixOf_append_drop s l hp
    · simp at hs
  | test f =>
    simp only [elemMatches] at h
    split at h
    · simp only [List.mem_singleton, Prod.mk.injEq] at h
      obtain ⟨h1, h2⟩ := h
      rw [h1, h2]
      rfl
    · simp at h

theorem seqMatch_reconstruct (es : List RElem) (l : List Char)
    (ms : List (List Char)) (rest : List Char)
    (h : seqMatch es l = some (ms, rest)) : ms.flatten ++ rest = l := by
  induction es generalizing l ms with
  | nil =>
    simp only [seqMatch, Option.some.injEq, Prod.mk.injEq] at h
    obtain ⟨rfl, rfl⟩ := h
    simp
  | cons e es ih =>
    unfold seqMatch at h
    obtain ⟨p, hpmem, hp⟩ := List.exists_of_findSome?_eq_some h
    obtain ⟨m1, r1⟩ := p
    cases hin : seqMatch es r1 with
    | none => rw [hin] at hp; simp at hp
    | some q =>
      obtain ⟨ms', rest'⟩ := q
      rw [hin] at hp
      simp only [Option.some.injEq, Prod.mk.injEq] at hp
      obtain ⟨rfl, rfl⟩ := hp
      have h1 := elemMatches_reconstruct e l m1 r1 hpmem
      have h2 := ih r1 ms' hin
      simp only [List.flatten_cons, List.append_assoc]
      rw [h2, h1]

theorem seqMatch_cons_first (e : RElem) (es : List RElem) (l m rest : List Char)
    (ms' : List (List Char)) (r' : List Char)
    (hfirst : (elemMatches e l).head? = some (m, rest))
    (hcont : seqMatch es rest = some (ms', r')) :
    seqMatch (e :: es) l = some (m :: ms', r') := by
  unfold seqMatch
  cases hel : elemMatches e l with
  | nil => rw [hel] at hfirst; simp at hfirst
  | cons a as =>
    rw [hel] at hfirst
    simp only [List.head?_cons, Option.some.injEq] at hfirst
    subst hfirst
    rw [List.findSome?_cons]
    simp [hcont]

theorem seqMatch_single_test (f : List Char → Bool) (l : List Char) :
    seqMatch [.test f] l = if f l then some ([([] : List Char)], l) else none := by
  by_cases hf : f l
  · simp [seqMatch, elemMatches, hf, List.findSome?_cons]
  · simp [seqMatch, elemMatches, hf]

theorem seqMatch_test_last (es : List RElem) (f : List Char → Bool)
    (l : List Char) (ms : List (List Char)) (rest : List Char)
    (h : seqMatch (es ++ [.test f]) l = some (ms, rest)) : f rest = true := by
  induction es generalizing l ms with
  | nil =>
    simp only [List.nil_append] at h
    rw [seqMatch_single_test] at h
    split at h
    · rename_i hf
      simp only [Option.some.injEq, Prod.mk.injEq] at h
      obtain ⟨_, hr⟩ := h
      rw [← hr]
      exact hf
    · simp at h
  | cons e es ih =>
    simp only [List.cons_append] at h
    unfold seqMatch at h
    obtain ⟨p, hpmem, hp⟩ := List.exists_of_findSome?_eq_some h
    cases hin : seqMatch (es ++ [.test f]) p.2 with
    | none => rw [hin] at hp; simp at hp
    | some q =>
      rw [hin] at hp
      obtain ⟨ms2, rest2⟩ := q
      simp only [Option.some.injEq, Prod.mk.injEq] at hp
      obtain ⟨h1, hr⟩ := hp
      subst hr
      exact ih p.2 ms2 hin

theorem runRule_nil (r : RRule) (fuel : Nat) (prev : Option Char) :
    runRule r fuel prev [] = [] := by
  cases fuel <;> rfl

theorem runRule_succ (r : RRule) (fuel : Nat) (prev : Option Char)
    (c : Char) (cs : List Char) :
    runRule r (fuel + 1) prev (c :: cs) =
      match tryRule r prev (c :: cs) with
      | some (em, m, rest) => em ++ runRule r fuel (some (m.getLastD c)) rest
      | none => c :: runRule r fuel (some c) cs := rfl

theorem tryRule_none_of_prevCond (r : RRule) (prev : Option Char) (l : List Char)
    (h : r.prevCond prev = false) : tryRule r prev l = none := by
  unfold tryRule
  rw [h]
  simp

theorem tryRule_none_of_seqMatch (r : RRule) (prev : Option Char) (l : List Char)
    (h : seqMatch r.pat l = none) : tryRule r prev l = none := by
  unfold tryRule
  rw [h]
  split <;> rfl

/-- Scanning with a line-start-anchored rule past characters that are
not line terminators changes nothing (the previous character never
satisfies the anchor). -/
theorem runRule_id_nonLT (r : RRule) (hr : r.prevCond = lineStartP)
    (fuel : Nat) (p : Char) (l : List Char) (hp : isLineTerm p = false)
    (hl : ∀ c ∈ l.dropLast, isLineTerm c = false) :
    runRule r fuel (some p) l = l := by
  induction l generalizing fuel p with
  | nil => exact runRule_nil r fuel _
  | cons c cs ih =>
    cases fuel with
    | zero => rfl
    | succ fuel =>
      rw [runRule_succ,
        tryRule_none_of_prevCond r (some p) (c :: cs) (by rw [hr]; exact hp)]
      cases cs with
      | nil => rw [runRule_nil]
      | cons c2 cs2 =>
        have hc : isLineTerm c = false := hl c (by simp)
        rw [ih fuel c hc (fun x hx => hl x (by
          rw [List.dropLast_cons₂]
          exact List.mem_cons_of_mem c hx))]

theorem elemMatches_cls_head (p : Char → Bool) (lo : Nat) (hi : Option Nat)
    (l : List Char) (m : Nat)
    (hm : (match hi with
           | none => (l.takeWhile p).length
           | some h => min (l.takeWhile p).length h) = m)
    (hlo : lo ≤ m) :
    (elemMatches (.cls p lo hi) l).head? = some (l.take m, l.drop m) := by
  simp only [elemMatches]
  rw [hm, if_neg (Nat.not_lt.mpr hlo)]
  obtain ⟨k, hk⟩ : ∃ k, m + 1 - lo = k + 1 := ⟨m - lo, by omega⟩
  rw [hk, List.range_succ_eq_map, List.map_cons, List.head?_cons]
  simp

theorem elemMatches_cls_nil_head (p : Char → Bool) (lo : Nat) (hi : Option Nat)
    (c : Char) (X : List Char) (hc : p c = false) (hlo : 1 ≤ lo) :
    elemMatches (.cls p lo hi) (c :: X) = [] := by
  simp only [elemMatches]
  have htw : (c :: X).takeWhile p = [] := by simp [List.takeWhile_cons, hc]
  rw [htw]
  cases hi with
  | none =>
    simp only [List.length_nil]
    rw [if_pos (by omega)]
  | some h =>
    simp only [List.length_nil, Nat.zero_min]
    rw [if_pos (by omega)]

theorem seqMatch_elem_nil (e : RElem) (es : List RElem) (l : List Char)
    (h : elemMatches e l = []) : seqMatch (e :: es) l = none := by
  unfold seqMatch
  rw [h]
  rfl

theorem mem_take_sat (p : Char → Bool) (l : List Char) (m : Nat)
    (hm : m ≤ (l.takeWhile p).length) : ∀ c ∈ l.take m, p c = true := by
  intro c hc
  have h1 : l.take m = (l.takeWhile p).take m := by
    conv_lhs => rw [← List.takeWhile_append_dropWhile p l]
    exact List.take_append_of_le_length hm
  rw [h1] at hc
  exact List.mem_takeWhile_imp (List.take_subset m _ hc)

theorem seqMatch_cls_step (p : Char → Bool) (lo : Nat) (hi : Option Nat)
    (es : List RElem) (X : List Char) (hp : p '。' = false)
    (hlo : lo ≤ (match hi with
           | none => (X.takeWhile p).length
           | some h => min (X.takeWhile p).length h))
    (hX : '。' ∈ X ∧ ∀ c ∈ X, c ≠ '\n')
    (hrec : ∀ Y, ('。' ∈ Y ∧ ∀ c ∈ Y, c ≠ '\n') →
      ∃ ms, seqMatch es Y = some (ms, []) ∧ ms.flatten = Y) :
    ∃ ms, seqMatch (.cls p lo hi :: es) X = some (ms, []) ∧ ms.flatten = X := by
  set m := (match hi with
           | none => (X.takeWhile p).length
           | some h => min (X.takeWhile p).length h) with hm
  have hmle : m ≤ (X.takeWhile p).length := by
    rw [hm]; cases hi with
    | none => exact Nat.le_refl _
    | some h => exact Nat.min_le_left _ _
  have hdropmem : '。' ∈ X.drop m := by
    have := hX.1
    rw [← List.take_append_drop m X] at this
    rcases List.mem_append.mp this with hin | hin
    · exact absurd (mem_take_sat p X m hmle '。' hin) (by simp [hp])
    · exact hin
  have hdropnl : ∀ c ∈ X.drop m, c ≠ '\n' := fun c hc =>
    hX.2 c (List.drop_subset m X hc)
  obtain ⟨ms', hms', hflat⟩ := hrec (X.drop m) ⟨hdropmem, hdropnl⟩
  refine ⟨X.take m :: ms', ?_, ?_⟩
  · exact seqMatch_cons_first _ es X _ _ ms' []
      (elemMatches_cls_head p lo hi X m hm.symm hlo) hms'
  · simp [hflat, List.take_append_drop]

theorem takeWhile_eq_self_of_sat (p : Char → Bool) (l : List Char)
    (h : ∀ c ∈ l, p c = true) : l.takeWhile p = l := by
  induction l with
  | nil => rfl
  | cons c cs ih =>
    rw [List.takeWhile_cons, h c (by simp)]
    simp [ih (fun x hx => h x (by simp [hx]))]

theorem seqMatch_notNL_final (X : List Char) (hne : X ≠ [])
    (hX : ∀ c ∈ X, c ≠ '\n') :
    seqMatch [.cls (fun c => c != '\n') 1 none] X = some ([X], []) := by
  have htw : X.takeWhile (fun c => c != '\n') = X :=
    takeWhile_eq_self_of_sat _ X (fun c hc => by simp [hX c hc])
  have hhead := elemMatches_cls_head (fun c => c != '\n') 1 none X X.length
    (by rw [htw]) (by cases X with | nil => exact absurd rfl hne | cons a as => simp)
  have := seqMatch_cons_first (.cls (fun c => c != '\n') 1 none) [] X X []
    [] [] (by rw [hhead]; simp) rfl
  simpa using this

theorem seqMatch_cls_skip (p : Char → Bool) (hi : Option Nat) (es : List RElem)
    (X : List Char) (htw : X.takeWhile p = []) (ms : List (List Char)) (r : List Char)
    (hcont : seqMatch es X = some (ms, r)) :
    seqMatch (.cls p 0 hi :: es) X = some ([] :: ms, r) := by
  have hhead : (elemMatches (.cls p 0 hi) X).head? = some (X.take 0, X.drop 0) := by
    apply elemMatches_cls_head p 0 hi X 0
    · rw [htw]; cases hi <;> simp
    · exact Nat.le_refl 0
  have := seqMatch_cons_first (.cls p 0 hi) es X (X.take 0) (X.drop 0) ms r hhead
    (by simpa using hcont)
  simpa using this

theorem tryRule_some_elim (r : RRule) (pc : Option Char) (l : List Char)
    (em m rest : List Char) (h : tryRule r pc l = some (em, m, rest)) :
    ∃ ms, seqMatch r.pat l = some (ms, rest) ∧ em = r.emit ms ∧
      m = ms.flatten ∧ ms.flatten ≠ [] := by
  unfold tryRule at h
  split at h
  · cases hseq : seqMatch r.pat l with
    | none => rw [hseq] at h; simp at h
    | some q =>
      obtain ⟨ms, r'⟩ := q
      rw [hseq] at h
      simp only at h
      split at h
      · simp at h
      · rename_i hne
        simp only [Option.some.injEq, Prod.mk.injEq] at h
        obtain ⟨h1, h2, h3⟩ := h
        subst h3
        exact ⟨ms, rfl, h1.symm, h2.symm, by simpa using hne⟩
  · simp at h

theorem digit_head_facts (d : Char)
    (hd : d ∈ ['0', '1', '2', '3', '4', '5', '6', '7', '8', '9']) :
    (d == '第') = false ∧ isJsWs d = false ∧ isNumKanji d = true ∧
      isDigitAscii d = true ∧ isUpperAscii d = false := by
  fin_cases hd <;> decide

theorem hRule2_seqMatch (d : Char) (t : List Char)
    (hd : d ∈ ['0', '1', '2', '3', '4', '5', '6', '7', '8', '9'])
    (ht : '。' ∈ t) (hnl : ∀ c ∈ d :: t, c ≠ '\n') :
    ∃ ms, seqMatch hRule2.pat (d :: t) = some (ms, []) ∧ ms.flatten = d :: t := by
  obtain ⟨hbeq, hws, hnum, hdig, hup⟩ := digit_head_facts d hd
  have hKeep : '。' ∈ d :: t ∧ ∀ c ∈ d :: t, c ≠ '\n' := ⟨List.mem_cons_of_mem d ht, hnl⟩
  have step8 : ∀ Y, ('。' ∈ Y ∧ ∀ c ∈ Y, c ≠ '\n') →
      ∃ ms, seqMatch [RElem.cls (fun c => c != '\n') 1 none] Y = some (ms, []) ∧
        ms.flatten = Y := by
    intro Y hY
    refine ⟨[Y], seqMatch_notNL_final Y ?_ hY.2, by simp⟩
    intro hYnil
    rw [hYnil] at hY
    simp at hY
  have step7 : ∀ Y, ('。' ∈ Y ∧ ∀ c ∈ Y, c ≠ '\n') →
      ∃ ms, seqMatch [RElem.cls isJsWs 0 none,
        RElem.cls (fun c => c != '\n') 1 none] Y = some (ms, []) ∧ ms.flatten = Y :=
    fun Y hY => seqMatch_cls_step isJsWs 0 none _ Y (by decide) (Nat.zero_le _) hY step8
  have step6 : ∀ Y, ('。' ∈ Y ∧ ∀ c ∈ Y, c ≠ '\n') →
      ∃ ms, seqMatch [RElem.cls (fun c => c == '.') 0 (some 1), RElem.cls isJsWs 0 none,
        RElem.cls (fun c => c != '\n') 1 none] Y = some (ms, []) ∧ ms.flatten = Y :=
    fun Y hY => seqMatch_cls_step _ 0 (some 1) _ Y (by decide)
      (by simp) hY step7
  have step5 : ∀ Y, ('。' ∈ Y ∧ ∀ c ∈ Y, c ≠ '\n') →
      ∃ ms, seqMatch [RElem.cls isChapMark 0 (some 1),
        RElem.cls (fun c => c == '.') 0 (some 1), RElem.cls isJsWs 0 none,
        RElem.cls (fun c => c != '\n') 1 none] Y = some (ms, []) ∧ ms.flatten = Y :=
    fun Y hY => seqMatch_cls_step _ 0 (some 1) _ Y (by decide)
      (by simp) hY step6
  have step4 : ∀ Y, ('。' ∈ Y ∧ ∀ c ∈ Y, c ≠ '\n') →
      ∃ ms, seqMatch [RElem.cls isJsWs 0 none, RElem.cls isChapMark 0 (some 1),
        RElem.cls (fun c => c == '.') 0 (some 1), RElem.cls isJsWs 0 none,
        RElem.cls (fun c => c != '\n') 1 none] Y = some (ms, []) ∧ ms.flatten = Y :=
    fun Y hY => seqMatch_cls_step isJsWs 0 none _ Y (by decide) (Nat.zero_le _) hY step5
  have step3 : ∃ ms, seqMatch [RElem.cls isNumKanji 1 none, RElem.cls isJsWs 0 none,
      RElem.cls isChapMark 0 (some 1), RElem.cls (fun c => c == '.') 0 (some 1),
      RElem.cls isJsWs 0 none, RElem.cls (fun c => c != '\n') 1 none] (d :: t) =
        some (ms, []) ∧ ms.flatten = d :: t := by
    apply seqMatch_cls_step isNumKanji 1 none _ (d :: t) (by decide) ?_ hKeep step4
    rw [List.takeWhile_cons, hnum]
    simp
  obtain ⟨ms3, hms3, hflat3⟩ := step3
  have step2 := seqMatch_cls_skip isJsWs none _ (d :: t)
    (by rw [List.takeWhile_cons, hws]; rfl) ms3 [] hms3
  have step1 := seqMatch_cls_skip (fun c => c == '第') (some 1) _ (d :: t)
    (by rw [List.takeWhile_cons, hbeq]; rfl) ([] :: ms3) [] step2
  exact ⟨[] :: [] :: ms3, step1, by simpa using hflat3⟩

theorem mem_of_ne_nl (c : Char) (h : isLineTerm c = false) : c ≠ '\n' :=
  fun hc => absurd (hc ▸ h) (by decide)

theorem applyRule_hRule2_heading (d : Char) (t : List Char)
    (hd : d ∈ ['0', '1', '2', '3', '4', '5', '6', '7', '8', '9'])
    (ht : '。' ∈ t) (hnl : ∀ c ∈ d :: t, c ≠ '\n') :
    applyRule hRule2 (d :: t) = '\n' :: '#' :: '#' :: ' ' :: ((d :: t) ++ ['\n']) := by
  obtain ⟨ms, hms, hflat⟩ := hRule2_seqMatch d t hd ht hnl
  have htry : tryRule hRule2 none (d :: t) =
      some ('\n' :: '#' :: '#' :: ' ' :: (ms.flatten ++ ['\n']), ms.flatten, []) := by
    unfold tryRule
    rw [if_pos (show hRule2.prevCond none = true from rfl), hms]
    simp only []
    rw [if_neg (by rw [hflat]; simp)]
    rfl
  show runRule hRule2 ((d :: t).length) none (d :: t) = _
  rw [List.length_cons, runRule_succ, htry]
  simp only []
  rw [runRule_nil, List.append_nil, hflat]

theorem applyRule_hRule1_id (d : Char) (t : List Char)
    (ht : '。' ∈ t) (hnl : ∀ c ∈ d :: t, isLineTerm c = false) :
    applyRule hRule1 (d :: t) = d :: t := by
  show runRule hRule1 ((d :: t).length) none (d :: t) = _
  rw [List.length_cons]
  cases htry : tryRule hRule1 none (d :: t) with
  | none =>
    rw [runRule_succ, htry]
    rw [runRule_id_nonLT hRule1 rfl t.length d t (hnl d (by simp))
      (fun c hc => hnl c (List.mem_cons_of_mem d ((List.dropLast_sublist t).subset hc)))]
  | some res =>
    obtain ⟨em, m, rest⟩ := res
    obtain ⟨ms, hseq, hem, hm, hne⟩ := tryRule_some_elim hRule1 none (d :: t) em m rest htry
    have hrec := seqMatch_reconstruct hRule1.pat (d :: t) ms rest hseq
    have htest : endLineT rest = true :=
      seqMatch_test_last [RElem.cls (fun c => isUpperAscii c || isDigitAscii c) 1 (some 1),
        RElem.cls notDotNL 2 (some 50)] endLineT (d :: t) ms rest hseq
    have hrestnil : rest = [] := by
      cases rest with
      | nil => rfl
      | cons c cs =>
        exfalso
        have hcmem : c ∈ d :: t := by
          rw [← hrec]
          exact List.mem_append.mpr (Or.inr (by simp))
        have : isLineTerm c = true := by simpa [endLineT] using htest
        rw [hnl c hcmem] at this
        simp at this
    subst hrestnil
    rw [List.append_nil] at hrec
    have hcontain : ms.flatten.contains '。' = true := by
      rw [hrec]
      exact List.elem_eq_true_of_mem (List.mem_cons_of_mem d ht)
    have hem2 : em = ms.flatten := by
      rw [hem]
      show (if ms.flatten.length < 50 && !ms.flatten.contains '。' &&
          !ms.flatten.contains '、' then
        '\n' :: '#' :: ' ' :: jsTrimL ms.flatten ++ ['\n'] else ms.flatten) = ms.flatten
      rw [hcontain]
      simp
    rw [runRule_succ, htry]
    simp only []
    rw [runRule_nil, List.append_nil, hem2]
    exact hrec

/-- After the chapter rule fired, the remaining heading passes leave the
text `\n## <line>\n` unchanged: neither of their patterns can start at
any line start of that text. -/
theorem applyRule_digitStart_id (r : RRule) (hrp : r.prevCond = lineStartP)
    (p0 : Char → Bool) (lo0 : Nat) (hi0 : Option Nat) (es0 : List RElem)
    (hpat : r.pat = .cls p0 lo0 hi0 :: es0) (hlo0 : 1 ≤ lo0)
    (hp0 : p0 '\n' = false ∧ p0 '#' = false)
    (body : List Char) (hb : ∀ c ∈ body, isLineTerm c = false) :
    applyRule r ('\n' :: '#' :: '#' :: ' ' :: (body ++ ['\n'])) =
      '\n' :: '#' :: '#' :: ' ' :: (body ++ ['\n']) := by
  have hnone1 : ∀ pc X, tryRule r pc ('\n' :: X) = none := by
    intro pc X
    apply tryRule_none_of_seqMatch
    rw [hpat]
    exact seqMatch_elem_nil _ es0 _ (elemMatches_cls_nil_head p0 lo0 hi0 _ X hp0.1 hlo0)
  have hnone2 : ∀ pc X, tryRule r pc ('#' :: X) = none := by
    intro pc X
    apply tryRule_none_of_seqMatch
    rw [hpat]
    exact seqMatch_elem_nil _ es0 _ (elemMatches_cls_nil_head p0 lo0 hi0 _ X hp0.2 hlo0)
  show runRule r (('\n' :: '#' :: '#' :: ' ' :: (body ++ ['\n'])).length) none _ = _
  simp only [List.length_cons]
  rw [runRule_succ, hnone1]
  simp only []
  rw [runRule_succ, hnone2]
  simp only []
  have hsh : isLineTerm '#' = false := by decide
  have hdl : ('#' :: ' ' :: (body ++ ['\n'])).dropLast = '#' :: ' ' :: body := by
    rw [show '#' :: ' ' :: (body ++ ['\n']) = ('#' :: ' ' :: body) ++ ['\n'] by simp,
      List.dropLast_concat]
  rw [runRule_id_nonLT r hrp _ '#' ('#' :: ' ' :: (body ++ ['\n'])) hsh]
  intro c hc
  rw [hdl] at hc
  simp only [List.mem_cons] at hc
  rcases hc with rfl | rfl | hc
  · decide
  · decide
  · exact hb c hc

theorem applyRules_four (r1 r2 r3 r4 : RRule) (l : List Char) :
    applyRules [r1, r2, r3, r4] l =
      applyRule r4 (applyRule r3 (applyRule r2 (applyRule r1 l))) := rfl

/-- C3 (amended): the chapter-marker rule of `detectHeadings` has no
length or sentence-punctuation guard: any single line that begins with a
digit and contains the full stop `。` (so that the first, guarded rule
leaves it alone) is rewritten to the `##` heading `\n## <line>\n`,
regardless of its length. -/
theorem detectHeadings_chapter_rule_unguarded (d : Char) (t : List Char)
    (hd : d ∈ ['0', '1', '2', '3', '4', '5', '6', '7', '8', '9'])
    (ht : '。' ∈ t) (hnl : ∀ c ∈ d :: t, isLineTerm c = false) :
    detectHeadingsL (d :: t) = '\n' :: '#' :: '#' :: ' ' :: ((d :: t) ++ ['\n']) := by
  have hnl2 : ∀ c ∈ d :: t, c ≠ '\n' := fun c hc => mem_of_ne_nl c (hnl c hc)
  rw [detectHeadingsL, applyRules_four]
  rw [applyRule_hRule1_id d t ht hnl]
  rw [applyRule_hRule2_heading d t hd ht hnl2]
  rw [applyRule_digitStart_id hRule3 rfl isDigitAscii 1 none _ rfl (by omega)
    (by decide) (d :: t) hnl]
  rw [applyRule_digitStart_id hRule4 rfl isUpperAscii 1 (some 1) _ rfl (by omega)
    (by decide) (d :: t) hnl]

/-- Witness for C3 at the line `1あ。い`. -/
theorem detectHeadings_chapter_rule_unguarded_witness :
    '1' ∈ ['0', '1', '2', '3', '4', '5', '6', '7', '8', '9'] ∧
    '。' ∈ "あ。い".data ∧
    (∀ c ∈ '1' :: "あ。い".data, isLineTerm c = false) ∧
    detectHeadingsL ('1' :: "あ。い".data) =
      '\n' :: '#' :: '#' :: ' ' :: (('1' :: "あ。い".data) ++ ['\n']) :=
  ⟨by decide, by decide, by decide,
    detectHeadings_chapter_rule_unguarded '1' "あ。い".data (by decide) (by decide)
      (by decide)⟩

/-! ### Idempotence of cleanText

The normal form produced by `cleanTextL`: no tab, no two adjacent
space/tab characters, every line terminator isolated from other
whitespace, no whitespace at either end.  `cleanTextL` always produces
this shape, and each of its four stages is the identity on it. -/

/-- Adjacency invariant of the normal form. -/
abbrev RNorm (a b : Char) : Prop :=
  ¬(isST a = true ∧ isST b = true) ∧
    (isJsWs a = true → isLineTerm b = false) ∧
    (isLineTerm a = true → isJsWs b = false)

theorem lastLTSplit_none_iff (l : List Char) :
    lastLTSplit l = none ↔ ∀ x ∈ l, isLineTerm x = false := by
  induction l with
  | nil => simp [lastLTSplit]
  | cons c cs ih =>
    constructor
    · intro h
      unfold lastLTSplit at h
      cases hin : lastLTSplit cs with
      | some q => rw [hin] at h; simp at h
      | none =>
        rw [hin] at h
        cases hlt : isLineTerm c with
        | true => rw [hlt] at h; simp at h
        | false =>
          intro x hx
          rcases List.mem_cons.mp hx with rfl | hx2
          · exact hlt
          · exact (ih.mp hin) x hx2
    · intro h
      unfold lastLTSplit
      rw [ih.mpr (fun x hx => h x (by simp [hx]))]
      simp [h c (by simp)]

theorem lastLTSplit_none (run : List Char) (h : ∀ x ∈ run, isLineTerm x = false) :
    lastLTSplit run = none := (lastLTSplit_none_iff run).mpr h

theorem lastLTSplit_eq (run : List Char) (b : List Char) (t : Char) (a : List Char)
    (h : lastLTSplit run = some (b, t, a)) :
    run = b ++ t :: a ∧ isLineTerm t = true ∧ ∀ x ∈ a, isLineTerm x = false := by
  induction run generalizing b t a with
  | nil => simp [lastLTSplit] at h
  | cons c cs ih =>
    unfold lastLTSplit at h
    cases hin : lastLTSplit cs with
    | some q =>
      obtain ⟨b2, t2, a2⟩ := q
      rw [hin] at h
      simp only [Option.some.injEq, Prod.mk.injEq] at h
      obtain ⟨h1, h2, h3⟩ := h
      obtain ⟨ih1, ih2, ih3⟩ := ih b2 t2 a2 hin
      subst h1
      subst h2
      subst h3
      refine ⟨?_, ih2, ih3⟩
      rw [ih1]
      simp
    | none =>
      rw [hin] at h
      cases hlt : isLineTerm c with
      | true =>
        rw [hlt] at h
        simp only [if_true, Option.some.injEq, Prod.mk.injEq] at h
        obtain ⟨h1, h2, h3⟩ := h
        subst h1
        subst h2
        subst h3
        exact ⟨by simp, hlt, (lastLTSplit_none_iff cs).mp hin⟩
      | false =>
        rw [hlt] at h
        simp at h

theorem survInterior_no_LT (run : List Char) (h : ∀ x ∈ run, isLineTerm x = false) :
    survInterior run = run := by
  unfold survInterior
  rw [lastLTSplit_none run h]

theorem survInterior_single (c : Char) : survInterior [c] = [c] := by
  unfold survInterior
  cases hlt : isLineTerm c with
  | true => simp [lastLTSplit, hlt]
  | false => simp [lastLTSplit, hlt]

theorem survInterior_subset (run : List Char) : ∀ x ∈ survInterior run, x ∈ run := by
  intro x hx
  unfold survInterior at hx
  cases hsp : lastLTSplit run with
  | none => rw [hsp] at hx; exact hx
  | some q =>
    obtain ⟨b, t, a⟩ := q
    rw [hsp] at hx
    simp only [] at hx
    obtain ⟨heq, _, _⟩ := lastLTSplit_eq run b t a hsp
    have hxt : x = t := by
      cases hb : b.getLast? with
      | none => rw [hb] at hx; simpa using hx
      | some p =>
        rw [hb] at hx
        simp only [] at hx
        split at hx
        · simp at hx
        · simpa using hx
    subst hxt
    rw [heq]
    exact List.mem_append.mpr (Or.inr (by simp))

/-- The space/tab adjacency invariant established by `collapseST`. -/
abbrev RstST (a b : Char) : Prop := ¬(isST a = true ∧ isST b = true)

/-- Line terminators isolated from all other whitespace. -/
abbrev Riso (a b : Char) : Prop :=
  (isJsWs a = true → isLineTerm b = false) ∧ (isLineTerm a = true → isJsWs b = false)

theorem isJsWs_of_isST (a : Char) (h : isST a = true) : isJsWs a = true := by
  simp only [isST, Bool.or_eq_true, beq_iff_eq] at h
  rcases h with rfl | rfl <;> decide

theorem isJsWs_of_isLineTerm (a : Char) (h : isLineTerm a = true) : isJsWs a = true := by
  simp [isJsWs, h]

theorem RNorm_of_left_nonws (a b : Char) (h : isJsWs a = false) : RNorm a b := by
  refine ⟨fun hab => ?_, fun ha => ?_, fun ha => ?_⟩
  · rw [isJsWs_of_isST a hab.1] at h; simp at h
  · rw [ha] at h; simp at h
  · rw [isJsWs_of_isLineTerm a ha] at h; simp at h

theorem RNorm_of_right_nonws (a b : Char) (h : isJsWs b = false) : RNorm a b := by
  refine ⟨fun hab => ?_, fun _ => ?_, fun _ => ?_⟩
  · rw [isJsWs_of_isST b hab.2] at h; simp at h
  · cases hlt : isLineTerm b with
    | false => rfl
    | true => rw [isJsWs_of_isLineTerm b hlt] at h; simp at h
  · exact h

theorem chain_ws_no_LT (l : List Char) (hch : List.Chain' Riso l)
    (hws : ∀ x ∈ l, isJsWs x = true) : ∀ x ∈ l.dropLast, isLineTerm x = false := by
  induction l with
  | nil => simp
  | cons a l ih =>
    cases l with
    | nil => simp
    | cons b r =>
      intro x hx
      rw [List.dropLast_cons₂] at hx
      rcases List.mem_cons.mp hx with rfl | hx2
      · have hpair : Riso x b := (List.chain'_cons.mp hch).1
        cases hlt : isLineTerm x with
        | false => rfl
        | true =>
          have := hpair.2 hlt
          rw [hws b (by simp)] at this
          simp at this
      · exact ih (List.chain'_cons.mp hch).2 (fun y hy => hws y (by simp [hy])) x hx2

theorem chain_RNorm_of_noLT (l : List Char) (h1 : List.Chain' RstST l)
    (h2 : ∀ x ∈ l, isLineTerm x = false) : List.Chain' RNorm l := by
  induction l with
  | nil => exact List.chain'_nil
  | cons a l ih =>
    rw [List.chain'_cons'] at h1 ⊢
    refine ⟨?_, ih h1.2 (fun x hx => h2 x (by simp [hx]))⟩
    intro b hb
    have hbl : b ∈ l := List.mem_of_mem_head? hb
    refine ⟨h1.1 b hb, fun _ => h2 b (by simp [hbl]), fun ha => ?_⟩
    cases hws : isJsWs b with
    | false => rfl
    | true =>
      rw [h2 a (by simp)] at ha
      simp at ha

theorem trimBodyAux_cons (pend : List Char) (c : Char) (cs : List Char) :
    trimBodyAux pend (c :: cs) =
      if isJsWs c then trimBodyAux (pend ++ [c]) cs
      else survInterior pend ++ c :: trimBodyAux [] cs := rfl

theorem survInterior_nil : survInterior [] = [] := rfl

theorem survInterior_concat_ws (pend : List Char) (c : Char)
    (_hpend : ∀ x ∈ pend, isJsWs x = true)
    (hnoLT : ∀ x ∈ pend ++ [c], isLineTerm x = false) :
    survInterior (pend ++ [c]) = survInterior pend ++ [c] := by
  rw [survInterior_no_LT _ hnoLT,
    survInterior_no_LT pend (fun x hx => hnoLT x (by simp [hx]))]

/-- The multiline trim body is the identity on text whose whitespace
runs already have the surviving shape, provided the text does not end in
whitespace. -/
theorem trimBodyAux_id (l : List Char) : ∀ pend : List Char,
    List.Chain' Riso (pend ++ l) →
    (∀ x ∈ pend, isJsWs x = true) →
    (∀ x, (pend ++ l).getLast? = some x → isJsWs x = false) →
    trimBodyAux pend l = survInterior pend ++ l := by
  induction l with
  | nil =>
    intro pend _ hpend hlast
    cases hp : pend with
    | nil => subst hp; rfl
    | cons p ps =>
      exfalso
      have hne : pend ≠ [] := by simp [hp]
      have hsome : pend.getLast? = some (pend.getLast hne) := List.getLast?_eq_getLast pend hne
      have h1 := hlast (pend.getLast hne) (by rw [List.append_nil]; exact hsome)
      rw [hpend (pend.getLast hne) (List.getLast_mem hne)] at h1
      simp at h1
  | cons c cs ih =>
    intro pend hch hpend hlast
    rw [trimBodyAux_cons]
    cases hws : isJsWs c with
    | true =>
      rw [if_pos rfl]
      have hassoc : pend ++ c :: cs = (pend ++ [c]) ++ cs := by simp
      have hch2 : List.Chain' Riso ((pend ++ [c]) ++ cs) := by rw [← hassoc]; exact hch
      have hpend2 : ∀ x ∈ pend ++ [c], isJsWs x = true := by
        intro x hx
        rcases List.mem_append.mp hx with hx | hx
        · exact hpend x hx
        · simp at hx; subst hx; exact hws
      have hlast2 : ∀ x, ((pend ++ [c]) ++ cs).getLast? = some x → isJsWs x = false :=
        fun x hx => hlast x (by rw [hassoc]; exact hx)
      rw [ih (pend ++ [c]) hch2 hpend2 hlast2]
      cases hp : pend with
      | nil =>
        subst hp
        simp only [List.nil_append]
        rw [survInterior_single, survInterior_nil]
        simp
      | cons p ps =>
        have hchiso : List.Chain' Riso (pend ++ [c]) := (List.chain'_append.mp hch2).1
        have hne : pend ≠ [] := by simp [hp]
        have hnoLT : ∀ x ∈ pend ++ [c], isLineTerm x = false := by
          intro x hx
          rcases List.mem_append.mp hx with hx2 | hx2
          · exact chain_ws_no_LT _ hchiso hpend2 x
              (by rw [List.dropLast_concat]; exact hx2)
          · simp only [List.mem_singleton] at hx2
            subst hx2
            have hpair := (List.chain'_append.mp hchiso).2.2
            have h1 := hpair (pend.getLast hne) (List.getLast?_eq_getLast pend hne) x
              (by simp)
            exact h1.1 (hpend _ (List.getLast_mem hne))
        rw [← hp, survInterior_concat_ws pend c hpend hnoLT]
        simp
    | false =>
      rw [if_neg (by simp [hws])]
      have hassoc : pend ++ c :: cs = (pend ++ [c]) ++ cs := by simp
      have hch3 : List.Chain' Riso cs :=
        (List.chain'_append.mp (hassoc ▸ hch)).2.1
      have hlcs : ∀ x, cs.getLast? = some x → isJsWs x = false := by
        intro x hx
        have hcsne : cs ≠ [] := by
          intro hnil
          rw [hnil] at hx
          simp at hx
        apply hlast x
        rw [List.getLast?_append]
        have h1 : (c :: cs).getLast? = some x := by
          cases hcse : cs with
          | nil => exact absurd hcse hcsne
          | cons c2 cs2 =>
            rw [List.getLast?_cons_cons]
            rw [← hcse]
            exact hx
        rw [h1]
        rfl
      have := ih [] (by simpa using hch3) (by simp) (by simpa using hlcs)
      rw [this]
      rw [survInterior_nil]
      simp

theorem trimBodyAux_mem (l : List Char) : ∀ pend x,
    x ∈ trimBodyAux pend l → x ∈ pend ∨ x ∈ l := by
  induction l with
  | nil => intro pend x hx; simp [trimBodyAux] at hx
  | cons c cs ih =>
    intro pend x hx
    rw [trimBodyAux_cons] at hx
    split at hx
    · rcases ih (pend ++ [c]) x hx with h | h
      · rcases List.mem_append.mp h with h2 | h2
        · exact Or.inl h2
        · simp at h2; subst h2; exact Or.inr (by simp)
      · exact Or.inr (by simp [h])
    · rcases List.mem_append.mp hx with h | h
      · exact Or.inl (survInterior_subset pend x h)
      · rcases List.mem_cons.mp h with rfl | h2
        · exact Or.inr (by simp)
        · rcases ih [] x h2 with h3 | h3
          · simp at h3
          · exact Or.inr (by simp [h3])

/-- The trim pass establishes the normal-form adjacency invariant. -/
theorem trimBodyAux_chain (l : List Char) : ∀ pend : List Char,
    List.Chain' RstST (pend ++ l) →
    (∀ x ∈ pend, isJsWs x = true) →
    List.Chain' RNorm (trimBodyAux pend l) := by
  induction l with
  | nil => intro pend _ _; exact List.chain'_nil
  | cons c cs ih =>
    intro pend hch hpend
    rw [trimBodyAux_cons]
    cases hws : isJsWs c with
    | true =>
      rw [if_pos rfl]
      apply ih (pend ++ [c])
      · rw [show (pend ++ [c]) ++ cs = pend ++ c :: cs by simp]
        exact hch
      · intro x hx
        rcases List.mem_append.mp hx with h | h
        · exact hpend x h
        · simp at h; subst h; exact hws
    | false =>
      rw [if_neg (by simp [hws])]
      have hrec : List.Chain' RNorm (trimBodyAux [] cs) := by
        apply ih []
        · have : pend ++ c :: cs = (pend ++ [c]) ++ cs := by simp
          simpa using (List.chain'_append.mp (this ▸ hch)).2.1
        · simp
      have hcons : List.Chain' RNorm (c :: trimBodyAux [] cs) := by
        rw [List.chain'_cons']
        exact ⟨fun h _ => RNorm_of_left_nonws c h hws, hrec⟩
      have hsurv : List.Chain' RNorm (survInterior pend) := by
        cases hsp : lastLTSplit pend with
        | none =>
          rw [survInterior, hsp]
          apply chain_RNorm_of_noLT
          · have : List.Chain' RstST pend := (List.chain'_append.mp hch).1
            exact this
          · exact (lastLTSplit_none_iff pend).mp hsp
        | some q =>
          obtain ⟨b, t, a⟩ := q
          rw [survInterior, hsp]
          show List.Chain' RNorm (match b.getLast? with
            | none => [t]
            | some p => if isLineTerm p = true then [] else [t])
          cases hb : b.getLast? with
          | none =>
            show List.Chain' RNorm [t]
            exact List.chain'_singleton t
          | some p =>
            show List.Chain' RNorm (if isLineTerm p = true then [] else [t])
            split
            · exact List.chain'_nil
            · exact List.chain'_singleton t
      apply List.Chain'.append hsurv hcons
      intro x _ y hy
      have hyc : y = c := by
        simp only [List.head?_cons, Option.mem_def, Option.some.injEq] at hy
        exact hy.symm
      subst hyc
      exact RNorm_of_right_nonws x y hws

theorem collapseSTAux_good (l : List Char) : ∀ prev : Bool,
    List.Chain' RstST (collapseSTAux prev l) ∧
      '\t' ∉ collapseSTAux prev l ∧
      (∀ c, (collapseSTAux true l).head? = some c → isST c = false) := by
  induction l with
  | nil => intro prev; simp [collapseSTAux]
  | cons c cs ih =>
    intro prev
    refine ⟨?_, ?_, ?_⟩
    · show List.Chain' RstST (collapseSTAux prev (c :: cs))
      unfold collapseSTAux
      cases hst : isST c with
      | true =>
        simp only [if_true]
        cases prev with
        | true => exact (ih true).1
        | false =>
          simp only [Bool.false_eq_true, if_false]
          rw [List.chain'_cons']
          exact ⟨fun h hh => fun hand => by
            rw [(ih true).2.2 h hh] at hand
            exact absurd hand.2 (by simp), (ih true).1⟩
      | false =>
        simp only [Bool.false_eq_true, if_false]
        rw [List.chain'_cons']
        exact ⟨fun h _ => fun hand => by rw [hst] at hand; exact absurd hand.1 (by simp),
          (ih false).1⟩
    · show '\t' ∉ collapseSTAux prev (c :: cs)
      unfold collapseSTAux
      cases hst : isST c with
      | true =>
        simp only [if_true]
        cases prev with
        | true => exact (ih true).2.1
        | false =>
          simp only [Bool.false_eq_true, if_false]
          intro hmem
          rcases List.mem_cons.mp hmem with h | h
          · simp at h
          · exact (ih true).2.1 h
      | false =>
        simp only [Bool.false_eq_true, if_false]
        intro hmem
        rcases List.mem_cons.mp hmem with h | h
        · rw [← h] at hst; simp [isST] at hst
        · exact (ih false).2.1 h
    · show ∀ d, (collapseSTAux true (c :: cs)).head? = some d → isST d = false
      intro d hd
      unfold collapseSTAux at hd
      cases hst : isST c with
      | true =>
        rw [hst] at hd
        simp only [if_true] at hd
        exact (ih true).2.2 d hd
      | false =>
        rw [hst] at hd
        simp only [Bool.false_eq_true, if_false, List.head?_cons, Option.some.injEq] at hd
        rw [← hd]
        exact hst

theorem collapseSTAux_id (l : List Char) : ∀ prev : Bool,
    List.Chain' RstST l → '\t' ∉ l →
    (prev = true → ∀ c, l.head? = some c → isST c = false) →
    collapseSTAux prev l = l := by
  induction l with
  | nil => intro prev _ _ _; rfl
  | cons c cs ih =>
    intro prev hch htab hprev
    unfold collapseSTAux
    cases hst : isST c with
    | true =>
      cases prev with
      | true => exact absurd ((hprev rfl c (by simp)).symm.trans hst) (by simp)
      | false =>
        simp only [if_true, Bool.false_eq_true, if_false]
        have hc : c = ' ' := by
          simp only [isST, Bool.or_eq_true, beq_iff_eq] at hst
          rcases hst with rfl | rfl
          · rfl
          · exact absurd (by simp : '\t' ∈ '\t' :: cs) htab
        rw [hc]
        congr 1
        apply ih true ((List.chain'_cons'.mp hch).2) (fun h => htab (by simp [h]))
        intro _ d hd
        have hpair := (List.chain'_cons'.mp hch).1 d hd
        cases hstd : isST d with
        | false => rfl
        | true => exact absurd ⟨hst, hstd⟩ hpair
    | false =>
      simp only [Bool.false_eq_true, if_false]
      congr 1
      exact ih false ((List.chain'_cons'.mp hch).2) (fun h => htab (by simp [h]))
        (by simp)

theorem chain_RstST_replicate_nl (n : Nat) :
    List.Chain' RstST (List.replicate n '\n') := by
  induction n with
  | zero => exact List.chain'_nil
  | succ n ihn =>
    rw [List.replicate_succ, List.chain'_cons']
    exact ⟨fun h _ => fun hand => absurd hand.1 (by simp [isST]), ihn⟩

theorem collapseNL4Aux_cons (k : Nat) (c : Char) (cs : List Char) :
    collapseNL4Aux k (c :: cs) =
      if c == '\n' then collapseNL4Aux (k + 1) cs
      else emitNLRun k ++ c :: collapseNL4Aux 0 cs := rfl

theorem collapseNL4Aux_good (l : List Char) : ∀ k : Nat,
    List.Chain' RstST l →
    (List.Chain' RstST (collapseNL4Aux k l) ∧
      (∀ x ∈ collapseNL4Aux k l, x ∈ l ∨ x = '\n') ∧
      (∀ c, (collapseNL4Aux k l).head? = some c →
        c = '\n' ∨ (k = 0 ∧ l.head? = some c))) := by
  induction l with
  | nil =>
    intro k _
    have hshape : collapseNL4Aux k ([] : List Char) = emitNLRun k := rfl
    rw [hshape]
    refine ⟨?_, ?_, ?_⟩
    · unfold emitNLRun
      exact chain_RstST_replicate_nl _
    · intro x hx
      unfold emitNLRun at hx
      exact Or.inr (List.eq_of_mem_replicate hx)
    · intro c hc
      unfold emitNLRun at hc
      left
      rw [List.head?_replicate '\n'] at hc
      rcases hc2 : (if 4 ≤ k then 3 else k) with _ | n
      · rw [hc2] at hc; simp at hc
      · rw [hc2] at hc; simp at hc; exact hc.symm
  | cons c cs ih =>
    intro k hch
    have hchcs := (List.chain'_cons'.mp hch).2
    have hpairs := (List.chain'_cons'.mp hch).1
    cases hc : c == '\n' with
    | true =>
      have hceq : c = '\n' := beq_iff_eq.mp hc
      have hshape : collapseNL4Aux k (c :: cs) = collapseNL4Aux (k + 1) cs := by
        rw [collapseNL4Aux_cons, hc]
        simp
      rw [hshape]
      obtain ⟨g1, g2, g3⟩ := ih (k + 1) hchcs
      refine ⟨g1, ?_, ?_⟩
      · intro x hx
        rcases g2 x hx with h | h
        · exact Or.inl (by simp [h])
        · exact Or.inr h
      · intro d hd
        rcases g3 d hd with h | h
        · exact Or.inl h
        · exact absurd h.1 (by omega)
    | false =>
      have hshape : collapseNL4Aux k (c :: cs) =
          emitNLRun k ++ c :: collapseNL4Aux 0 cs := by
        rw [collapseNL4Aux_cons, hc]
        simp
      rw [hshape]
      obtain ⟨g1, g2, g3⟩ := ih 0 hchcs
      refine ⟨?_, ?_, ?_⟩
      · apply List.Chain'.append
        · unfold emitNLRun
          exact chain_RstST_replicate_nl _
        · rw [List.chain'_cons']
          refine ⟨?_, g1⟩
          intro d hd
          rcases g3 d hd with rfl | h
          · exact fun hand => absurd hand.2 (by simp [isST])
          · exact hpairs d h.2
        · intro x hx y hy
          have hxnl : x = '\n' := by
            unfold emitNLRun at hx
            rw [List.getLast?_replicate '\n'] at hx
            rcases hc2 : (if 4 ≤ k then 3 else k) with _ | n
            · rw [hc2] at hx; simp at hx
            · rw [hc2] at hx; simp at hx; exact hx.symm
          have hynl : y = c := by have h2 := hy; simp at h2; exact h2.symm
          subst hxnl hynl
          exact fun hand => absurd hand.1 (by simp [isST])
      · intro x hx
        rcases List.mem_append.mp hx with h | h
        · unfold emitNLRun at h
          exact Or.inr (List.eq_of_mem_replicate h)
        · rcases List.mem_cons.mp h with rfl | h2
          · exact Or.inl (by simp)
          · rcases g2 x h2 with h3 | h3
            · exact Or.inl (by simp [h3])
            · exact Or.inr h3
      · intro d hd
        cases hk : k with
        | zero =>
          rw [hk] at hd
          have : emitNLRun 0 = [] := rfl
          rw [this, List.nil_append, List.head?_cons] at hd
          right
          exact ⟨rfl, by simpa using hd⟩
        | succ k2 =>
          left
          rw [hk] at hd
          rw [List.head?_append] at hd
          have hh : (emitNLRun (k2 + 1)).head? = some '\n' := by
            unfold emitNLRun
            rw [List.head?_replicate '\n']
            rcases hc2 : (if 4 ≤ k2 + 1 then 3 else k2 + 1) with _ | n
            · exfalso
              split at hc2 <;> omega
            · simp
          rw [hh] at hd
          simpa using hd.symm

theorem collapseNL4Aux_id (l : List Char)
    (hch : List.Chain' (fun a b => ¬(a = '\n' ∧ b = '\n')) l) :
    collapseNL4Aux 0 l = l ∧
      ((∀ c, l.head? = some c → c ≠ '\n') → collapseNL4Aux 1 l = '\n' :: l) := by
  induction l with
  | nil => exact ⟨rfl, fun _ => rfl⟩
  | cons c cs ih =>
    obtain ⟨ih0, ih1⟩ := ih (List.chain'_cons'.mp hch).2
    constructor
    · rw [collapseNL4Aux_cons]
      cases hc : c == '\n' with
      | true =>
        simp only [if_true]
        have hceq := beq_iff_eq.mp hc
        subst hceq
        apply ih1
        intro d hd hdn
        exact (List.chain'_cons'.mp hch).1 d hd ⟨rfl, hdn⟩
      | false =>
        simp only [Bool.false_eq_true, if_false]
        rw [ih0]
        rfl
    · intro hhead
      rw [collapseNL4Aux_cons]
      have hc : (c == '\n') = false := by
        have h1 := hhead c (by simp)
        simpa using h1
      rw [hc]
      simp only [Bool.false_eq_true, if_false]
      rw [ih0]
      rfl

theorem dropWhile_head_false (p : Char → Bool) (l : List Char) :
    ∀ c, (l.dropWhile p).head? = some c → p c = false := by
  induction l with
  | nil => simp [List.dropWhile]
  | cons a as ih =>
    intro c hc
    rw [List.dropWhile_cons] at hc
    split at hc
    · exact ih c hc
    · rename_i hpa
      simp only [List.head?_cons, Option.some.injEq] at hc
      subst hc
      simpa using hpa

theorem dropWhile_eq_self_of_head (p : Char → Bool) (l : List Char)
    (h : ∀ c, l.head? = some c → p c = false) : l.dropWhile p = l := by
  cases l with
  | nil => rfl
  | cons a as =>
    rw [List.dropWhile_cons, if_neg]
    rw [h a (by simp)]
    simp

theorem jsTrimL_decomp (l : List Char) :
    ∃ pre suf, pre ++ (jsTrimL l ++ suf) = l := by
  obtain ⟨pre, hpre⟩ := List.dropWhile_suffix (l := l) isJsWs
  obtain ⟨a, ha⟩ := List.dropWhile_suffix (l := (l.dropWhile isJsWs).reverse) isJsWs
  refine ⟨pre, a.reverse, ?_⟩
  have h2 : l.dropWhile isJsWs = jsTrimL l ++ a.reverse := by
    unfold jsTrimL
    have := congrArg List.reverse ha
    rw [List.reverse_append, List.reverse_reverse] at this
    exact this.symm
  rw [← h2]
  exact hpre

theorem jsTrimL_head (l : List Char) :
    ∀ c, (jsTrimL l).head? = some c → isJsWs c = false := by
  intro c hc
  unfold jsTrimL at hc
  obtain ⟨a, ha⟩ := List.dropWhile_suffix (l := (l.dropWhile isJsWs).reverse) isJsWs
  have h2 : l.dropWhile isJsWs =
      ((l.dropWhile isJsWs).reverse.dropWhile isJsWs).reverse ++ a.reverse := by
    have := congrArg List.reverse ha
    rw [List.reverse_append, List.reverse_reverse] at this
    exact this.symm
  cases hr : ((l.dropWhile isJsWs).reverse.dropWhile isJsWs).reverse with
  | nil => rw [hr] at hc; simp at hc
  | cons b bs =>
    rw [hr] at hc
    simp only [List.head?_cons, Option.some.injEq] at hc
    subst hc
    apply dropWhile_head_false isJsWs l
    rw [h2, hr]
    simp

theorem jsTrimL_last (l : List Char) :
    ∀ c, (jsTrimL l).getLast? = some c → isJsWs c = false := by
  intro c hc
  unfold jsTrimL at hc
  rw [List.getLast?_reverse] at hc
  exact dropWhile_head_false isJsWs _ c hc

theorem jsTrimL_id (l : List Char)
    (hhead : ∀ c, l.head? = some c → isJsWs c = false)
    (hlast : ∀ c, l.getLast? = some c → isJsWs c = false) :
    jsTrimL l = l := by
  unfold jsTrimL
  rw [dropWhile_eq_self_of_head isJsWs l hhead]
  rw [dropWhile_eq_self_of_head isJsWs l.reverse
    (fun c hc => hlast c (by rw [← List.head?_reverse]; exact hc))]
  exact List.reverse_reverse l

/-- `cleanTextL` always produces the normal form. -/
theorem cleanTextL_normal (l : List Char) :
    List.Chain' RNorm (cleanTextL l) ∧ '\t' ∉ cleanTextL l ∧
      (∀ c, (cleanTextL l).head? = some c → isJsWs c = false) ∧
      (∀ c, (cleanTextL l).getLast? = some c → isJsWs c = false) := by
  have g1 := collapseSTAux_good l false
  have g2 := collapseNL4Aux_good (collapseST l) 0 g1.1
  have hchdrop : List.Chain' RstST ((collapseNL4 (collapseST l)).dropWhile isJsWs) := by
    obtain ⟨pre, hpre⟩ := List.dropWhile_suffix
      (l := collapseNL4 (collapseST l)) isJsWs
    have h2 : List.Chain' RstST (collapseNL4 (collapseST l)) := g2.1
    rw [← hpre] at h2
    exact h2.right_of_append
  have g3chain : List.Chain' RNorm (trimLinesL (collapseNL4 (collapseST l))) := by
    apply trimBodyAux_chain _ []
    · simpa using hchdrop
    · simp
  have g3mem : ∀ x ∈ trimLinesL (collapseNL4 (collapseST l)),
      x ∈ collapseNL4 (collapseST l) := by
    intro x hx
    rcases trimBodyAux_mem _ [] x hx with h | h
    · simp at h
    · exact (List.dropWhile_suffix isJsWs).subset h
  obtain ⟨pre, suf, hdecomp⟩ := jsTrimL_decomp (trimLinesL (collapseNL4 (collapseST l)))
  have houtchain : List.Chain' RNorm (cleanTextL l) := by
    have := g3chain
    rw [← hdecomp] at this
    exact this.right_of_append.left_of_append
  refine ⟨houtchain, ?_, jsTrimL_head _, jsTrimL_last _⟩
  intro hmem
  have h1 : '\t' ∈ trimLinesL (collapseNL4 (collapseST l)) := by
    rw [← hdecomp]
    exact List.mem_append.mpr (Or.inr (List.mem_append.mpr (Or.inl hmem)))
  have h2 := g3mem _ h1
  rcases g2.2.1 _ h2 with h3 | h3
  · exact g1.2.1 h3
  · simp at h3

/-- C6: `cleanText` is idempotent. -/
theorem cleanText_idempotent (s : String) : cleanText (cleanText s) = cleanText s := by
  show String.mk (cleanTextL (String.mk (cleanTextL s.data)).data) = _
  have hdata : (String.mk (cleanTextL s.data)).data = cleanTextL s.data := rfl
  rw [hdata]
  obtain ⟨hch, htab, hhead, hlast⟩ := cleanTextL_normal s.data
  set out := cleanTextL s.data with hout
  have st1 : collapseST out = out := by
    apply collapseSTAux_id out false
    · exact hch.imp (fun a b hr => hr.1)
    · exact htab
    · intro h
      simp at h
  have st2 : collapseNL4 out = out := by
    apply (collapseNL4Aux_id out ?hc).1
    case hc =>
      apply hch.imp
      intro a b hr hand
      obtain ⟨rfl, rfl⟩ := hand
      have h3 := hr.2.1 (by decide)
      exact absurd h3 (by decide)
  have st3 : trimLinesL out = out := by
    unfold trimLinesL
    rw [dropWhile_eq_self_of_head isJsWs out hhead]
    have := trimBodyAux_id out []
      (by simpa using hch.imp (fun a b hr => ⟨hr.2.1, hr.2.2⟩))
      (by simp) (by simpa using hlast)
    rw [this, survInterior_nil]
    simp
  have hfinal : cleanTextL out = out := by
    show jsTrimL (trimLinesL (collapseNL4 (collapseST out))) = out
    rw [st1, st2, st3]
    exact jsTrimL_id out hhead hlast
  show String.mk (cleanTextL out) = cleanText s
  rw [show cleanText s = String.mk out from rfl, hfinal]

/-! ### fuel irrelevance and stepping -/

theorem runRule_fuel_ge (r : RRule) :
    ∀ (f1 f2 : Nat) (prev : Option Char) (l : List Char),
    l.length ≤ f1 → l.length ≤ f2 →
    runRule r f1 prev l = runRule r f2 prev l := by
  intro f1
  induction f1 with
  | zero =>
    intro f2 prev l h1 _
    have hl : l = [] := List.eq_nil_of_length_eq_zero (Nat.le_zero.mp h1)
    subst hl
    rw [runRule_nil, runRule_nil]
  | succ f1 ih =>
    intro f2 prev l h1 h2
    cases l with
    | nil => rw [runRule_nil, runRule_nil]
    | cons c cs =>
      cases f2 with
      | zero => simp at h2
      | succ f2 =>
        rw [runRule_succ, runRule_succ]
        cases htr : tryRule r prev (c :: cs) with
        | none =>
          simp only []
          rw [ih f2 (some c) cs (Nat.le_of_succ_le_succ h1) (Nat.le_of_succ_le_succ h2)]
        | some trip =>
          obtain ⟨em, m, rest⟩ := trip
          simp only []
          obtain ⟨ms, hms, _, hmflat, hne⟩ := tryRule_some_elim r prev _ em m rest htr
          have hrec := seqMatch_reconstruct _ _ _ _ hms
          have hlen : rest.length ≤ cs.length := by
            have h3 := congrArg List.length hrec
            simp only [List.length_append, List.length_cons] at h3
            have h4 : 1 ≤ ms.flatten.length := by
              cases hq : ms.flatten with
              | nil => exact absurd hq hne
              | cons a as => simp
            omega
          rw [ih f2 _ rest (Nat.le_trans hlen (Nat.le_of_succ_le_succ h1))
            (Nat.le_trans hlen (Nat.le_of_succ_le_succ h2))]

theorem runRule_skip_chunk (r : RRule) :
    ∀ (x : List Char) (fuel : Nat) (prev : Option Char) (t : List Char),
    (∀ (q : Option Char) (x1 : List Char) (c : Char) (x2 : List Char),
      x = x1 ++ c :: x2 → tryRule r q (c :: (x2 ++ t)) = none) →
    ∃ q, runRule r (x.length + fuel) prev (x ++ t) = x ++ runRule r fuel q t := by
  intro x
  induction x with
  | nil =>
    intro fuel prev t _
    exact ⟨prev, by simp⟩
  | cons c cs ih =>
    intro fuel prev t hnone
    have h0 : tryRule r prev (c :: (cs ++ t)) = none := hnone prev [] c cs rfl
    have hL : (c :: cs).length + fuel = (cs.length + fuel) + 1 := by
      simp [List.length_cons]
      omega
    rw [hL, show (c :: cs) ++ t = c :: (cs ++ t) from rfl, runRule_succ, h0]
    simp only []
    obtain ⟨q, hq⟩ := ih fuel (some c) t
      (fun q x1 d x2 hx => hnone q (c :: x1) d x2 (by rw [hx]; rfl))
    exact ⟨q, by rw [hq]; rfl⟩

theorem runRule_skip_chunk_full (r : RRule) (x t : List Char) (F : Nat) (q : Option Char)
    (hF : x.length + t.length ≤ F)
    (hnone : ∀ (q2 : Option Char) (x1 : List Char) (c : Char) (x2 : List Char),
      x = x1 ++ c :: x2 → tryRule r q2 (c :: (x2 ++ t)) = none) :
    ∃ q2, runRule r F q (x ++ t) = x ++ runRule r t.length q2 t := by
  obtain ⟨q2, hq⟩ := runRule_skip_chunk r x (F - x.length) q t hnone
  have hF2 : x.length + (F - x.length) = F := by omega
  rw [hF2] at hq
  refine ⟨q2, ?_⟩
  rw [hq, runRule_fuel_ge r (F - x.length) t.length q2 t (by omega) (Nat.le_refl _)]

theorem runRule_step_none (r : RRule) (F : Nat) (q : Option Char) (c : Char) (cs : List Char)
    (hF : cs.length + 1 ≤ F) (hnone : tryRule r q (c :: cs) = none) :
    runRule r F q (c :: cs) = c :: runRule r cs.length (some c) cs := by
  obtain ⟨F2, rfl⟩ : ∃ F2, F = F2 + 1 := ⟨F - 1, by omega⟩
  rw [runRule_succ, hnone]
  simp only []
  rw [runRule_fuel_ge r F2 cs.length (some c) cs (by omega) (Nat.le_refl _)]

theorem runRule_step_some (r : RRule) (F : Nat) (q : Option Char) (c : Char) (cs : List Char)
    (em m rest : List Char) (hF : cs.length + 1 ≤ F)
    (hsome : tryRule r q (c :: cs) = some (em, m, rest)) :
    runRule r F q (c :: cs) = em ++ runRule r rest.length (some (m.getLastD c)) rest := by
  obtain ⟨F2, rfl⟩ : ∃ F2, F = F2 + 1 := ⟨F - 1, by omega⟩
  rw [runRule_succ, hsome]
  simp only []
  obtain ⟨ms, hms, _, hmf, hne⟩ := tryRule_some_elim r q _ em m rest hsome
  have hrec := seqMatch_reconstruct _ _ _ _ hms
  have hrl : rest.length ≤ cs.length := by
    have h3 := congrArg List.length hrec
    simp only [List.length_append, List.length_cons] at h3
    have h4 : 1 ≤ ms.flatten.length := by
      cases hq2 : ms.flatten with
      | nil => exact absurd hq2 hne
      | cons a as => simp
    omega
  rw [runRule_fuel_ge r F2 rest.length _ rest (by omega) (Nat.le_refl _)]

/-! ### inversion of successful matches -/

theorem elemMatches_cls_elim (p : Char → Bool) (lo : Nat) (hi : Option Nat)
    (l m rest : List Char) (h : (m, rest) ∈ elemMatches (.cls p lo hi) l) :
    (∀ c ∈ m, p c = true) ∧ lo ≤ m.length ∧ m ++ rest = l ∧
      (∀ hb, hi = some hb → m.length ≤ hb) := by
  have hrec := elemMatches_reconstruct _ _ _ _ h
  simp only [elemMatches] at h
  set M := (match hi with
    | none => (l.takeWhile p).length
    | some hb => min (l.takeWhile p).length hb) with hM
  split at h
  · simp at h
  · rename_i hge
    obtain ⟨i, hi2, hieq⟩ := List.mem_map.mp h
    have h3 : l.take (M - i) = m := (Prod.mk.injEq .. ▸ hieq).1
    rw [List.mem_range] at hi2
    rw [Nat.not_lt] at hge
    have hMle : M ≤ (l.takeWhile p).length := by
      rw [hM]
      cases hi with
      | none => exact Nat.le_refl _
      | some hb => exact Nat.min_le_left _ _
    have htwle : (l.takeWhile p).length ≤ l.length :=
      (List.takeWhile_sublist p).length_le
    have hmlen : m.length = M - i := by
      rw [← h3, List.length_take]
      omega
    refine ⟨?_, ?_, hrec, ?_⟩
    · intro c hc
      rw [← h3] at hc
      exact mem_take_sat p l _ (by omega) c hc
    · omega
    · intro hb hhb
      have hMhb : M ≤ hb := by
        rw [hhb] at hM
        rw [hM]
        exact Nat.min_le_right _ _
      omega

theorem elemMatches_lit_elim (s l m rest : List Char)
    (h : (m, rest) ∈ elemMatches (.lit s) l) : m = s ∧ m ++ rest = l := by
  have hrec := elemMatches_reconstruct _ _ _ _ h
  simp only [elemMatches] at h
  split at h
  · simp only [List.mem_singleton, Prod.mk.injEq] at h
    exact ⟨h.1, hrec⟩
  · simp at h

theorem elemMatches_alts_elim (ss : List (List Char)) (l m rest : List Char)
    (h : (m, rest) ∈ elemMatches (.alts ss) l) : m ∈ ss ∧ m ++ rest = l := by
  have hrec := elemMatches_reconstruct _ _ _ _ h
  simp only [elemMatches] at h
  obtain ⟨s, hs, hf⟩ := List.mem_filterMap.mp h
  split at hf
  · simp only [Option.some.injEq, Prod.mk.injEq] at hf
    exact ⟨hf.1 ▸ hs, hrec⟩
  · simp at hf

theorem elemMatches_test_elim (f : List Char → Bool) (l m rest : List Char)
    (h : (m, rest) ∈ elemMatches (.test f) l) : m = [] ∧ rest = l ∧ f l = true := by
  simp only [elemMatches] at h
  split at h
  · rename_i hf
    simp only [List.mem_singleton, Prod.mk.injEq] at h
    exact ⟨h.1, h.2, hf⟩
  · simp at h

theorem seqMatch_cons_elim (e : RElem) (es : List RElem) (l : List Char)
    (ms : List (List Char)) (rest : List Char)
    (h : seqMatch (e :: es) l = some (ms, rest)) :
    ∃ m r1 ms2, (m, r1) ∈ elemMatches e l ∧ seqMatch es r1 = some (ms2, rest) ∧
      ms = m :: ms2 := by
  unfold seqMatch at h
  obtain ⟨pq, hmem, hp⟩ := List.exists_of_findSome?_eq_some h
  obtain ⟨m, r1⟩ := pq
  cases hin : seqMatch es r1 with
  | none => rw [hin] at hp; simp at hp
  | some qq =>
    obtain ⟨ms2, rest2⟩ := qq
    rw [hin] at hp
    simp only [Option.some.injEq, Prod.mk.injEq] at hp
    exact ⟨m, r1, ms2, hmem, by rw [hin, hp.2], hp.1.symm⟩

theorem seqMatch_nil_elim (l : List Char) (ms : List (List Char)) (rest : List Char)
    (h : seqMatch [] l = some (ms, rest)) : ms = [] ∧ rest = l := by
  simp only [seqMatch, Option.some.injEq, Prod.mk.injEq] at h
  exact ⟨h.1.symm, h.2.symm⟩

/-! ### prefix separation along a forbidden character -/

theorem append_sat_split (P : Char → Bool) (A B u v : List Char) (s : Char)
    (hA : ∀ c ∈ A, P c = true) (hs : P s = false)
    (he : A ++ B = u ++ s :: v) :
    ∃ u2, u = A ++ u2 ∧ B = u2 ++ s :: v := by
  rcases List.append_eq_append_iff.mp he with ⟨a2, ha1, ha2⟩ | ⟨c2, hc1, hc2⟩
  · exact ⟨a2, ha1, ha2⟩
  · cases c2 with
    | nil =>
      refine ⟨[], ?_, ?_⟩
      · rw [hc1]; simp
      · simpa using hc2.symm
    | cons d ds =>
      exfalso
      have hd : d = s := by
        have := hc2
        simp only [List.cons_append] at this
        exact (List.cons.injEq .. ▸ this).1.symm
      have hdA : d ∈ A := by
        rw [hc1]
        exact List.mem_append_right u (by simp)
      rw [hd] at hdA
      exact absurd (hA s hdA) (by simp [hs])

theorem noNL_append_nl_inj (A B u v : List Char)
    (hA : ∀ c ∈ A, c ≠ '\n') (hu : ∀ c ∈ u, c ≠ '\n')
    (he : A ++ '\n' :: B = u ++ '\n' :: v) : A = u ∧ B = v := by
  obtain ⟨u2, hu2, hB⟩ := append_sat_split (fun c => c != '\n') A ('\n' :: B) u v '\n'
    (fun c hc => by simp [hA c hc]) (by simp) he
  cases u2 with
  | nil =>
    refine ⟨by simpa using hu2.symm, ?_⟩
    simpa using hB
  | cons d ds =>
    exfalso
    have hd : d = '\n' := by
      simp only [List.cons_append] at hB
      exact (List.cons.injEq .. ▸ hB).1.symm
    have hdu : d ∈ u := by
      rw [hu2]
      exact List.mem_append_right A (by simp)
    exact hu d hdu (by rw [hd])

/-! ### generic failure lemmas -/

theorem elemMatches_cls_short (p : Char → Bool) (lo : Nat) (hi : Option Nat)
    (l : List Char) (hlen : (l.takeWhile p).length < lo) :
    elemMatches (.cls p lo hi) l = [] := by
  simp only [elemMatches]
  rw [if_pos]
  cases hi with
  | none => exact hlen
  | some hb => exact Nat.lt_of_le_of_lt (Nat.min_le_left _ _) hlen

theorem tryRule_none_cls_head_fail (r : RRule) (p : Char → Bool) (lo : Nat)
    (hi : Option Nat) (es : List RElem) (hpat : r.pat = .cls p lo hi :: es)
    (q : Option Char) (c : Char) (w : List Char) (hc : p c = false) (hlo : 1 ≤ lo) :
    tryRule r q (c :: w) = none := by
  apply tryRule_none_of_seqMatch
  rw [hpat]
  exact seqMatch_elem_nil _ _ _ (elemMatches_cls_nil_head p lo hi c w hc hlo)

theorem tryRule_none_lit_head (r : RRule) (d : Char) (s : List Char) (es : List RElem)
    (hpat : r.pat = .lit (d :: s) :: es) (q : Option Char) (c : Char) (w : List Char)
    (hc : c ≠ d) : tryRule r q (c :: w) = none := by
  apply tryRule_none_of_seqMatch
  rw [hpat]
  apply seqMatch_elem_nil
  simp only [elemMatches]
  rw [if_neg]
  intro hpre
  simp only [List.isPrefixOf, Bool.and_eq_true, beq_iff_eq] at hpre
  exact hc hpre.1.symm

theorem elemMatches_lit_cons (d : Char) (w : List Char) :
    elemMatches (.lit [d]) (d :: w) = [([d], w)] := by
  simp [elemMatches, List.isPrefixOf]

theorem tryRule_runNl_short (r : RRule) (lo : Nat)
    (hpat : r.pat = [.cls (fun c => c == '\n') lo none])
    (q : Option Char) (w : List Char)
    (hw : (w.takeWhile (fun c => c == '\n')).length < lo) :
    tryRule r q w = none := by
  apply tryRule_none_of_seqMatch
  rw [hpat]
  exact seqMatch_elem_nil _ _ _ (elemMatches_cls_short _ lo none w hw)

theorem getLastD_replicate_pos (i : Nat) (a d : Char) :
    (List.replicate (i + 1) a).getLastD d = a := by
  rw [List.replicate_succ']
  exact List.getLastD_concat ..

theorem tryRule_runNl_match (r : RRule) (lo : Nat) (out : List Char)
    (hpat : r.pat = [.cls (fun c => c == '\n') lo none])
    (hprev : ∀ q, r.prevCond q = true) (hemit : ∀ ms, r.emit ms = out)
    (q : Option Char) (i : Nat) (v : List Char) (hilo : lo ≤ i) (hlo : 1 ≤ lo)
    (hv : ∀ c, v.head? = some c → (c == '\n') = false) :
    tryRule r q (List.replicate i '\n' ++ v) = some (out, List.replicate i '\n', v) := by
  have htw := (takeWhile_append_sat (fun c => c == '\n') (List.replicate i '\n') v
    (fun c hc => by simp [List.eq_of_mem_replicate hc]) hv).1
  have htake : (List.replicate i '\n' ++ v).take i = List.replicate i '\n' :=
    List.take_left' (by simp)
  have hdrop : (List.replicate i '\n' ++ v).drop i = v :=
    List.drop_left' (by simp)
  have hhead := elemMatches_cls_head (fun c => c == '\n') lo none
    (List.replicate i '\n' ++ v) i (by rw [htw, List.length_replicate]) hilo
  have hseq : seqMatch r.pat (List.replicate i '\n' ++ v) =
      some ([List.replicate i '\n'], v) := by
    rw [hpat]
    have := seqMatch_cons_first (.cls (fun c => c == '\n') lo none) []
      (List.replicate i '\n' ++ v) (List.replicate i '\n') v [] v
      (by rw [hhead, htake, hdrop]) rfl
    simpa using this
  unfold tryRule
  rw [hprev q, hseq]
  simp only [if_true]
  rw [if_neg, hemit]
  · simp
  · simp only [List.flatten, List.append_nil, List.isEmpty_eq_true]
    intro hnil
    have := congrArg List.length hnil
    simp [List.length_replicate] at this
    omega

/-! ### traversal for the newline-run rules -/

theorem runRule_runNl_run (r : RRule) (lo : Nat) (out : List Char)
    (hpat : r.pat = [.cls (fun c => c == '\n') lo none])
    (hprev : ∀ q, r.prevCond q = true) (hemit : ∀ ms, r.emit ms = out)
    (hlo : 1 ≤ lo) (i : Nat) (v : List Char) (q : Option Char) (F : Nat)
    (hi : 1 ≤ i)
    (hv : ∀ c, v.head? = some c → (c == '\n') = false)
    (hF : (List.replicate i '\n' ++ v).length ≤ F) :
    ∃ q2, runRule r F q (List.replicate i '\n' ++ v) =
      (if i < lo then List.replicate i '\n' else out) ++ runRule r v.length q2 v := by
  by_cases hcase : i < lo
  · rw [if_pos hcase]
    apply runRule_skip_chunk_full r (List.replicate i '\n') v F q
      (by simp at hF ⊢; omega)
    intro q2 x1 c x2 hx
    have hc : c = '\n' := List.eq_of_mem_replicate (by rw [hx]; simp)
    have hx2 : x2 = List.replicate x2.length '\n' := by
      apply List.eq_replicate_of_mem
      intro b hb
      exact List.eq_of_mem_replicate (by rw [hx]; simp [hb])
    have hlen : x2.length + 1 ≤ i := by
      have := congrArg List.length hx
      simp [List.length_append] at this
      omega
    subst hc
    apply tryRule_runNl_short r lo hpat
    have hform : '\n' :: (x2 ++ v) = List.replicate (x2.length + 1) '\n' ++ v := by
      rw [List.replicate_succ]
      rw [hx2]
      simp
    rw [hform]
    rw [(takeWhile_append_sat (fun c => c == '\n') (List.replicate (x2.length + 1) '\n') v
      (fun c hc => by simp [List.eq_of_mem_replicate hc]) hv).1]
    simp only [List.length_replicate]
    omega
  · rw [if_neg hcase]
    obtain ⟨i2, rfl⟩ : ∃ i2, i = i2 + 1 := ⟨i - 1, by omega⟩
    have hconv : List.replicate (i2 + 1) '\n' ++ v = '\n' :: (List.replicate i2 '\n' ++ v) := by
      rw [List.replicate_succ]
      rfl
    have hsome := tryRule_runNl_match r lo out hpat hprev hemit q (i2 + 1) v
      (by omega) hlo hv
    rw [hconv] at hsome ⊢
    refine ⟨some '\n', ?_⟩
    rw [runRule_step_some r F q '\n' (List.replicate i2 '\n' ++ v) out
      (List.replicate (i2 + 1) '\n') v (by simp at hF ⊢; omega) hsome]
    rw [getLastD_replicate_pos]

theorem runRule_skip_noNl_seg (r : RRule) (lo : Nat)
    (hpat : r.pat = [.cls (fun c => c == '\n') lo none]) (hlo : 1 ≤ lo)
    (x t : List Char) (q : Option Char) (F : Nat)
    (hx : ∀ c ∈ x, c ≠ '\n') (hF : (x ++ t).length ≤ F) :
    ∃ q2, runRule r F q (x ++ t) = x ++ runRule r t.length q2 t := by
  apply runRule_skip_chunk_full r x t F q (by simpa using hF)
  intro q2 x1 c x2 hxeq
  have hc : c ≠ '\n' := hx c (by rw [hxeq]; simp)
  exact tryRule_none_cls_head_fail r _ lo none [] hpat q2 c _ (by simp [hc]) hlo

theorem runRule_runNl_shape (r : RRule) (lo : Nat) (out : List Char)
    (hpat : r.pat = [.cls (fun c => c == '\n') lo none])
    (hprev : ∀ q, r.prevCond q = true) (hemit : ∀ ms, r.emit ms = out)
    (hlo : 1 ≤ lo)
    (X Y Z : List Char) (i j : Nat) (q : Option Char) (F : Nat)
    (hX : ∀ c ∈ X, c ≠ '\n') (hY : ∀ c ∈ Y, c ≠ '\n') (hZ : ∀ c ∈ Z, c ≠ '\n')
    (hYne : Y ≠ []) (hi : 1 ≤ i) (hj : 1 ≤ j)
    (hF : (X ++ (List.replicate i '\n' ++ (Y ++ (List.replicate j '\n' ++ Z)))).length ≤ F) :
    runRule r F q (X ++ (List.replicate i '\n' ++ (Y ++ (List.replicate j '\n' ++ Z)))) =
      X ++ ((if i < lo then List.replicate i '\n' else out) ++
        (Y ++ ((if j < lo then List.replicate j '\n' else out) ++ Z))) := by
  obtain ⟨y0, Y2, rfl⟩ : ∃ y0 Y2, Y = y0 :: Y2 := by
    cases Y with
    | nil => exact absurd rfl hYne
    | cons a as => exact ⟨a, as, rfl⟩
  obtain ⟨qa, hqa⟩ := runRule_skip_noNl_seg r lo hpat hlo X
    (List.replicate i '\n' ++ (y0 :: Y2 ++ (List.replicate j '\n' ++ Z))) q F hX hF
  rw [hqa]
  obtain ⟨qb, hqb⟩ := runRule_runNl_run r lo out hpat hprev hemit hlo i
    (y0 :: Y2 ++ (List.replicate j '\n' ++ Z)) qa _ hi
    (by intro c hc; simp at hc; subst hc; simp [hY y0 (by simp)])
    (Nat.le_refl _)
  rw [hqb]
  obtain ⟨qc, hqc⟩ := runRule_skip_noNl_seg r lo hpat hlo (y0 :: Y2)
    (List.replicate j '\n' ++ Z) qb _ hY (Nat.le_refl _)
  rw [hqc]
  obtain ⟨qd, hqd⟩ := runRule_runNl_run r lo out hpat hprev hemit hlo j Z qc _ hj
    (by intro c hc; cases Z with
        | nil => simp at hc
        | cons z0 Z2 =>
          simp at hc
          subst hc
          simp [hZ z0 (by simp)])
    (Nat.le_refl _)
  rw [hqd]
  have hfin : runRule r Z.length qd Z = Z := by
    obtain ⟨qe, hqe⟩ := runRule_skip_noNl_seg r lo hpat hlo Z [] qd Z.length hZ (by simp)
    simp only [List.append_nil] at hqe
    rw [hqe, runRule_nil]
    simp
  rw [hfin]

/-! ### the heading-before spacing rule -/

theorem tryRule_rRule2_none_nonl (q : Option Char) (c : Char) (w : List Char)
    (hw : w.head? ≠ some '\n') : tryRule rRule2 q (c :: w) = none := by
  cases htr : tryRule rRule2 q (c :: w) with
  | none => rfl
  | some trip =>
    exfalso
    obtain ⟨em, m, rest⟩ := trip
    obtain ⟨ms, hms, -, -, -⟩ := tryRule_some_elim _ _ _ em m rest htr
    rw [show rRule2.pat = [RElem.cls (fun c => c != '\n') 1 (some 1), RElem.lit ['\n'],
      RElem.cls (fun c => c == '#') 1 (some 6), RElem.cls isJsWs 1 (some 1)] from rfl] at hms
    obtain ⟨m1, r1, ms2, hm1, hs2, -⟩ := seqMatch_cons_elim _ _ _ _ _ hms
    obtain ⟨m2, r2, ms3, hm2, hs3, -⟩ := seqMatch_cons_elim _ _ _ _ _ hs2
    obtain ⟨hm1p, hm1lo, hm1eq, hm1hi⟩ := elemMatches_cls_elim _ _ _ _ _ _ hm1
    obtain ⟨hm2l, hm2eq⟩ := elemMatches_lit_elim _ _ _ _ hm2
    have hm1len : m1.length = 1 := Nat.le_antisymm (hm1hi 1 rfl) hm1lo
    obtain ⟨c1, rfl⟩ : ∃ c1, m1 = [c1] := by
      cases m1 with
      | nil => simp at hm1len
      | cons a as =>
        cases as with
        | nil => exact ⟨a, rfl⟩
        | cons b bs => simp at hm1len
    simp only [List.cons_append, List.nil_append, List.cons.injEq] at hm1eq
    obtain ⟨rfl, rfl⟩ := hm1eq
    subst hm2l
    simp only [List.cons_append, List.nil_append] at hm2eq
    exact hw (by rw [← hm2eq]; rfl)

theorem tryRule_rRule2_none_nohash (q : Option Char) (c : Char) (w : List Char)
    (hw : w.head? ≠ some '#') : tryRule rRule2 q (c :: '\n' :: w) = none := by
  cases htr : tryRule rRule2 q (c :: '\n' :: w) with
  | none => rfl
  | some trip =>
    exfalso
    obtain ⟨em, m, rest⟩ := trip
    obtain ⟨ms, hms, -, -, -⟩ := tryRule_some_elim _ _ _ em m rest htr
    rw [show rRule2.pat = [RElem.cls (fun c => c != '\n') 1 (some 1), RElem.lit ['\n'],
      RElem.cls (fun c => c == '#') 1 (some 6), RElem.cls isJsWs 1 (some 1)] from rfl] at hms
    obtain ⟨m1, r1, ms2, hm1, hs2, -⟩ := seqMatch_cons_elim _ _ _ _ _ hms
    obtain ⟨m2, r2, ms3, hm2, hs3, -⟩ := seqMatch_cons_elim _ _ _ _ _ hs2
    obtain ⟨m3, r3, ms4, hm3, hs4, -⟩ := seqMatch_cons_elim _ _ _ _ _ hs3
    obtain ⟨hm1p, hm1lo, hm1eq, hm1hi⟩ := elemMatches_cls_elim _ _ _ _ _ _ hm1
    obtain ⟨hm2l, hm2eq⟩ := elemMatches_lit_elim _ _ _ _ hm2
    obtain ⟨hm3p, hm3lo, hm3eq, -⟩ := elemMatches_cls_elim _ _ _ _ _ _ hm3
    have hm1len : m1.length = 1 := Nat.le_antisymm (hm1hi 1 rfl) hm1lo
    obtain ⟨c1, rfl⟩ : ∃ c1, m1 = [c1] := by
      cases m1 with
      | nil => simp at hm1len
      | cons a as =>
        cases as with
        | nil => exact ⟨a, rfl⟩
        | cons b bs => simp at hm1len
    simp only [List.cons_append, List.nil_append, List.cons.injEq] at hm1eq
    obtain ⟨rfl, rfl⟩ := hm1eq
    subst hm2l
    simp only [List.cons_append, List.nil_append, List.cons.injEq] at hm2eq
    obtain ⟨-, rfl⟩ := hm2eq
    cases m3 with
    | nil => simp at hm3lo
    | cons d ds =>
      have hd : (d == '#') = true := hm3p d (by simp)
      rw [beq_iff_eq] at hd
      subst hd
      apply hw
      rw [← hm3eq]
      rfl

theorem tryRule_rRule2_match (q : Option Char) (al : Char) (hal : al ≠ '\n')
    (k : Nat) (hk1 : 1 ≤ k) (hk6 : k ≤ 6) (w : List Char) :
    tryRule rRule2 q (al :: '\n' :: (List.replicate k '#' ++ ' ' :: w)) =
      some (al :: '\n' :: '\n' :: (List.replicate k '#' ++ [' ']),
            al :: '\n' :: (List.replicate k '#' ++ [' ']), w) := by
  have htw1 : ((al :: '\n' :: (List.replicate k '#' ++ ' ' :: w)).takeWhile
      (fun c => c != '\n')).length = 1 := by
    rw [List.takeWhile_cons]
    simp [hal]
  have he1 := elemMatches_cls_head (fun c => c != '\n') 1 (some 1)
    (al :: '\n' :: (List.replicate k '#' ++ ' ' :: w)) 1
    (by
      show min ((al :: '\n' :: (List.replicate k '#' ++ ' ' :: w)).takeWhile
        (fun c => c != '\n')).length 1 = 1
      rw [htw1]
      simp) (Nat.le_refl 1)
  have htw3 : ((List.replicate k '#' ++ ' ' :: w).takeWhile (fun c => c == '#')).length = k := by
    rw [(takeWhile_append_sat (fun c => c == '#') (List.replicate k '#') (' ' :: w)
      (fun c hc => by simp [List.eq_of_mem_replicate hc])
      (by intro rr hrr; simp at hrr; subst hrr; rfl)).1]
    simp
  have he3 := elemMatches_cls_head (fun c => c == '#') 1 (some 6)
    (List.replicate k '#' ++ ' ' :: w) k
    (by
      show min ((List.replicate k '#' ++ ' ' :: w).takeWhile (fun c => c == '#')).length 6 = k
      rw [htw3]
      omega) hk1
  have htake3 : (List.replicate k '#' ++ ' ' :: w).take k = List.replicate k '#' :=
    List.take_left' (by simp)
  have hdrop3 : (List.replicate k '#' ++ ' ' :: w).drop k = ' ' :: w :=
    List.drop_left' (by simp)
  have htw4 : 1 ≤ ((' ' :: w).takeWhile isJsWs).length := by
    rw [List.takeWhile_cons]
    simp [show isJsWs ' ' = true from rfl]
  have he4 := elemMatches_cls_head isJsWs 1 (some 1) (' ' :: w) 1
    (by
      show min ((' ' :: w).takeWhile isJsWs).length 1 = 1
      omega) (Nat.le_refl 1)
  have s4 : seqMatch [] w = some ([], w) := rfl
  have s3 : seqMatch [RElem.cls isJsWs 1 (some 1)] (' ' :: w) = some ([[' ']], w) := by
    have := seqMatch_cons_first (.cls isJsWs 1 (some 1)) [] (' ' :: w)
      ((' ' :: w).take 1) ((' ' :: w).drop 1) [] w (by rw [he4]) (by simp [s4])
    simpa using this
  have s2 : seqMatch [RElem.cls (fun c => c == '#') 1 (some 6), RElem.cls isJsWs 1 (some 1)]
      (List.replicate k '#' ++ ' ' :: w) = some ([List.replicate k '#', [' ']], w) := by
    have := seqMatch_cons_first (.cls (fun c => c == '#') 1 (some 6))
      [RElem.cls isJsWs 1 (some 1)] (List.replicate k '#' ++ ' ' :: w)
      ((List.replicate k '#' ++ ' ' :: w).take k) ((List.replicate k '#' ++ ' ' :: w).drop k)
      [[' ']] w (by rw [he3]) (by rw [hdrop3]; exact s3)
    rw [htake3] at this
    exact this
  have s1 : seqMatch [RElem.lit ['\n'], RElem.cls (fun c => c == '#') 1 (some 6),
      RElem.cls isJsWs 1 (some 1)] ('\n' :: (List.replicate k '#' ++ ' ' :: w)) =
      some ([['\n'], List.replicate k '#', [' ']], w) := by
    apply seqMatch_cons_first _ _ _ ['\n'] (List.replicate k '#' ++ ' ' :: w) _ w
    · rw [elemMatches_lit_cons]
      rfl
    · exact s2
  have s0 : seqMatch rRule2.pat (al :: '\n' :: (List.replicate k '#' ++ ' ' :: w)) =
      some ([[al], ['\n'], List.replicate k '#', [' ']], w) := by
    rw [show rRule2.pat = [RElem.cls (fun c => c != '\n') 1 (some 1), RElem.lit ['\n'],
      RElem.cls (fun c => c == '#') 1 (some 6), RElem.cls isJsWs 1 (some 1)] from rfl]
    have := seqMatch_cons_first (.cls (fun c => c != '\n') 1 (some 1))
      [RElem.lit ['\n'], RElem.cls (fun c => c == '#') 1 (some 6),
        RElem.cls isJsWs 1 (some 1)]
      (al :: '\n' :: (List.replicate k '#' ++ ' ' :: w))
      ((al :: '\n' :: (List.replicate k '#' ++ ' ' :: w)).take 1)
      ((al :: '\n' :: (List.replicate k '#' ++ ' ' :: w)).drop 1)
      [['\n'], List.replicate k '#', [' ']] w (by rw [he1]) (by simp; exact s1)
    simpa using this
  unfold tryRule
  rw [show rRule2.prevCond q = true from rfl, s0]
  simp only [if_true]
  rw [if_neg (by simp)]
  simp only [List.flatten]
  simp [rRule2]

theorem runRule_rRule2_skip_seg (x t : List Char) (q : Option Char) (F : Nat)
    (hx : ∀ c ∈ x, c ≠ '\n')
    (ht : ∀ (q2 : Option Char) (c : Char), c ≠ '\n' → tryRule rRule2 q2 (c :: t) = none)
    (hF : (x ++ t).length ≤ F) :
    ∃ q2, runRule rRule2 F q (x ++ t) = x ++ runRule rRule2 t.length q2 t := by
  apply runRule_skip_chunk_full rRule2 x t F q (by simpa using hF)
  intro q2 x1 c x2 hxeq
  have hc : c ≠ '\n' := hx c (by rw [hxeq]; simp)
  cases x2 with
  | nil => simpa using ht q2 c hc
  | cons d ds =>
    have hd : d ≠ '\n' := hx d (by rw [hxeq]; simp)
    exact tryRule_rRule2_none_nonl q2 c _ (by simp [hd])

theorem runRule_rRule2_skip_nlrun (p : Nat) (t : List Char) (q : Option Char) (F : Nat)
    (hF : (List.replicate p '\n' ++ t).length ≤ F) :
    ∃ q2, runRule rRule2 F q (List.replicate p '\n' ++ t) =
      List.replicate p '\n' ++ runRule rRule2 t.length q2 t := by
  apply runRule_skip_chunk_full rRule2 _ t F q (by simpa using hF)
  intro q2 x1 c x2 hxeq
  have hc : c = '\n' := List.eq_of_mem_replicate (by rw [hxeq]; simp)
  subst hc
  exact tryRule_none_cls_head_fail rRule2 (fun c => c != '\n') 1 (some 1) _ rfl q2 '\n' _
    (by simp) (Nat.le_refl 1)

theorem runRule_rRule2_fin (x : List Char) (q : Option Char)
    (hx : ∀ c ∈ x, c ≠ '\n') :
    runRule rRule2 x.length q x = x := by
  obtain ⟨q2, hq2⟩ := runRule_rRule2_skip_seg x [] q x.length hx
    (fun q2 c hc => tryRule_rRule2_none_nonl q2 c [] (by simp)) (by simp)
  simp only [List.append_nil] at hq2
  rw [hq2, runRule_nil]
  simp

theorem runRule_rRule2_shape (A h B : List Char) (k i1 j1 : Nat) (q : Option Char) (F : Nat)
    (hk1 : 1 ≤ k) (hk6 : k ≤ 6)
    (hA : ∀ c ∈ A, c ≠ '\n') (hAne : A ≠ [])
    (hh : ∀ c ∈ h, c ≠ '\n')
    (hB : ∀ c ∈ B, c ≠ '\n') (hB0 : ∀ x, B.head? = some x → x ≠ '#')
    (hi1 : i1 = 1 ∨ i1 = 2) (hj1 : j1 = 1 ∨ j1 = 2)
    (hF : (A ++ (List.replicate i1 '\n' ++ ((List.replicate k '#' ++ ' ' :: h) ++
      (List.replicate j1 '\n' ++ B)))).length ≤ F) :
    runRule rRule2 F q (A ++ (List.replicate i1 '\n' ++
        ((List.replicate k '#' ++ ' ' :: h) ++ (List.replicate j1 '\n' ++ B)))) =
      A ++ ('\n' :: '\n' :: ((List.replicate k '#' ++ ' ' :: h) ++
        (List.replicate j1 '\n' ++ B))) := by
  have hTnone : ∀ (q2 : Option Char) (c : Char), c ≠ '\n' →
      tryRule rRule2 q2 (c :: (List.replicate j1 '\n' ++ B)) = none := by
    intro q2 c hc
    rcases hj1 with rfl | rfl
    · have hform : List.replicate 1 '\n' ++ B = '\n' :: B := by simp
      rw [hform]
      apply tryRule_rRule2_none_nohash
      intro hcon
      cases B with
      | nil => simp at hcon
      | cons b0 B2 =>
        simp only [List.head?_cons, Option.some.injEq] at hcon
        exact hB0 b0 (by simp) hcon
    · have hform : List.replicate 2 '\n' ++ B = '\n' :: '\n' :: B := by simp [List.replicate_succ]
      rw [hform]
      exact tryRule_rRule2_none_nohash q2 c ('\n' :: B) (by simp)
  have hBfin : ∀ (q2 : Option Char), runRule rRule2 B.length q2 B = B :=
    fun q2 => runRule_rRule2_fin B q2 hB
  have hTail : ∀ (q2 : Option Char),
      runRule rRule2 (List.replicate j1 '\n' ++ B).length q2 (List.replicate j1 '\n' ++ B) =
        List.replicate j1 '\n' ++ B := by
    intro q2
    obtain ⟨q3, hq3⟩ := runRule_rRule2_skip_nlrun j1 B q2 _ (Nat.le_refl _)
    rw [hq3, hBfin q3]
  rcases hi1 with rfl | rfl
  · obtain ⟨A2, al, rfl⟩ : ∃ A2 al, A = A2 ++ [al] := by
      rcases List.eq_nil_or_concat A with h0 | ⟨A2, al, h0⟩
      · exact absurd h0 hAne
      · exact ⟨A2, al, by rw [h0]; simp [List.concat_eq_append]⟩
    have hal : al ≠ '\n' := hA al (by simp)
    have hassoc : (A2 ++ [al]) ++ (List.replicate 1 '\n' ++
        ((List.replicate k '#' ++ ' ' :: h) ++ (List.replicate j1 '\n' ++ B))) =
        A2 ++ (al :: '\n' :: (List.replicate k '#' ++ ' ' ::
          (h ++ (List.replicate j1 '\n' ++ B)))) := by
      simp [List.append_assoc]
    rw [hassoc] at hF ⊢
    obtain ⟨qa, hqa⟩ := runRule_rRule2_skip_seg A2
      (al :: '\n' :: (List.replicate k '#' ++ ' ' :: (h ++ (List.replicate j1 '\n' ++ B))))
      q F (fun c hc => hA c (by simp [hc]))
      (fun q2 c hc => tryRule_rRule2_none_nonl q2 c _ (by simp [hal]))
      hF
    rw [hqa]
    have hsome := tryRule_rRule2_match qa al hal k hk1 hk6
      (h ++ (List.replicate j1 '\n' ++ B))
    rw [runRule_step_some rRule2 _ qa al
      ('\n' :: (List.replicate k '#' ++ ' ' :: (h ++ (List.replicate j1 '\n' ++ B))))
      (al :: '\n' :: '\n' :: (List.replicate k '#' ++ [' ']))
      (al :: '\n' :: (List.replicate k '#' ++ [' ']))
      (h ++ (List.replicate j1 '\n' ++ B))
      (by simp) hsome]
    obtain ⟨qb, hqb⟩ := runRule_rRule2_skip_seg h (List.replicate j1 '\n' ++ B)
      (some ((al :: '\n' :: (List.replicate k '#' ++ [' '])).getLastD al)) _
      hh hTnone (Nat.le_refl _)
    rw [hqb, hTail qb]
    simp [List.append_assoc]
  · have hassoc : A ++ (List.replicate 2 '\n' ++
        ((List.replicate k '#' ++ ' ' :: h) ++ (List.replicate j1 '\n' ++ B))) =
        A ++ ('\n' :: '\n' :: ((List.replicate k '#' ++ ' ' :: h) ++
          (List.replicate j1 '\n' ++ B))) := by
      simp [List.replicate_succ]
    rw [hassoc] at hF ⊢
    obtain ⟨qa, hqa⟩ := runRule_rRule2_skip_seg A
      ('\n' :: '\n' :: ((List.replicate k '#' ++ ' ' :: h) ++ (List.replicate j1 '\n' ++ B)))
      q F hA
      (fun q2 c hc => tryRule_rRule2_none_nohash q2 c _ (by simp))
      hF
    rw [hqa]
    rw [runRule_step_none rRule2 _ qa '\n' _ (by simp)
      (tryRule_none_cls_head_fail rRule2 (fun c => c != '\n') 1 (some 1) _ rfl qa '\n' _
        (by simp) (Nat.le_refl 1))]
    rw [runRule_step_none rRule2 _ (some '\n') '\n' _ (by simp)
      (tryRule_none_cls_head_fail rRule2 (fun c => c != '\n') 1 (some 1) _ rfl (some '\n') '\n' _
        (by simp) (Nat.le_refl 1))]
    obtain ⟨qb, hqb⟩ := runRule_rRule2_skip_seg (List.replicate k '#' ++ ' ' :: h)
      (List.replicate j1 '\n' ++ B) (some '\n') _
      (by
        intro c hc
        rcases List.mem_append.mp hc with hc2 | hc2
        · rw [List.eq_of_mem_replicate hc2]; decide
        · rcases List.mem_cons.mp hc2 with rfl | hc3
          · decide
          · exact hh c hc3)
      hTnone (Nat.le_refl _)
    rw [hqb, hTail qb]

/-! ### the heading-after spacing rule -/

theorem tryRule_rRule3_none_nlnl (q : Option Char) (u v : List Char)
    (hu : ∀ c ∈ u, c ≠ '\n') : tryRule rRule3 q (u ++ '\n' :: '\n' :: v) = none := by
  cases htr : tryRule rRule3 q (u ++ '\n' :: '\n' :: v) with
  | none => rfl
  | some trip =>
    exfalso
    obtain ⟨em, m, rest⟩ := trip
    obtain ⟨ms, hms, -, -, -⟩ := tryRule_some_elim _ _ _ em m rest htr
    rw [show rRule3.pat = [RElem.cls (fun c => c == '#') 1 (some 6),
      RElem.cls (fun c => c != '\n') 1 none, RElem.lit ['\n'],
      RElem.cls (fun c => c != '\n' && c != '#') 1 (some 1)] from rfl] at hms
    obtain ⟨m1, r1, ms2, hm1, hs2, -⟩ := seqMatch_cons_elim _ _ _ _ _ hms
    obtain ⟨m2, r2, ms3, hm2, hs3, -⟩ := seqMatch_cons_elim _ _ _ _ _ hs2
    obtain ⟨m3, r3, ms4, hm3, hs4, -⟩ := seqMatch_cons_elim _ _ _ _ _ hs3
    obtain ⟨m4, r4, ms5, hm4, hs5, -⟩ := seqMatch_cons_elim _ _ _ _ _ hs4
    obtain ⟨hm1p, hm1lo, hm1eq, -⟩ := elemMatches_cls_elim _ _ _ _ _ _ hm1
    obtain ⟨hm2p, hm2lo, hm2eq, -⟩ := elemMatches_cls_elim _ _ _ _ _ _ hm2
    obtain ⟨hm3l, hm3eq⟩ := elemMatches_lit_elim _ _ _ _ hm3
    obtain ⟨hm4p, hm4lo, hm4eq, -⟩ := elemMatches_cls_elim _ _ _ _ _ _ hm4
    subst hm3l
    have hjoin : (m1 ++ m2) ++ '\n' :: r3 = u ++ '\n' :: ('\n' :: v) := by
      rw [← hm1eq, ← hm2eq, ← hm3eq]
      simp [List.append_assoc]
    have hA12 : ∀ c ∈ m1 ++ m2, c ≠ '\n' := by
      intro c hc
      rcases List.mem_append.mp hc with hc2 | hc2
      · have := hm1p c hc2
        rw [beq_iff_eq] at this
        subst this
        decide
      · have := hm2p c hc2
        simp at this
        exact this
    obtain ⟨-, hr3⟩ := noNL_append_nl_inj (m1 ++ m2) r3 u ('\n' :: v) hA12 hu hjoin
    cases m4 with
    | nil => simp at hm4lo
    | cons d ds =>
      have hd : (d != '\n' && d != '#') = true := hm4p d (by simp)
      have hdval : d = '\n' := by
        have := hm4eq
        rw [hr3] at this
        simp only [List.cons_append, List.cons.injEq] at this
        exact this.1
      rw [hdval] at hd
      simp at hd

theorem tryRule_rRule3_none_nonl (q : Option Char) (w : List Char)
    (hw : ∀ c ∈ w, c ≠ '\n') : tryRule rRule3 q w = none := by
  cases htr : tryRule rRule3 q w with
  | none => rfl
  | some trip =>
    exfalso
    obtain ⟨em, m, rest⟩ := trip
    obtain ⟨ms, hms, -, -, -⟩ := tryRule_some_elim _ _ _ em m rest htr
    rw [show rRule3.pat = [RElem.cls (fun c => c == '#') 1 (some 6),
      RElem.cls (fun c => c != '\n') 1 none, RElem.lit ['\n'],
      RElem.cls (fun c => c != '\n' && c != '#') 1 (some 1)] from rfl] at hms
    obtain ⟨m1, r1, ms2, hm1, hs2, -⟩ := seqMatch_cons_elim _ _ _ _ _ hms
    obtain ⟨m2, r2, ms3, hm2, hs3, -⟩ := seqMatch_cons_elim _ _ _ _ _ hs2
    obtain ⟨m3, r3, ms4, hm3, hs4, -⟩ := seqMatch_cons_elim _ _ _ _ _ hs3
    obtain ⟨-, -, hm1eq, -⟩ := elemMatches_cls_elim _ _ _ _ _ _ hm1
    obtain ⟨-, -, hm2eq, -⟩ := elemMatches_cls_elim _ _ _ _ _ _ hm2
    obtain ⟨hm3l, hm3eq⟩ := elemMatches_lit_elim _ _ _ _ hm3
    subst hm3l
    apply hw '\n' _ rfl
    rw [← hm1eq, ← hm2eq, ← hm3eq]
    simp

theorem tryRule_rRule3_match (q : Option Char) (k : Nat) (hk1 : 1 ≤ k) (hk6 : k ≤ 6)
    (h : List Char) (hh : ∀ c ∈ h, c ≠ '\n') (b0 : Char) (hb0n : b0 ≠ '\n')
    (hb0h : b0 ≠ '#') (b2 : List Char) :
    tryRule rRule3 q (List.replicate k '#' ++ ' ' :: (h ++ '\n' :: b0 :: b2)) =
      some (List.replicate k '#' ++ (' ' :: h) ++ '\n' :: '\n' :: [b0],
            List.replicate k '#' ++ (' ' :: h) ++ '\n' :: [b0], b2) := by
  have htw1 : ((List.replicate k '#' ++ ' ' :: (h ++ '\n' :: b0 :: b2)).takeWhile
      (fun c => c == '#')).length = k := by
    rw [(takeWhile_append_sat (fun c => c == '#') (List.replicate k '#') _
      (fun c hc => by simp [List.eq_of_mem_replicate hc])
      (by intro rr hrr; simp at hrr; subst hrr; rfl)).1]
    simp
  have he1 := elemMatches_cls_head (fun c => c == '#') 1 (some 6)
    (List.replicate k '#' ++ ' ' :: (h ++ '\n' :: b0 :: b2)) k
    (by
      show min ((List.replicate k '#' ++ ' ' :: (h ++ '\n' :: b0 :: b2)).takeWhile
        (fun c => c == '#')).length 6 = k
      rw [htw1]
      omega) hk1
  have htake1 : (List.replicate k '#' ++ ' ' :: (h ++ '\n' :: b0 :: b2)).take k =
      List.replicate k '#' := List.take_left' (by simp)
  have hdrop1 : (List.replicate k '#' ++ ' ' :: (h ++ '\n' :: b0 :: b2)).drop k =
      ' ' :: (h ++ '\n' :: b0 :: b2) := List.drop_left' (by simp)
  have htw2 : ((' ' :: (h ++ '\n' :: b0 :: b2)).takeWhile (fun c => c != '\n')) =
      ' ' :: h := by
    rw [List.takeWhile_cons]
    simp only [show ((' ' : Char) != '\n') = true from rfl, if_true]
    rw [(takeWhile_append_sat (fun c => c != '\n') h ('\n' :: b0 :: b2)
      (fun c hc => by simp [hh c hc])
      (by intro rr hrr; simp at hrr; subst hrr; simp)).1]
  have he2 := elemMatches_cls_head (fun c => c != '\n') 1 none
    (' ' :: (h ++ '\n' :: b0 :: b2)) (h.length + 1)
    (by
      show ((' ' :: (h ++ '\n' :: b0 :: b2)).takeWhile (fun c => c != '\n')).length =
        h.length + 1
      rw [htw2]
      simp) (by omega)
  have htake2 : (' ' :: (h ++ '\n' :: b0 :: b2)).take (h.length + 1) = ' ' :: h := by
    rw [show ' ' :: (h ++ '\n' :: b0 :: b2) = (' ' :: h) ++ ('\n' :: b0 :: b2) from by simp]
    exact List.take_left' (by simp)
  have hdrop2 : (' ' :: (h ++ '\n' :: b0 :: b2)).drop (h.length + 1) = '\n' :: b0 :: b2 := by
    rw [show ' ' :: (h ++ '\n' :: b0 :: b2) = (' ' :: h) ++ ('\n' :: b0 :: b2) from by simp]
    exact List.drop_left' (by simp)
  have hb0sat : (b0 != '\n' && b0 != '#') = true := by simp [hb0n, hb0h]
  have htw4 : 1 ≤ ((b0 :: b2).takeWhile (fun c => c != '\n' && c != '#')).length := by
    rw [List.takeWhile_cons]
    simp [hb0sat]
  have he4 := elemMatches_cls_head (fun c => c != '\n' && c != '#') 1 (some 1)
    (b0 :: b2) 1
    (by
      show min ((b0 :: b2).takeWhile (fun c => c != '\n' && c != '#')).length 1 = 1
      omega) (Nat.le_refl 1)
  have s5 : seqMatch [] b2 = some ([], b2) := rfl
  have s4 : seqMatch [RElem.cls (fun c => c != '\n' && c != '#') 1 (some 1)] (b0 :: b2) =
      some ([[b0]], b2) := by
    have := seqMatch_cons_first (.cls (fun c => c != '\n' && c != '#') 1 (some 1)) []
      (b0 :: b2) ((b0 :: b2).take 1) ((b0 :: b2).drop 1) [] b2 (by rw [he4]) (by simp [s5])
    simpa using this
  have s3 : seqMatch [RElem.lit ['\n'],
      RElem.cls (fun c => c != '\n' && c != '#') 1 (some 1)] ('\n' :: b0 :: b2) =
      some ([['\n'], [b0]], b2) := by
    apply seqMatch_cons_first _ _ _ ['\n'] (b0 :: b2) _ b2
    · rw [elemMatches_lit_cons]
      rfl
    · exact s4
  have s2 : seqMatch [RElem.cls (fun c => c != '\n') 1 none, RElem.lit ['\n'],
      RElem.cls (fun c => c != '\n' && c != '#') 1 (some 1)]
      (' ' :: (h ++ '\n' :: b0 :: b2)) = some ([' ' :: h, ['\n'], [b0]], b2) := by
    have := seqMatch_cons_first (.cls (fun c => c != '\n') 1 none)
      [RElem.lit ['\n'], RElem.cls (fun c => c != '\n' && c != '#') 1 (some 1)]
      (' ' :: (h ++ '\n' :: b0 :: b2))
      ((' ' :: (h ++ '\n' :: b0 :: b2)).take (h.length + 1))
      ((' ' :: (h ++ '\n' :: b0 :: b2)).drop (h.length + 1))
      [['\n'], [b0]] b2 (by rw [he2]) (by rw [hdrop2]; exact s3)
    rw [htake2] at this
    exact this
  have s1 : seqMatch rRule3.pat (List.replicate k '#' ++ ' ' :: (h ++ '\n' :: b0 :: b2)) =
      some ([List.replicate k '#', ' ' :: h, ['\n'], [b0]], b2) := by
    rw [show rRule3.pat = [RElem.cls (fun c => c == '#') 1 (some 6),
      RElem.cls (fun c => c != '\n') 1 none, RElem.lit ['\n'],
      RElem.cls (fun c => c != '\n' && c != '#') 1 (some 1)] from rfl]
    have := seqMatch_cons_first (.cls (fun c => c == '#') 1 (some 6))
      [RElem.cls (fun c => c != '\n') 1 none, RElem.lit ['\n'],
        RElem.cls (fun c => c != '\n' && c != '#') 1 (some 1)]
      (List.replicate k '#' ++ ' ' :: (h ++ '\n' :: b0 :: b2))
      ((List.replicate k '#' ++ ' ' :: (h ++ '\n' :: b0 :: b2)).take k)
      ((List.replicate k '#' ++ ' ' :: (h ++ '\n' :: b0 :: b2)).drop k)
      [' ' :: h, ['\n'], [b0]] b2 (by rw [he1]) (by rw [hdrop1]; exact s2)
    rw [htake1] at this
    exact this
  unfold tryRule
  rw [show rRule3.prevCond q = true from rfl, s1]
  simp only [if_true]
  rw [if_neg (by simp)]
  simp only [List.flatten]
  simp [rRule3, List.append_assoc]

theorem runRule_rRule3_skip_seg (x v : List Char) (q : Option Char) (F : Nat)
    (hx : ∀ c ∈ x, c ≠ '\n')
    (hF : (x ++ ('\n' :: '\n' :: v)).length ≤ F) :
    ∃ q2, runRule rRule3 F q (x ++ ('\n' :: '\n' :: v)) =
      x ++ runRule rRule3 ('\n' :: '\n' :: v).length q2 ('\n' :: '\n' :: v) := by
  apply runRule_skip_chunk_full rRule3 x _ F q (by simpa using hF)
  intro q2 x1 c x2 hxeq
  have hcx : ∀ d ∈ c :: x2, d ≠ '\n' := by
    intro d hd
    apply hx d
    rw [hxeq]
    rcases List.mem_cons.mp hd with rfl | hd2
    · simp
    · simp [hd2]
  have := tryRule_rRule3_none_nlnl q2 (c :: x2) v hcx
  simpa using this

theorem runRule_rRule3_fin (x : List Char) (q : Option Char)
    (hx : ∀ c ∈ x, c ≠ '\n') :
    runRule rRule3 x.length q x = x := by
  obtain ⟨q2, hq2⟩ := runRule_skip_chunk_full rRule3 x [] x.length q (by simp)
    (by
      intro q3 x1 c x2 hxeq
      apply tryRule_rRule3_none_nonl
      intro d hd
      apply hx d
      rw [hxeq]
      simp at hd
      rcases hd with rfl | hd2
      · simp
      · simp [hd2])
  simp only [List.append_nil] at hq2
  rw [hq2, runRule_nil]
  simp

theorem runRule_rRule3_shape (A h B : List Char) (k j1 : Nat) (q : Option Char) (F : Nat)
    (hk1 : 1 ≤ k) (hk6 : k ≤ 6)
    (hA : ∀ c ∈ A, c ≠ '\n')
    (hh : ∀ c ∈ h, c ≠ '\n')
    (hB : ∀ c ∈ B, c ≠ '\n') (hBne : B ≠ []) (hB0 : ∀ x, B.head? = some x → x ≠ '#')
    (hj1 : j1 = 1 ∨ j1 = 2)
    (hF : (A ++ ('\n' :: '\n' :: ((List.replicate k '#' ++ ' ' :: h) ++
      (List.replicate j1 '\n' ++ B)))).length ≤ F) :
    runRule rRule3 F q (A ++ ('\n' :: '\n' :: ((List.replicate k '#' ++ ' ' :: h) ++
        (List.replicate j1 '\n' ++ B)))) =
      A ++ ('\n' :: '\n' :: ((List.replicate k '#' ++ ' ' :: h) ++
        ('\n' :: '\n' :: B))) := by
  obtain ⟨b0, b2, rfl⟩ : ∃ b0 b2, B = b0 :: b2 := by
    cases B with
    | nil => exact absurd rfl hBne
    | cons a as => exact ⟨a, as, rfl⟩
  have hb0n : b0 ≠ '\n' := hB b0 (by simp)
  have hb0h : b0 ≠ '#' := hB0 b0 (by simp)
  obtain ⟨qa, hqa⟩ := runRule_rRule3_skip_seg A
    ((List.replicate k '#' ++ ' ' :: h) ++ (List.replicate j1 '\n' ++ b0 :: b2)) q F hA hF
  rw [hqa]
  rw [runRule_step_none rRule3 _ qa '\n' _ (by simp)
    (tryRule_none_cls_head_fail rRule3 (fun c => c == '#') 1 (some 6) _ rfl qa '\n' _
      (by decide) (Nat.le_refl 1))]
  rw [runRule_step_none rRule3 _ (some '\n') '\n' _ (by simp)
    (tryRule_none_cls_head_fail rRule3 (fun c => c == '#') 1 (some 6) _ rfl (some '\n') '\n' _
      (by decide) (Nat.le_refl 1))]
  rcases hj1 with rfl | rfl
  · have hassoc : (List.replicate k '#' ++ ' ' :: h) ++ (List.replicate 1 '\n' ++ b0 :: b2) =
        List.replicate k '#' ++ ' ' :: (h ++ '\n' :: b0 :: b2) := by
      simp [List.append_assoc]
    rw [hassoc]
    obtain ⟨k2, rfl⟩ : ∃ k2, k = k2 + 1 := ⟨k - 1, by omega⟩
    have hconv : List.replicate (k2 + 1) '#' ++ ' ' :: (h ++ '\n' :: b0 :: b2) =
        '#' :: (List.replicate k2 '#' ++ ' ' :: (h ++ '\n' :: b0 :: b2)) := by
      rw [List.replicate_succ]
      rfl
    have hsome := tryRule_rRule3_match (some '\n') (k2 + 1) hk1 hk6 h hh b0 hb0n hb0h b2
    rw [hconv] at hsome ⊢
    rw [runRule_step_some rRule3 _ (some '\n') '#'
      (List.replicate k2 '#' ++ ' ' :: (h ++ '\n' :: b0 :: b2)) _ _ _ (by simp) hsome]
    rw [runRule_rRule3_fin b2 _ (fun c hc => hB c (by simp [hc]))]
    simp [List.append_assoc, List.replicate_succ]
  · have hassoc : (List.replicate k '#' ++ ' ' :: h) ++ (List.replicate 2 '\n' ++ b0 :: b2) =
        (List.replicate k '#' ++ ' ' :: h) ++ ('\n' :: '\n' :: (b0 :: b2)) := by
      simp [List.replicate_succ]
    rw [hassoc]
    obtain ⟨qb, hqb⟩ := runRule_rRule3_skip_seg (List.replicate k '#' ++ ' ' :: h)
      (b0 :: b2) (some '\n') _
      (by
        intro c hc
        rcases List.mem_append.mp hc with hc2 | hc2
        · rw [List.eq_of_mem_replicate hc2]; decide
        · rcases List.mem_cons.mp hc2 with rfl | hc3
          · decide
          · exact hh c hc3)
      (Nat.le_refl _)
    rw [hqb]
    rw [runRule_step_none rRule3 _ qb '\n' _ (by simp)
      (tryRule_none_cls_head_fail rRule3 (fun c => c == '#') 1 (some 6) _ rfl qb '\n' _
        (by decide) (Nat.le_refl 1))]
    rw [runRule_step_none rRule3 _ (some '\n') '\n' _ (by simp)
      (tryRule_none_cls_head_fail rRule3 (fun c => c == '#') 1 (some 6) _ rfl (some '\n') '\n' _
        (by decide) (Nat.le_refl 1))]
    have hfin := runRule_rRule3_fin (b0 :: b2) (some '\n') hB
    rw [hfin]

/-! ### the list spacing rule leaves the shape unchanged -/

theorem tryRule_rRule4_none_head (q : Option Char) (c : Char) (w : List Char)
    (hc : c ≠ '\n') : tryRule rRule4 q (c :: w) = none :=
  tryRule_none_lit_head rRule4 '\n' ['-', ' '] _ rfl q c w hc

theorem tryRule_rRule4_none_nodash (q : Option Char) (w : List Char)
    (hw : w.head? ≠ some '-') : tryRule rRule4 q ('\n' :: w) = none := by
  cases htr : tryRule rRule4 q ('\n' :: w) with
  | none => rfl
  | some trip =>
    exfalso
    obtain ⟨em, m, rest⟩ := trip
    obtain ⟨ms, hms, -, -, -⟩ := tryRule_some_elim _ _ _ em m rest htr
    rw [show rRule4.pat = [RElem.lit ['\n', '-', ' '], RElem.cls (fun c => c != '\n') 1 none,
      RElem.lit ['\n'], RElem.cls (fun c => c != '-' && c != '\n') 1 (some 1)] from rfl] at hms
    obtain ⟨m1, r1, ms2, hm1, hs2, -⟩ := seqMatch_cons_elim _ _ _ _ _ hms
    obtain ⟨hm1l, hm1eq⟩ := elemMatches_lit_elim _ _ _ _ hm1
    subst hm1l
    simp only [List.cons_append, List.nil_append, List.cons.injEq] at hm1eq
    apply hw
    rw [← hm1eq.2]
    rfl

theorem tryRule_rRule4_none_nl_nonl (q : Option Char) (v : List Char)
    (hv : ∀ c ∈ v, c ≠ '\n') : tryRule rRule4 q ('\n' :: v) = none := by
  cases htr : tryRule rRule4 q ('\n' :: v) with
  | none => rfl
  | some trip =>
    exfalso
    obtain ⟨em, m, rest⟩ := trip
    obtain ⟨ms, hms, -, -, -⟩ := tryRule_some_elim _ _ _ em m rest htr
    rw [show rRule4.pat = [RElem.lit ['\n', '-', ' '], RElem.cls (fun c => c != '\n') 1 none,
      RElem.lit ['\n'], RElem.cls (fun c => c != '-' && c != '\n') 1 (some 1)] from rfl] at hms
    obtain ⟨m1, r1, ms2, hm1, hs2, -⟩ := seqMatch_cons_elim _ _ _ _ _ hms
    obtain ⟨m2, r2, ms3, hm2, hs3, -⟩ := seqMatch_cons_elim _ _ _ _ _ hs2
    obtain ⟨m3, r3, ms4, hm3, hs4, -⟩ := seqMatch_cons_elim _ _ _ _ _ hs3
    obtain ⟨hm1l, hm1eq⟩ := elemMatches_lit_elim _ _ _ _ hm1
    obtain ⟨-, -, hm2eq, -⟩ := elemMatches_cls_elim _ _ _ _ _ _ hm2
    obtain ⟨hm3l, hm3eq⟩ := elemMatches_lit_elim _ _ _ _ hm3
    subst hm1l
    subst hm3l
    apply hv '\n' _ rfl
    have hveq : v = ['-', ' '] ++ (m2 ++ '\n' :: r3) := by
      have := hm1eq
      rw [← hm2eq, ← hm3eq] at this
      simp only [List.cons_append, List.nil_append, List.cons.injEq, List.append_assoc] at this
      exact this.2.symm
    rw [hveq]
    simp

theorem runRule_rRule4_skip_seg (x t : List Char) (q : Option Char) (F : Nat)
    (hx : ∀ c ∈ x, c ≠ '\n') (hF : (x ++ t).length ≤ F) :
    ∃ q2, runRule rRule4 F q (x ++ t) = x ++ runRule rRule4 t.length q2 t := by
  apply runRule_skip_chunk_full rRule4 x t F q (by simpa using hF)
  intro q2 x1 c x2 hxeq
  exact tryRule_rRule4_none_head q2 c _ (hx c (by rw [hxeq]; simp))

theorem runRule_rRule4_fin (x : List Char) (q : Option Char)
    (hx : ∀ c ∈ x, c ≠ '\n') :
    runRule rRule4 x.length q x = x := by
  obtain ⟨q2, hq2⟩ := runRule_rRule4_skip_seg x [] q x.length hx (by simp)
  simp only [List.append_nil] at hq2
  rw [hq2, runRule_nil]
  simp

theorem runRule_rRule4_id (A Y B : List Char) (q : Option Char) (F : Nat)
    (hA : ∀ c ∈ A, c ≠ '\n') (hY : ∀ c ∈ Y, c ≠ '\n') (hB : ∀ c ∈ B, c ≠ '\n')
    (hYne : Y ≠ []) (hY0 : ∀ x, Y.head? = some x → x ≠ '-')
    (hF : (A ++ ('\n' :: '\n' :: (Y ++ ('\n' :: '\n' :: B)))).length ≤ F) :
    runRule rRule4 F q (A ++ ('\n' :: '\n' :: (Y ++ ('\n' :: '\n' :: B)))) =
      A ++ ('\n' :: '\n' :: (Y ++ ('\n' :: '\n' :: B))) := by
  obtain ⟨y0, Y2, rfl⟩ : ∃ y0 Y2, Y = y0 :: Y2 := by
    cases Y with
    | nil => exact absurd rfl hYne
    | cons a as => exact ⟨a, as, rfl⟩
  obtain ⟨qa, hqa⟩ := runRule_rRule4_skip_seg A
    ('\n' :: '\n' :: (y0 :: Y2 ++ ('\n' :: '\n' :: B))) q F hA hF
  rw [hqa]
  rw [runRule_step_none rRule4 _ qa '\n' _ (by simp)
    (tryRule_rRule4_none_nodash qa _ (by simp))]
  rw [runRule_step_none rRule4 _ (some '\n') '\n' _ (by simp)
    (tryRule_rRule4_none_nodash (some '\n') _
      (by simp [hY0 y0 (by simp)]))]
  obtain ⟨qb, hqb⟩ := runRule_rRule4_skip_seg (y0 :: Y2) ('\n' :: '\n' :: B) (some '\n') _
    hY (Nat.le_refl _)
  rw [hqb]
  rw [runRule_step_none rRule4 _ qb '\n' _ (by simp)
    (tryRule_rRule4_none_nodash qb _ (by simp))]
  rw [runRule_step_none rRule4 _ (some '\n') '\n' _ (by simp)
    (tryRule_rRule4_none_nl_nonl (some '\n') B hB)]
  rw [runRule_rRule4_fin B (some '\n') hB]

/-! ### rules that can neither consume nor emit a newline -/

theorem runRule_noNL_split (r : RRule)
    (hmp : ∀ (q : Option Char) (l em m rest : List Char),
      tryRule r q l = some (em, m, rest) →
      (∀ c ∈ em, c ≠ '\n') ∧ (∀ c ∈ m, c ≠ '\n') ∧ ∃ c ∈ em, isJsWs c = false) :
    ∀ (fuel : Nat) (x : List Char) (q : Option Char) (y : List Char),
    (∀ c ∈ x, c ≠ '\n') → x.length + (y.length + 1) ≤ fuel →
    ∃ x2, (∀ c ∈ x2, c ≠ '\n') ∧
      ((∃ c ∈ x, isJsWs c = false) → ∃ c ∈ x2, isJsWs c = false) ∧
      runRule r fuel q (x ++ '\n' :: y) = x2 ++ '\n' :: runRule r y.length (some '\n') y := by
  intro fuel
  induction fuel with
  | zero =>
    intro x q y hx hb
    exact absurd hb (by omega)
  | succ fuel ih =>
    intro x q y hx hb
    cases x with
    | nil =>
      have hnone : tryRule r q ('\n' :: y) = none := by
        cases htr : tryRule r q ('\n' :: y) with
        | none => rfl
        | some trip =>
          exfalso
          obtain ⟨em, m, rest⟩ := trip
          obtain ⟨-, hm, -⟩ := hmp q _ em m rest htr
          obtain ⟨ms, hms, -, hmf, hne⟩ := tryRule_some_elim r q _ em m rest htr
          have hrec := seqMatch_reconstruct _ _ _ _ hms
          cases hmf2 : ms.flatten with
          | nil => exact hne hmf2
          | cons d ds =>
            rw [hmf2] at hrec
            have hd : d = '\n' := by
              simp only [List.cons_append, List.cons.injEq] at hrec
              exact hrec.1
            exact (hm '\n' (by rw [hmf, hmf2]; exact hd ▸ List.mem_cons_self d ds)) rfl
      refine ⟨[], by simp, by simp, ?_⟩
      rw [show ([] : List Char) ++ '\n' :: y = '\n' :: y from rfl]
      rw [runRule_step_none r (fuel + 1) q '\n' y (by simp at hb ⊢; omega) hnone]
      rfl
    | cons c cs =>
      cases htr : tryRule r q (c :: (cs ++ '\n' :: y)) with
      | none =>
        rw [show (c :: cs) ++ '\n' :: y = c :: (cs ++ '\n' :: y) from rfl,
          runRule_succ, htr]
        simp only []
        obtain ⟨x2, hx2nl, hx2q, hx2eq⟩ := ih cs (some c) y
          (fun d hd => hx d (by simp [hd]))
          (by simp at hb; omega)
        refine ⟨c :: x2, ?_, ?_, ?_⟩
        · intro d hd
          rcases List.mem_cons.mp hd with rfl | hd2
          · exact hx d (by simp)
          · exact hx2nl d hd2
        · intro hex
          obtain ⟨d, hd, hdw⟩ := hex
          rcases List.mem_cons.mp hd with rfl | hd2
          · exact ⟨d, by simp, hdw⟩
          · obtain ⟨e, he, hew⟩ := hx2q ⟨d, hd2, hdw⟩
            exact ⟨e, by simp [he], hew⟩
        · rw [hx2eq]
          rfl
      | some trip =>
        obtain ⟨em, m, rest⟩ := trip
        obtain ⟨hemnl, hmnl, hemq⟩ := hmp q _ em m rest htr
        obtain ⟨ms, hms, hemeq, hmf, hne⟩ := tryRule_some_elim r q _ em m rest htr
        have hrec := seqMatch_reconstruct _ _ _ _ hms
        have hrec2 : m ++ rest = (c :: cs) ++ '\n' :: y := by
          rw [hmf]
          simpa using hrec
        obtain ⟨u2, hu2, hrest⟩ := append_sat_split (fun d => d != '\n') m rest (c :: cs) y '\n'
          (fun d hd => by simp [hmnl d hd]) (by simp) hrec2
        have hu2nl : ∀ d ∈ u2, d ≠ '\n' := by
          intro d hd
          apply hx d
          rw [hu2]
          exact List.mem_append_right m hd
        have hmlen : 1 ≤ m.length := by
          cases hm0 : m with
          | nil =>
            rw [hmf] at hm0
            exact absurd hm0 hne
          | cons a as => simp
        have hb2 : u2.length + (y.length + 1) ≤ fuel := by
          have hlen2 := congrArg List.length hu2
          simp only [List.length_append, List.length_cons] at hlen2 hb
          omega
        obtain ⟨x2, hx2nl, hx2q, hx2eq⟩ := ih u2 (some (m.getLastD c)) y hu2nl hb2
        rw [show (c :: cs) ++ '\n' :: y = c :: (cs ++ '\n' :: y) from rfl,
          runRule_succ, htr]
        simp only []
        refine ⟨em ++ x2, ?_, ?_, ?_⟩
        · intro d hd
          rcases List.mem_append.mp hd with hd2 | hd2
          · exact hemnl d hd2
          · exact hx2nl d hd2
        · intro _
          obtain ⟨d, hd, hdw⟩ := hemq
          exact ⟨d, List.mem_append_left x2 hd, hdw⟩
        · rw [hrest, hx2eq, List.append_assoc]

theorem runRule_noNL_final (r : RRule)
    (hmp : ∀ (q : Option Char) (l em m rest : List Char),
      tryRule r q l = some (em, m, rest) →
      (∀ c ∈ em, c ≠ '\n') ∧ (∀ c ∈ m, c ≠ '\n') ∧ ∃ c ∈ em, isJsWs c = false) :
    ∀ (fuel : Nat) (x : List Char) (q : Option Char),
    (∀ c ∈ x, c ≠ '\n') → x.length ≤ fuel →
    ∃ x2, (∀ c ∈ x2, c ≠ '\n') ∧
      ((∃ c ∈ x, isJsWs c = false) → ∃ c ∈ x2, isJsWs c = false) ∧
      runRule r fuel q x = x2 := by
  intro fuel
  induction fuel with
  | zero =>
    intro x q hx hb
    have hx0 : x = [] := List.eq_nil_of_length_eq_zero (Nat.le_zero.mp hb)
    subst hx0
    exact ⟨[], by simp, by simp, runRule_nil r 0 q⟩
  | succ fuel ih =>
    intro x q hx hb
    cases x with
    | nil => exact ⟨[], by simp, by simp, runRule_nil r _ q⟩
    | cons c cs =>
      cases htr : tryRule r q (c :: cs) with
      | none =>
        rw [runRule_succ, htr]
        simp only []
        obtain ⟨x2, hx2nl, hx2q, hx2eq⟩ := ih cs (some c)
          (fun d hd => hx d (by simp [hd])) (by simp at hb; omega)
        refine ⟨c :: x2, ?_, ?_, by rw [hx2eq]⟩
        · intro d hd
          rcases List.mem_cons.mp hd with rfl | hd2
          · exact hx d (by simp)
          · exact hx2nl d hd2
        · intro hex
          obtain ⟨d, hd, hdw⟩ := hex
          rcases List.mem_cons.mp hd with rfl | hd2
          · exact ⟨d, by simp, hdw⟩
          · obtain ⟨e, he, hew⟩ := hx2q ⟨d, hd2, hdw⟩
            exact ⟨e, by simp [he], hew⟩
      | some trip =>
        obtain ⟨em, m, rest⟩ := trip
        obtain ⟨hemnl, hmnl, hemq⟩ := hmp q _ em m rest htr
        obtain ⟨ms, hms, hemeq, hmf, hne⟩ := tryRule_some_elim r q _ em m rest htr
        have hrec := seqMatch_reconstruct _ _ _ _ hms
        have hrec2 : m ++ rest = c :: cs := by
          rw [hmf]
          exact hrec
        have hrestmem : ∀ d ∈ rest, d ∈ c :: cs := by
          intro d hd
          rw [← hrec2]
          exact List.mem_append_right m hd
        have hmlen : 1 ≤ m.length := by
          cases hm0 : m with
          | nil =>
            rw [hmf] at hm0
            exact absurd hm0 hne
          | cons a as => simp
        have hb2 : rest.length ≤ fuel := by
          have hlen2 := congrArg List.length hrec2
          simp only [List.length_append, List.length_cons] at hlen2 hb
          omega
        obtain ⟨x2, hx2nl, hx2q, hx2eq⟩ := ih rest (some (m.getLastD c))
          (fun d hd => hx d (hrestmem d hd)) hb2
        rw [runRule_succ, htr]
        simp only []
        refine ⟨em ++ x2, ?_, ?_, by rw [hx2eq]⟩
        · intro d hd
          rcases List.mem_append.mp hd with hd2 | hd2
          · exact hemnl d hd2
          · exact hx2nl d hd2
        · intro _
          obtain ⟨d, hd, hdw⟩ := hemq
          exact ⟨d, List.mem_append_left x2 hd, hdw⟩

theorem filterMap_eq_nil_of_none {α β : Type} (ss : List α) (f : α → Option β)
    (h : ∀ s ∈ ss, f s = none) : ss.filterMap f = [] := by
  induction ss with
  | nil => rfl
  | cons s ss ih =>
    rw [List.filterMap_cons, h s (by simp)]
    exact ih (fun x hx => h x (by simp [hx]))

theorem tryRule_rRule5_props (q : Option Char) (l em m rest : List Char)
    (h : tryRule rRule5 q l = some (em, m, rest)) :
    (∀ c ∈ em, c ≠ '\n') ∧ (∀ c ∈ m, c ≠ '\n') ∧ ∃ c ∈ em, isJsWs c = false := by
  obtain ⟨ms, hms, hemeq, hmf, -⟩ := tryRule_some_elim _ _ _ em m rest h
  obtain ⟨m1, r1, ms2, hm1, hs2, hmseq⟩ := seqMatch_cons_elim _ _ _ _ _ hms
  obtain ⟨m2, r2, ms3, hm2, hs3, hmseq2⟩ := seqMatch_cons_elim _ _ _ _ _ hs2
  obtain ⟨hm1mem, -⟩ := elemMatches_alts_elim _ _ _ _ hm1
  obtain ⟨hm2nil, -, -⟩ := elemMatches_test_elim _ _ _ _ hm2
  obtain ⟨hms3nil, -⟩ := seqMatch_nil_elim _ _ _ hs3
  subst hms3nil
  subst hmseq2
  subst hmseq
  subst hm2nil
  have hkw : ∀ c ∈ m1, c ≠ '\n' ∧ isJsWs c = false := by
    have hall : ∀ s ∈ salienceKeywords, ∀ c ∈ s, c ≠ '\n' ∧ isJsWs c = false := by decide
    exact fun c hc => hall m1 hm1mem c hc
  have hemval : em = '*' :: '*' :: m1 ++ ['*', '*'] := by
    rw [hemeq]
    rfl
  have hmval : m = m1 := by
    rw [hmf]
    simp
  refine ⟨?_, ?_, ⟨'*', by rw [hemval]; simp, by decide⟩⟩
  · intro c hc
    rw [hemval] at hc
    rcases List.mem_cons.mp hc with rfl | hc2
    · decide
    · rcases List.mem_cons.mp hc2 with rfl | hc3
      · decide
      · rcases List.mem_append.mp hc3 with hc4 | hc4
        · exact (hkw c hc4).1
        · rcases List.mem_cons.mp hc4 with rfl | hc5
          · decide
          · rcases List.mem_cons.mp hc5 with rfl | hc6
            · decide
            · simp at hc6
  · intro c hc
    rw [hmval] at hc
    exact (hkw c hc).1

theorem tryRule_rRule6_props (q : Option Char) (l em m rest : List Char)
    (h : tryRule rRule6 q l = some (em, m, rest)) :
    (∀ c ∈ em, c ≠ '\n') ∧ (∀ c ∈ m, c ≠ '\n') ∧ ∃ c ∈ em, isJsWs c = false := by
  obtain ⟨ms, hms, hemeq, hmf, -⟩ := tryRule_some_elim _ _ _ em m rest h
  obtain ⟨m1, r1, ms2, hm1, hs2, hmseq⟩ := seqMatch_cons_elim _ _ _ _ _ hms
  obtain ⟨m2, r2, ms3, hm2, hs3, hmseq2⟩ := seqMatch_cons_elim _ _ _ _ _ hs2
  obtain ⟨m3, r3, ms4, hm3, hs4, hmseq3⟩ := seqMatch_cons_elim _ _ _ _ _ hs3
  obtain ⟨hm1p, -, -, -⟩ := elemMatches_cls_elim _ _ _ _ _ _ hm1
  obtain ⟨hm2l, -⟩ := elemMatches_lit_elim _ _ _ _ hm2
  obtain ⟨hm3mem, -⟩ := elemMatches_alts_elim _ _ _ _ hm3
  obtain ⟨hms4nil, -⟩ := seqMatch_nil_elim _ _ _ hs4
  subst hms4nil
  subst hmseq3
  subst hmseq2
  subst hmseq
  subst hm2l
  have hm1c : ∀ c ∈ m1, c ≠ '\n' ∧ isJsWs c = false := by
    intro c hc
    have := hm1p c hc
    simp only [Bool.not_eq_true'] at this
    refine ⟨?_, this⟩
    intro hcnl
    rw [hcnl] at this
    exact absurd this (by decide)
  have hext : ∀ c ∈ m3, c ≠ '\n' := by
    have hall : ∀ s ∈ extAlts, ∀ c ∈ s, c ≠ '\n' := by decide
    exact fun c hc => hall m3 hm3mem c hc
  have hflat : [m1, ['.'], m3].flatten = m1 ++ '.' :: m3 := by simp
  have hemval : em = '`' :: ((m1 ++ '.' :: m3) ++ ['`']) := by
    rw [hemeq]
    show '`' :: [m1, ['.'], m3].flatten ++ ['`'] = _
    rw [hflat]
    rfl
  have hmval : m = m1 ++ '.' :: m3 := by
    rw [hmf]
    exact hflat
  have hflatc : ∀ c ∈ m1 ++ '.' :: m3, c ≠ '\n' := by
    intro c hc
    rcases List.mem_append.mp hc with hc2 | hc2
    · exact (hm1c c hc2).1
    · rcases List.mem_cons.mp hc2 with rfl | hc3
      · decide
      · exact hext c hc3
  refine ⟨?_, ?_, ⟨'`', by rw [hemval]; simp, by decide⟩⟩
  · intro c hc
    rw [hemval] at hc
    rcases List.mem_cons.mp hc with rfl | hc2
    · decide
    · rcases List.mem_append.mp hc2 with hc3 | hc3
      · exact hflatc c hc3
      · rcases List.mem_singleton.mp hc3 with rfl
        decide
  · intro c hc
    rw [hmval] at hc
    exact hflatc c hc

theorem tryRule_rRule5_none_head (q : Option Char) (c : Char) (w : List Char)
    (hc : c = '#' ∨ c = ' ') : tryRule rRule5 q (c :: w) = none := by
  apply tryRule_none_of_seqMatch
  apply seqMatch_elem_nil
  show elemMatches (.alts salienceKeywords) (c :: w) = []
  simp only [elemMatches]
  apply filterMap_eq_nil_of_none
  intro s hs
  have hpf : s.isPrefixOf (c :: w) = false := by
    simp only [salienceKeywords] at hs
    rcases hc with rfl | rfl <;> fin_cases hs <;> simp [List.isPrefixOf]
  rw [hpf]
  rfl

theorem tryRule_rRule6_none_space (q : Option Char) (w : List Char) :
    tryRule rRule6 q (' ' :: w) = none :=
  tryRule_none_cls_head_fail rRule6 (fun c => !isJsWs c) 1 none _ rfl q ' ' w
    (by decide) (Nat.le_refl 1)

theorem tryRule_rRule6_none_hashes (q : Option Char) (n : Nat) (w : List Char) :
    tryRule rRule6 q (List.replicate (n + 1) '#' ++ ' ' :: w) = none := by
  cases htr : tryRule rRule6 q (List.replicate (n + 1) '#' ++ ' ' :: w) with
  | none => rfl
  | some trip =>
    exfalso
    obtain ⟨em, m, rest⟩ := trip
    obtain ⟨ms, hms, -, -, -⟩ := tryRule_some_elim _ _ _ em m rest htr
    rw [show rRule6.pat = [RElem.cls (fun c => !isJsWs c) 1 none, RElem.lit ['.'],
      RElem.alts extAlts] from rfl] at hms
    obtain ⟨m1, r1, ms2, hm1, hs2, -⟩ := seqMatch_cons_elim _ _ _ _ _ hms
    obtain ⟨m2, r2, ms3, hm2, hs3, -⟩ := seqMatch_cons_elim _ _ _ _ _ hs2
    obtain ⟨hm1p, hm1lo, hm1eq, -⟩ := elemMatches_cls_elim _ _ _ _ _ _ hm1
    obtain ⟨hm2l, hm2eq⟩ := elemMatches_lit_elim _ _ _ _ hm2
    subst hm2l
    have hjoin : m1 ++ '.' :: r2 = List.replicate (n + 1) '#' ++ ' ' :: w := by
      rw [← hm1eq, ← hm2eq]
      rfl
    obtain ⟨u2, hu2, hrest⟩ := append_sat_split (fun c => !isJsWs c) m1 ('.' :: r2)
      (List.replicate (n + 1) '#') w ' ' hm1p (by decide) hjoin
    cases u2 with
    | nil =>
      simp only [List.nil_append, List.cons.injEq] at hrest
      exact absurd hrest.1 (by decide)
    | cons d ds =>
      have hd : d = '#' := by
        have : d ∈ List.replicate (n + 1) '#' := by
          rw [hu2]
          exact List.mem_append_right m1 (by simp)
        exact List.eq_of_mem_replicate this
      have hdot : '.' = d := by
        simp only [List.cons_append, List.cons.injEq] at hrest
        exact hrest.1
      rw [hd] at hdot
      exact absurd hdot (by decide)

theorem suffix_hashes_space (k : Nat) :
    ∀ (x1 x2 : List Char) (c : Char),
    x1 ++ c :: x2 = List.replicate k '#' ++ [' '] →
    (c = '#' ∧ ∃ p, x2 = List.replicate p '#' ++ [' ']) ∨ (c = ' ' ∧ x2 = []) := by
  induction k with
  | zero =>
    intro x1 x2 c h
    simp only [List.replicate, List.nil_append] at h
    cases x1 with
    | nil =>
      simp only [List.nil_append, List.cons.injEq] at h
      exact Or.inr ⟨h.1, h.2⟩
    | cons a as =>
      exfalso
      have := congrArg List.length h
      simp at this
  | succ n ih =>
    intro x1 x2 c h
    rw [List.replicate_succ, List.cons_append] at h
    cases x1 with
    | nil =>
      simp only [List.nil_append, List.cons.injEq] at h
      exact Or.inl ⟨h.1, n, h.2⟩
    | cons a as =>
      simp only [List.cons_append, List.cons.injEq] at h
      exact ih as x2 c h.2

theorem tryRule_noNL_none_nl (r : RRule)
    (hmp : ∀ (q : Option Char) (l em m rest : List Char),
      tryRule r q l = some (em, m, rest) →
      (∀ c ∈ em, c ≠ '\n') ∧ (∀ c ∈ m, c ≠ '\n') ∧ ∃ c ∈ em, isJsWs c = false)
    (q : Option Char) (w : List Char) : tryRule r q ('\n' :: w) = none := by
  cases htr : tryRule r q ('\n' :: w) with
  | none => rfl
  | some trip =>
    exfalso
    obtain ⟨em, m, rest⟩ := trip
    obtain ⟨-, hm, -⟩ := hmp q _ em m rest htr
    obtain ⟨ms, hms, -, hmf, hne⟩ := tryRule_some_elim r q _ em m rest htr
    have hrec := seqMatch_reconstruct _ _ _ _ hms
    cases hmf2 : ms.flatten with
    | nil => exact hne hmf2
    | cons d ds =>
      rw [hmf2] at hrec
      have hd : d = '\n' := by
        simp only [List.cons_append, List.cons.injEq] at hrec
        exact hrec.1
      exact (hm '\n' (by rw [hmf, hmf2]; exact hd ▸ List.mem_cons_self d ds)) rfl

theorem runRule_hash_space_skip (r : RRule)
    (hsk1 : ∀ (q : Option Char) (n : Nat) (w : List Char),
      tryRule r q (List.replicate (n + 1) '#' ++ ' ' :: w) = none)
    (hsk2 : ∀ (q : Option Char) (w : List Char), tryRule r q (' ' :: w) = none)
    (k : Nat) (t : List Char) (q : Option Char) (F : Nat)
    (hF : ((List.replicate k '#' ++ [' ']) ++ t).length ≤ F) :
    ∃ q2, runRule r F q ((List.replicate k '#' ++ [' ']) ++ t) =
      (List.replicate k '#' ++ [' ']) ++ runRule r t.length q2 t := by
  apply runRule_skip_chunk_full r _ t F q (by simp at hF ⊢; omega)
  intro q2 x1 c x2 hxeq
  rcases suffix_hashes_space k x1 x2 c hxeq.symm with ⟨rfl, p, rfl⟩ | ⟨rfl, rfl⟩
  · have hform : '#' :: ((List.replicate p '#' ++ [' ']) ++ t) =
        List.replicate (p + 1) '#' ++ ' ' :: t := by
      rw [List.replicate_succ]
      simp
    rw [hform]
    exact hsk1 q2 p t
  · exact hsk2 q2 t

theorem runRule_noNL_shape (r : RRule)
    (hmp : ∀ (q : Option Char) (l em m rest : List Char),
      tryRule r q l = some (em, m, rest) →
      (∀ c ∈ em, c ≠ '\n') ∧ (∀ c ∈ m, c ≠ '\n') ∧ ∃ c ∈ em, isJsWs c = false)
    (hsk1 : ∀ (q : Option Char) (n : Nat) (w : List Char),
      tryRule r q (List.replicate (n + 1) '#' ++ ' ' :: w) = none)
    (hsk2 : ∀ (q : Option Char) (w : List Char), tryRule r q (' ' :: w) = none)
    (A Y B : List Char) (k : Nat) (q : Option Char) (F : Nat)
    (hA : ∀ c ∈ A, c ≠ '\n') (hY : ∀ c ∈ Y, c ≠ '\n') (hB : ∀ c ∈ B, c ≠ '\n')
    (hF : (A ++ ('\n' :: '\n' :: ((List.replicate k '#' ++ [' ']) ++
      (Y ++ ('\n' :: '\n' :: B))))).length ≤ F) :
    ∃ A2 Y2 B2,
      runRule r F q (A ++ ('\n' :: '\n' :: ((List.replicate k '#' ++ [' ']) ++
          (Y ++ ('\n' :: '\n' :: B))))) =
        A2 ++ ('\n' :: '\n' :: ((List.replicate k '#' ++ [' ']) ++
          (Y2 ++ ('\n' :: '\n' :: B2)))) ∧
      (∀ c ∈ A2, c ≠ '\n') ∧ (∀ c ∈ Y2, c ≠ '\n') ∧ (∀ c ∈ B2, c ≠ '\n') ∧
      ((∃ c ∈ A, isJsWs c = false) → ∃ c ∈ A2, isJsWs c = false) ∧
      ((∃ c ∈ B, isJsWs c = false) → ∃ c ∈ B2, isJsWs c = false) := by
  obtain ⟨A2, hA2nl, hA2q, hA2eq⟩ := runRule_noNL_split r hmp F A q
    ('\n' :: ((List.replicate k '#' ++ [' ']) ++ (Y ++ ('\n' :: '\n' :: B)))) hA
    (by simp at hF ⊢; omega)
  rw [hA2eq]
  rw [runRule_step_none r _ (some '\n') '\n' _ (by simp)
    (tryRule_noNL_none_nl r hmp (some '\n') _)]
  obtain ⟨qa, hqa⟩ := runRule_hash_space_skip r hsk1 hsk2 k
    (Y ++ ('\n' :: '\n' :: B)) (some '\n') _ (Nat.le_refl _)
  rw [hqa]
  obtain ⟨Y2, hY2nl, hY2q, hY2eq⟩ := runRule_noNL_split r hmp
    (Y ++ ('\n' :: '\n' :: B)).length Y qa ('\n' :: B) hY
    (by simp)
  rw [hY2eq]
  rw [runRule_step_none r _ (some '\n') '\n' B (by simp)
    (tryRule_noNL_none_nl r hmp (some '\n') B)]
  obtain ⟨B2, hB2nl, hB2q, hB2eq⟩ := runRule_noNL_final r hmp B.length B (some '\n') hB
    (Nat.le_refl _)
  rw [hB2eq]
  exact ⟨A2, Y2, B2, rfl, hA2nl, hY2nl, hB2nl, hA2q, hB2q⟩

/-! ### the final trim on the normalized shape -/

theorem dropWhile_append_of_exists (p : Char → Bool) (X Y : List Char)
    (h : ∃ c ∈ X, p c = false) :
    (X ++ Y).dropWhile p = X.dropWhile p ++ Y := by
  induction X with
  | nil => simp at h
  | cons c cs ih =>
    by_cases hc : p c = true
    · have h2 : ∃ d ∈ cs, p d = false := by
        obtain ⟨d, hd, hdp⟩ := h
        rcases List.mem_cons.mp hd with rfl | hd2
        · rw [hc] at hdp
          simp at hdp
        · exact ⟨d, hd2, hdp⟩
      rw [List.cons_append, List.dropWhile_cons, if_pos hc, List.dropWhile_cons,
        if_pos hc]
      exact ih h2
    · rw [List.cons_append, List.dropWhile_cons, if_neg hc, List.dropWhile_cons,
        if_neg hc]
      rfl

theorem jsTrimL_shape (A M B : List Char)
    (hAq : ∃ c ∈ A, isJsWs c = false) (hBq : ∃ c ∈ B, isJsWs c = false) :
    jsTrimL (A ++ ('\n' :: '\n' :: (M ++ ('\n' :: '\n' :: B)))) =
      A.dropWhile isJsWs ++ ('\n' :: '\n' :: (M ++ ('\n' :: '\n' ::
        (B.reverse.dropWhile isJsWs).reverse))) := by
  unfold jsTrimL
  rw [dropWhile_append_of_exists isJsWs A _ hAq]
  have hrev : (A.dropWhile isJsWs ++ ('\n' :: '\n' :: (M ++ ('\n' :: '\n' :: B)))).reverse =
      B.reverse ++ ('\n' :: '\n' :: (M.reverse ++ ('\n' :: '\n' ::
        (A.dropWhile isJsWs).reverse))) := by
    simp [List.reverse_append]
  rw [hrev]
  have hBrev : ∃ c ∈ B.reverse, isJsWs c = false := by
    obtain ⟨c, hc, hcw⟩ := hBq
    exact ⟨c, List.mem_reverse.mpr hc, hcw⟩
  rw [dropWhile_append_of_exists isJsWs B.reverse _ hBrev]
  simp [List.reverse_append]

/-! ### line structure of the normalized result -/

theorem splitNL_noNL (x : List Char) (hx : ∀ c ∈ x, c ≠ '\n') : splitNL x = [x] := by
  induction x with
  | nil => rfl
  | cons c cs ih =>
    have hc : c ≠ '\n' := hx c (by simp)
    simp only [splitNL]
    rw [if_neg (by simp [hc])]
    rw [ih (fun d hd => hx d (by simp [hd]))]

theorem splitNL_append_nl (x r : List Char) (hx : ∀ c ∈ x, c ≠ '\n') :
    splitNL (x ++ '\n' :: r) = x :: splitNL r := by
  induction x with
  | nil =>
    simp only [List.nil_append, splitNL]
    rw [if_pos (by simp)]
  | cons c cs ih =>
    have hc : c ≠ '\n' := hx c (by simp)
    simp only [List.cons_append, splitNL, List.append_eq]
    rw [if_neg (by simp [hc])]
    rw [ih (fun d hd => hx d (by simp [hd]))]

theorem isHeadingLine_hash_space (k : Nat) (h2 : List Char) (hk1 : 1 ≤ k) (hk6 : k ≤ 6) :
    isHeadingLine (List.replicate k '#' ++ ' ' :: h2) = true := by
  unfold isHeadingLine
  rw [(takeWhile_append_sat (fun c => c == '#') (List.replicate k '#') (' ' :: h2)
    (fun c hc => by simp [List.eq_of_mem_replicate hc])
    (by intro rr hrr; simp at hrr; subst hrr; rfl)).1]
  simp only [List.length_replicate]
  rw [List.drop_left' (by simp)]
  simp only []
  rw [Bool.and_eq_true]
  constructor
  · simpa using hk1
  · simpa using hk6

/-! ### the normalization theorem -/

theorem improveReadabilityL_decomp (l : List Char) :
    improveReadabilityL l = jsTrimL (applyRule rRule7 (applyRule rRule6 (applyRule rRule5
      (applyRule rRule4 (applyRule rRule3 (applyRule rRule2 (applyRule rRule1 l))))))) := rfl

/-- C5 (amended): a heading of one to six `#` and a space, surrounded on
both sides by newline-free content lines that contain a non-whitespace
character and do not begin with `'#'`, ends up with exactly one blank
line before and exactly one blank line after it, no matter how many
newlines (one or more on each side, covering zero, one or five blank
lines) separated it from those lines on input: the result decomposes as
`a2 ++ "\n\n" ++ heading ++ "\n\n" ++ b2` with `a2`, `b2` nonempty and
newline-free, and its line list is exactly
`[a2, blank, heading, blank, b2]`. -/
theorem improveReadability_heading_blank_normalization
    (a h b : List Char) (k i j : Nat)
    (hk1 : 1 ≤ k) (hk6 : k ≤ 6) (hi : 1 ≤ i) (hj : 1 ≤ j)
    (haNL : ∀ c ∈ a, c ≠ '\n') (_haH : ∀ x, a.head? = some x → x ≠ '#')
    (haW : ∃ c ∈ a, isJsWs c = false)
    (hhNL : ∀ c ∈ h, c ≠ '\n')
    (hbNL : ∀ c ∈ b, c ≠ '\n') (hbH : ∀ x, b.head? = some x → x ≠ '#')
    (hbW : ∃ c ∈ b, isJsWs c = false) :
    ∃ a2 h2 b2 : List Char,
      improveReadabilityL (a ++ (List.replicate i '\n' ++
          ((List.replicate k '#' ++ ' ' :: h) ++ (List.replicate j '\n' ++ b)))) =
        a2 ++ ('\n' :: '\n' :: ((List.replicate k '#' ++ ' ' :: h2) ++
          ('\n' :: '\n' :: b2))) ∧
      a2 ≠ [] ∧ b2 ≠ [] ∧
      (∀ c ∈ a2, c ≠ '\n') ∧ (∀ c ∈ h2, c ≠ '\n') ∧ (∀ c ∈ b2, c ≠ '\n') ∧
      isHeadingLine (List.replicate k '#' ++ ' ' :: h2) = true ∧
      splitNL (a2 ++ ('\n' :: '\n' :: ((List.replicate k '#' ++ ' ' :: h2) ++
        ('\n' :: '\n' :: b2)))) =
        [a2, [], List.replicate k '#' ++ ' ' :: h2, [], b2] := by
  have hane : a ≠ [] := by
    obtain ⟨c, hc, -⟩ := haW
    intro h0
    rw [h0] at hc
    simp at hc
  have hbne : b ≠ [] := by
    obtain ⟨c, hc, -⟩ := hbW
    intro h0
    rw [h0] at hc
    simp at hc
  have hHdNL : ∀ c ∈ List.replicate k '#' ++ ' ' :: h, c ≠ '\n' := by
    intro c hc
    rcases List.mem_append.mp hc with hc2 | hc2
    · rw [List.eq_of_mem_replicate hc2]
      decide
    · rcases List.mem_cons.mp hc2 with rfl | hc3
      · decide
      · exact hhNL c hc3
  have hHdne : List.replicate k '#' ++ ' ' :: h ≠ [] := by
    intro h0
    have := congrArg List.length h0
    simp at this
  have hifi : (if i < 3 then List.replicate i '\n' else ['\n', '\n']) =
      List.replicate (min i 2) '\n' := by
    by_cases hc : i < 3
    · rw [if_pos hc]
      congr 1
      omega
    · rw [if_neg hc]
      rw [show min i 2 = 2 from by omega]
      rfl
  have hifj : (if j < 3 then List.replicate j '\n' else ['\n', '\n']) =
      List.replicate (min j 2) '\n' := by
    by_cases hc : j < 3
    · rw [if_pos hc]
      congr 1
      omega
    · rw [if_neg hc]
      rw [show min j 2 = 2 from by omega]
      rfl
  have hP1 : applyRule rRule1 (a ++ (List.replicate i '\n' ++
      ((List.replicate k '#' ++ ' ' :: h) ++ (List.replicate j '\n' ++ b)))) =
      a ++ (List.replicate (min i 2) '\n' ++ ((List.replicate k '#' ++ ' ' :: h) ++
        (List.replicate (min j 2) '\n' ++ b))) := by
    show runRule rRule1 _ none _ = _
    rw [runRule_runNl_shape rRule1 3 ['\n', '\n'] rfl (fun q => rfl) (fun ms => rfl)
      (by omega) a (List.replicate k '#' ++ ' ' :: h) b i j none _
      haNL hHdNL hbNL hHdne hi hj (Nat.le_refl _)]
    rw [hifi, hifj]
  have hi1 : min i 2 = 1 ∨ min i 2 = 2 := by omega
  have hj1 : min j 2 = 1 ∨ min j 2 = 2 := by omega
  have hP2 : applyRule rRule2 (a ++ (List.replicate (min i 2) '\n' ++
      ((List.replicate k '#' ++ ' ' :: h) ++ (List.replicate (min j 2) '\n' ++ b)))) =
      a ++ ('\n' :: '\n' :: ((List.replicate k '#' ++ ' ' :: h) ++
        (List.replicate (min j 2) '\n' ++ b))) := by
    show runRule rRule2 _ none _ = _
    exact runRule_rRule2_shape a h b k (min i 2) (min j 2) none _ hk1 hk6
      haNL hane hhNL hbNL hbH hi1 hj1 (Nat.le_refl _)
  have hP3 : applyRule rRule3 (a ++ ('\n' :: '\n' :: ((List.replicate k '#' ++ ' ' :: h) ++
      (List.replicate (min j 2) '\n' ++ b)))) =
      a ++ ('\n' :: '\n' :: ((List.replicate k '#' ++ ' ' :: h) ++
        ('\n' :: '\n' :: b))) := by
    show runRule rRule3 _ none _ = _
    exact runRule_rRule3_shape a h b k (min j 2) none _ hk1 hk6
      haNL hhNL hbNL hbne hbH hj1 (Nat.le_refl _)
  have hHdhead : ∀ x, (List.replicate k '#' ++ ' ' :: h).head? = some x → x ≠ '-' := by
    obtain ⟨k2, hk2⟩ : ∃ k2, k = k2 + 1 := ⟨k - 1, by omega⟩
    subst hk2
    rw [List.replicate_succ]
    intro x hx
    simp only [List.cons_append, List.head?_cons, Option.some.injEq] at hx
    subst hx
    decide
  have hP4 : applyRule rRule4 (a ++ ('\n' :: '\n' :: ((List.replicate k '#' ++ ' ' :: h) ++
      ('\n' :: '\n' :: b)))) =
      a ++ ('\n' :: '\n' :: ((List.replicate k '#' ++ ' ' :: h) ++
        ('\n' :: '\n' :: b))) := by
    show runRule rRule4 _ none _ = _
    exact runRule_rRule4_id a (List.replicate k '#' ++ ' ' :: h) b none _
      haNL hHdNL hbNL hHdne hHdhead (Nat.le_refl _)
  have hconv34 : a ++ ('\n' :: '\n' :: ((List.replicate k '#' ++ ' ' :: h) ++
      ('\n' :: '\n' :: b))) =
      a ++ ('\n' :: '\n' :: ((List.replicate k '#' ++ [' ']) ++
        (h ++ ('\n' :: '\n' :: b)))) := by
    simp
  have hsk1r5 : ∀ (q : Option Char) (n : Nat) (w : List Char),
      tryRule rRule5 q (List.replicate (n + 1) '#' ++ ' ' :: w) = none := by
    intro q n w
    rw [List.replicate_succ, List.cons_append]
    exact tryRule_rRule5_none_head q '#' _ (Or.inl rfl)
  obtain ⟨a5, h5, b5, heq5, h5a, h5h, h5b, h5aq, h5bq⟩ :=
    runRule_noNL_shape rRule5 tryRule_rRule5_props hsk1r5
      (fun q w => tryRule_rRule5_none_head q ' ' w (Or.inr rfl))
      a h b k none
      (a ++ ('\n' :: '\n' :: ((List.replicate k '#' ++ [' ']) ++
        (h ++ ('\n' :: '\n' :: b))))).length
      haNL hhNL hbNL (Nat.le_refl _)
  have hP5 : applyRule rRule5 (a ++ ('\n' :: '\n' :: ((List.replicate k '#' ++ [' ']) ++
      (h ++ ('\n' :: '\n' :: b))))) =
      a5 ++ ('\n' :: '\n' :: ((List.replicate k '#' ++ [' ']) ++
        (h5 ++ ('\n' :: '\n' :: b5)))) := heq5
  obtain ⟨a6, h6, b6, heq6, h6a, h6h, h6b, h6aq, h6bq⟩ :=
    runRule_noNL_shape rRule6 tryRule_rRule6_props tryRule_rRule6_none_hashes
      (fun q w => tryRule_rRule6_none_space q w)
      a5 h5 b5 k none
      (a5 ++ ('\n' :: '\n' :: ((List.replicate k '#' ++ [' ']) ++
        (h5 ++ ('\n' :: '\n' :: b5))))).length
      h5a h5h h5b (Nat.le_refl _)
  have hP6 : applyRule rRule6 (a5 ++ ('\n' :: '\n' :: ((List.replicate k '#' ++ [' ']) ++
      (h5 ++ ('\n' :: '\n' :: b5))))) =
      a6 ++ ('\n' :: '\n' :: ((List.replicate k '#' ++ [' ']) ++
        (h6 ++ ('\n' :: '\n' :: b6)))) := heq6
  have hP6ne : (List.replicate k '#' ++ [' ']) ++ h6 ≠ [] := by
    intro h0
    have := congrArg List.length h0
    simp at this
  have hP6Ynl : ∀ c ∈ (List.replicate k '#' ++ [' ']) ++ h6, c ≠ '\n' := by
    intro c hc
    rcases List.mem_append.mp hc with hc2 | hc2
    · rcases List.mem_append.mp hc2 with hc3 | hc3
      · rw [List.eq_of_mem_replicate hc3]
        decide
      · rcases List.mem_singleton.mp hc3 with rfl
        decide
    · exact h6h c hc2
  have hconv7 : a6 ++ ('\n' :: '\n' :: ((List.replicate k '#' ++ [' ']) ++
      (h6 ++ ('\n' :: '\n' :: b6)))) =
      a6 ++ (List.replicate 2 '\n' ++ (((List.replicate k '#' ++ [' ']) ++ h6) ++
        (List.replicate 2 '\n' ++ b6))) := by
    rw [show List.replicate 2 '\n' = ['\n', '\n'] from rfl]
    simp [List.append_assoc]
  have hP7 : applyRule rRule7 (a6 ++ ('\n' :: '\n' :: ((List.replicate k '#' ++ [' ']) ++
      (h6 ++ ('\n' :: '\n' :: b6))))) =
      a6 ++ ('\n' :: '\n' :: ((List.replicate k '#' ++ [' ']) ++
        (h6 ++ ('\n' :: '\n' :: b6)))) := by
    show runRule rRule7 _ none _ = _
    conv_lhs => rw [hconv7]
    rw [runRule_runNl_shape rRule7 4 ['\n', '\n', '\n'] rfl (fun q => rfl) (fun ms => rfl)
      (by omega) a6 ((List.replicate k '#' ++ [' ']) ++ h6) b6 2 2 none _
      h6a hP6Ynl h6b hP6ne (by omega) (by omega) (Nat.le_refl _)]
    simp [show List.replicate 2 '\n' = ['\n', '\n'] from rfl, List.append_assoc]
  have htrim := jsTrimL_shape a6 ((List.replicate k '#' ++ [' ']) ++ h6) b6
    (h6aq (h5aq haW)) (h6bq (h5bq hbW))
  have hchain : improveReadabilityL (a ++ (List.replicate i '\n' ++
      ((List.replicate k '#' ++ ' ' :: h) ++ (List.replicate j '\n' ++ b)))) =
      a6.dropWhile isJsWs ++ ('\n' :: '\n' :: (((List.replicate k '#' ++ [' ']) ++ h6) ++
        ('\n' :: '\n' :: (b6.reverse.dropWhile isJsWs).reverse))) := by
    rw [improveReadabilityL_decomp]
    rw [hP1, hP2, hP3, hP4, hconv34, hP5, hP6, hP7]
    rw [show (List.replicate k '#' ++ [' ']) ++ (h6 ++ ('\n' :: '\n' :: b6)) =
      ((List.replicate k '#' ++ [' ']) ++ h6) ++ ('\n' :: '\n' :: b6) from by
        simp [List.append_assoc]]
    exact htrim
  refine ⟨a6.dropWhile isJsWs, h6, (b6.reverse.dropWhile isJsWs).reverse,
    ?_, ?_, ?_, ?_, h6h, ?_, ?_, ?_⟩
  · rw [hchain]
    rw [show (List.replicate k '#' ++ [' ']) ++ h6 = List.replicate k '#' ++ ' ' :: h6 from
      by simp]
  · obtain ⟨c, hc, hcw⟩ := h6aq (h5aq haW)
    intro h0
    have := List.dropWhile_eq_nil_iff.mp h0 c hc
    rw [hcw] at this
    simp at this
  · obtain ⟨c, hc, hcw⟩ := h6bq (h5bq hbW)
    intro h0
    have h02 : b6.reverse.dropWhile isJsWs = [] := by
      have := congrArg List.reverse h0
      simpa using this
    have := List.dropWhile_eq_nil_iff.mp h02 c (List.mem_reverse.mpr hc)
    rw [hcw] at this
    simp at this
  · intro c hc
    exact h6a c ((List.dropWhile_sublist isJsWs).subset hc)
  · intro c hc
    have hc2 : c ∈ b6.reverse.dropWhile isJsWs := List.mem_reverse.mp hc
    exact h6b c (List.mem_reverse.mp ((List.dropWhile_sublist isJsWs).subset hc2))
  · exact isHeadingLine_hash_space k h6 hk1 hk6
  · have hHd2NL : ∀ c ∈ List.replicate k '#' ++ ' ' :: h6, c ≠ '\n' := by
      intro c hc
      rcases List.mem_append.mp hc with hc2 | hc2
      · rw [List.eq_of_mem_replicate hc2]
        decide
      · rcases List.mem_cons.mp hc2 with rfl | hc3
        · decide
        · exact h6h c hc3
    have hb2NL : ∀ c ∈ (b6.reverse.dropWhile isJsWs).reverse, c ≠ '\n' := by
      intro c hc
      exact h6b c (List.mem_reverse.mp
        ((List.dropWhile_sublist isJsWs).subset (List.mem_reverse.mp hc)))
    rw [splitNL_append_nl _ _ (fun c hc =>
      h6a c ((List.dropWhile_sublist isJsWs).subset hc))]
    rw [show splitNL ('\n' :: ((List.replicate k '#' ++ ' ' :: h6) ++
        ('\n' :: '\n' :: (b6.reverse.dropWhile isJsWs).reverse))) =
        [] :: splitNL ((List.replicate k '#' ++ ' ' :: h6) ++
          ('\n' :: '\n' :: (b6.reverse.dropWhile isJsWs).reverse)) from by
      have := splitNL_append_nl [] ((List.replicate k '#' ++ ' ' :: h6) ++
        ('\n' :: '\n' :: (b6.reverse.dropWhile isJsWs).reverse)) (by simp)
      simpa using this]
    rw [splitNL_append_nl _ _ hHd2NL]
    rw [show splitNL ('\n' :: (b6.reverse.dropWhile isJsWs).reverse) =
        [] :: splitNL ((b6.reverse.dropWhile isJsWs).reverse) from by
      have := splitNL_append_nl [] ((b6.reverse.dropWhile isJsWs).reverse) (by simp)
      simpa using this]
    rw [splitNL_noNL _ hb2NL]

/-- C5 (counterexample): the refiner does not give every heading line
one blank line on each side.  A heading directly followed by a line
starting with `'#'` keeps zero blank lines after it (the `[^\n#]` guard
refuses to fire), a heading at the start of the document has no blank
line before it, and a heading at the end has none after it (the final
`trim()` removes boundary whitespace). -/
theorem improveReadability_heading_blank_counterexample :
    (improveReadability "a\n# A\n#x" = "a\n\n# A\n#x" ∧
      headingBlankOK (linesOf (improveReadability "a\n# A\n#x")) = false) ∧
    (improveReadability "# A\nb" = "# A\n\nb" ∧
      headingBlankOK (linesOf (improveReadability "# A\nb")) = false) ∧
    (improveReadability "a\n# A" = "a\n\n# A" ∧
      headingBlankOK (linesOf (improveReadability "a\n# A")) = false) := by
  decide

/-- Witness for C5 at `"text"`, five blank lines before `"# Heading"`
and none after it, followed by `"content"`. -/
theorem improveReadability_heading_blank_normalization_witness :
    (∀ c ∈ "text".data, c ≠ '\n') ∧
    ∃ a2 h2 b2 : List Char,
      improveReadabilityL ("text".data ++ (List.replicate 6 '\n' ++
          ((List.replicate 1 '#' ++ ' ' :: "Heading".data) ++
            (List.replicate 1 '\n' ++ "content".data)))) =
        a2 ++ ('\n' :: '\n' :: ((List.replicate 1 '#' ++ ' ' :: h2) ++
          ('\n' :: '\n' :: b2))) ∧
      a2 ≠ [] ∧ b2 ≠ [] ∧
      (∀ c ∈ a2, c ≠ '\n') ∧ (∀ c ∈ h2, c ≠ '\n') ∧ (∀ c ∈ b2, c ≠ '\n') ∧
      isHeadingLine (List.replicate 1 '#' ++ ' ' :: h2) = true ∧
      splitNL (a2 ++ ('\n' :: '\n' :: ((List.replicate 1 '#' ++ ' ' :: h2) ++
        ('\n' :: '\n' :: b2)))) =
        [a2, [], List.replicate 1 '#' ++ ' ' :: h2, [], b2] :=
  ⟨by decide, improveReadability_heading_blank_normalization "text".data "Heading".data
    "content".data 1 6 1 (by decide) (by decide) (by decide) (by decide) (by decide)
    (by decide) (by decide) (by decide) (by decide) (by decide) (by decide)⟩
